import Mathlib

/-!
Shallow embedding of the core of the `baby-parallel-vector-graphics`
rasterizer (Rust), together with proofs about the natural-language
specification of that core.

Modelling conventions:
* `f32` values are modelled as exact rationals (`ℚ`).  All comparisons in the
  source are exact float comparisons, which coincide with rational comparisons
  on the values involved; floating-point rounding of arithmetic is not
  modelled (the one place where an overflow guard matters, `checked_f32_sub`,
  keeps the source's exact bounds `f32::MIN < n < f32::MAX` as rational
  bounds).
* `u32` / `usize` values are modelled as `ℕ`, `i32` as `ℤ`.
* Rust panics (failed `assert!`, out-of-bounds indexing) are modelled by
  `Option`-valued functions returning `none`.
-/

namespace PVG

/-- Screen point, `y` grows downward (source: `usvg::tiny_skia_path::Point`). -/
structure Pt where
  x : ℚ
  y : ℚ
deriving DecidableEq, Repr

/-- Largest finite `f32`, `(2 - 2⁻²³)·2¹²⁷`, as an exact rational. -/
def F32_MAX : ℚ := (2 ^ 24 - 1) * 2 ^ 104

/-- Smallest finite `f32`, `f32::MIN = -f32::MAX`. -/
def F32_MIN : ℚ := -F32_MAX

/-- Source `geometry/rect.rs::checked_f32_sub`: the difference, guarded to lie
strictly between `f32::MIN` and `f32::MAX`. -/
def checked_f32_sub (a b : ℚ) : Option ℚ :=
  if F32_MIN < a - b ∧ a - b < F32_MAX then some (a - b) else none

/-- Source `geometry/rect.rs::Rect`. -/
structure Rect where
  left : ℚ
  top : ℚ
  right : ℚ
  bottom : ℚ
deriving DecidableEq, Repr

/-- Source `Rect::from_ltrb`. -/
def Rect.from_ltrb (left top right bottom : ℚ) : Option Rect :=
  if left ≤ right ∧ top ≤ bottom then
    match checked_f32_sub right left, checked_f32_sub bottom top with
    | some _, some _ => some ⟨left, top, right, bottom⟩
    | _, _ => none
  else
    none

/-- Source `Rect::width`. -/
def Rect.width (r : Rect) : ℚ := r.right - r.left

/-- Source `abstract_segment.rs` epsilon constant. -/
def EPS : ℚ := 1 / 1000000

/-- Source `abstract_segment.rs::Direction`. -/
inductive Direction where
  | NW
  | NE
  | SW
  | SE
  | Horizontal
deriving DecidableEq, Repr

/-- Source `Direction::to_winding_inc`. -/
def Direction.to_winding_inc : Direction → ℤ
  | Direction.NE | Direction.NW => 1
  | Direction.SE | Direction.SW => -1
  | Direction.Horizontal => 0

/-- Source `AbstractLineSegment::direction_svg` (note `-0.0 ≥ 0.0` holds for
`f32`, so the rational `0 ≥ 0` matches the float comparison on negated
arguments). -/
def direction_svg (dx dy : ℚ) : Direction :=
  if |dy| < EPS then Direction.Horizontal
  else if dx ≥ 0 then
    if dy ≥ 0 then Direction.SE else Direction.NE
  else
    if dy ≥ 0 then Direction.SW else Direction.NW

/-- Source `abstract_segment.rs::AbstractLineSegment`.  The `bbox_ltrb`
array is modelled by the four fields `bboxL/bboxT/bboxR/bboxB`; the `u32`
direction tag is modelled by the enumeration directly (`from_u32 ∘ to_u32`
is the identity on the stored values). -/
structure AbstractLineSegment where
  seg_type : ℕ
  path_idx : ℕ
  bboxL : ℚ
  bboxT : ℚ
  bboxR : ℚ
  bboxB : ℚ
  direction : Direction
  a : ℚ
  b : ℚ
  c : ℚ
  x0 : ℚ
  y0 : ℚ
  x1 : ℚ
  y1 : ℚ
deriving DecidableEq, Repr

namespace AbstractLineSegment

/-- Source `AbstractLineSegment::new`: bbox hull, direction, and the
canonicalized implicit-line coefficients (negated when
`a < 0 ∨ (a = 0 ∧ b < 0)`). -/
def new (p0 p1 : Pt) (seg_type : ℕ) (path_id : ℕ) : AbstractLineSegment :=
  if p0.y - p1.y < 0 ∨ (p0.y - p1.y = 0 ∧ p1.x - p0.x < 0) then
    ⟨seg_type, path_id, min p0.x p1.x, min p0.y p1.y, max p0.x p1.x, max p0.y p1.y,
      direction_svg (p1.x - p0.x) (p1.y - p0.y),
      -(p0.y - p1.y), -(p1.x - p0.x), -(p0.x * p1.y - p1.x * p0.y),
      p0.x, p0.y, p1.x, p1.y⟩
  else
    ⟨seg_type, path_id, min p0.x p1.x, min p0.y p1.y, max p0.x p1.x, max p0.y p1.y,
      direction_svg (p1.x - p0.x) (p1.y - p0.y),
      p0.y - p1.y, p1.x - p0.x, p0.x * p1.y - p1.x * p0.y,
      p0.x, p0.y, p1.x, p1.y⟩

/-- Source `AbstractLineSegment::eval`: the implicit form `a·x + b·y + c`. -/
def eval (s : AbstractLineSegment) (x y : ℚ) : ℚ := s.a * x + s.b * y + s.c

/-- Source `AbstractLineSegment::is_left`. -/
def is_left (s : AbstractLineSegment) (x y : ℚ) : Prop := s.eval x y < 0

instance (s : AbstractLineSegment) (x y : ℚ) : Decidable (s.is_left x y) := by
  unfold is_left; infer_instance

/-- Source `AbstractLineSegment::going_right`. -/
def going_right (s : AbstractLineSegment) : Bool :=
  match s.direction with
  | Direction.NW => false
  | Direction.NE => true
  | Direction.SW => false
  | Direction.SE => true
  | Direction.Horizontal => true

/-- Source `AbstractLineSegment::going_up`. -/
def going_up (s : AbstractLineSegment) : Bool :=
  match s.direction with
  | Direction.NW => true
  | Direction.NE => true
  | Direction.SW => false
  | Direction.SE => false
  | Direction.Horizontal => false

/-- Source `AbstractLineSegment::hit_chull`: placeholder returning the
sentinel `-1` ("unknown"). -/
def hit_chull (_s : AbstractLineSegment) (_pt : Pt) : ℤ := -1

/-- Source `AbstractLineSegment::hit_shortcut`. -/
def hit_shortcut (s : AbstractLineSegment) (cell : Rect) (sample_x sample_y : ℚ) : Prop :=
  if |s.b| < EPS then False
  else
    let x0 := cell.right
    let y0 := if s.x0 > s.x1 then s.y0 else s.y1
    if sample_y ≥ y0 then False else sample_x < x0

instance (s : AbstractLineSegment) (cell : Rect) (sx sy : ℚ) :
    Decidable (s.hit_shortcut cell sx sy) := by
  unfold hit_shortcut; dsimp only []; infer_instance

/-- Source `AbstractLineSegment::get_shortcut_base`: the endpoint with the
larger `x`. -/
def get_shortcut_base (s : AbstractLineSegment) : ℚ × ℚ :=
  if s.x0 > s.x1 then (s.x0, s.y0) else (s.x1, s.y1)

end AbstractLineSegment

/-- Source `cell_entry.rs::half_open_eval`. -/
def half_open_eval (seg : AbstractLineSegment) (sample : Pt) : ℤ :=
  if sample.y > seg.bboxB ∨ sample.y ≤ seg.bboxT then
    if ¬(seg.bboxL ≤ sample.x ∧ sample.x < seg.bboxR) then 0
    else
      let same_dir := seg.going_right = seg.going_up
      if sample.y ≤ seg.bboxT then
        if same_dir then -1 else 1
      else
        if same_dir then 1 else -1
  else if sample.x ≥ seg.bboxR then 1
  else if sample.x < seg.bboxL then -1
  else
    let check := seg.hit_chull sample
    if check ≠ -1 then (if check = 1 then -1 else 1)
    else if seg.eval sample.x sample.y < 0 then -1 else 1

/-- Restatement of the specification's case analysis for `half_open_eval`
(section 4.1 "Half-open classification"), written from the spec's words. -/
def half_open_eval_specified (seg : AbstractLineSegment) (sample : Pt) : ℤ :=
  if sample.y > seg.bboxB ∨ sample.y ≤ seg.bboxT then
    if ¬(seg.bboxL ≤ sample.x ∧ sample.x < seg.bboxR) then 0
    else if sample.y ≤ seg.bboxT then
      if seg.going_right = seg.going_up then -1 else 1
    else
      if seg.going_right = seg.going_up then 1 else -1
  else if sample.x ≥ seg.bboxR then 1
  else if sample.x < seg.bboxL then -1
  else if seg.eval sample.x sample.y < 0 then -1 else 1

/-- Helper: the direction stored by `new` is `direction_svg` of the endpoint
difference, irrespective of the canonicalization branch. -/
theorem new_direction_eq (p0 p1 : Pt) (st pid : ℕ) :
    (AbstractLineSegment.new p0 p1 st pid).direction
      = direction_svg (p1.x - p0.x) (p1.y - p0.y) := by
  unfold AbstractLineSegment.new
  split_ifs <;> rfl

/-- Helper: `direction_svg` of a horizontal difference vector. -/
theorem direction_svg_horizontal (dx dy : ℚ) (h : |dy| < EPS) :
    direction_svg dx dy = Direction.Horizontal := by
  unfold direction_svg
  simp [h]

/-- Helper: canonicalized coefficients are stable under endpoint reversal. -/
theorem new_coeffs_reverse (p0 p1 : Pt) (st pid : ℕ) :
    (AbstractLineSegment.new p1 p0 st pid).a = (AbstractLineSegment.new p0 p1 st pid).a ∧
    (AbstractLineSegment.new p1 p0 st pid).b = (AbstractLineSegment.new p0 p1 st pid).b ∧
    (AbstractLineSegment.new p1 p0 st pid).c = (AbstractLineSegment.new p0 p1 st pid).c := by
  obtain ⟨x0, y0⟩ := p0
  obtain ⟨x1, y1⟩ := p1
  unfold AbstractLineSegment.new
  dsimp only
  split_ifs with h1 h2 h2
  · -- both branches negate: impossible
    exfalso
    rcases h1 with h1 | ⟨h1a, h1b⟩ <;> rcases h2 with h2 | ⟨h2a, h2b⟩ <;> linarith
  · exact ⟨by ring, by ring, by ring⟩
  · exact ⟨by ring, by ring, by ring⟩
  · -- neither branch negates: forces p0 = p1 coordinatewise
    rcases not_or.mp h1 with ⟨h1a, h1b⟩
    rcases not_or.mp h2 with ⟨h2a, h2b⟩
    have hy : y1 = y0 := by linarith [not_lt.mp h1a, not_lt.mp h2a]
    subst hy
    simp only [sub_self, not_and, not_lt] at h1b h2b
    have hx : x0 = x1 := by linarith [h1b trivial, h2b trivial]
    subst hx
    exact ⟨by ring, by ring, by ring⟩

/-- Helper: `|to_winding_inc|` is invariant under negating the segment
difference vector. -/
theorem direction_svg_neg_winc_abs (dx dy : ℚ) :
    |(direction_svg (-dx) (-dy)).to_winding_inc| = |(direction_svg dx dy).to_winding_inc| := by
  unfold direction_svg
  have habs : |(-dy)| = |dy| := abs_neg dy
  by_cases h : |dy| < EPS
  · simp [habs, h]
  · simp only [habs, h, if_false]
    by_cases hdy : dy ≥ 0 <;> by_cases hdx : dx ≥ 0 <;> by_cases hdx' : -dx ≥ 0 <;>
      by_cases hdy' : -dy ≥ 0 <;>
      simp [hdy, hdx, hdx', hdy', Direction.to_winding_inc]

/-- Helper: for a non-horizontal difference vector, negating the vector
changes the direction tag. -/
theorem direction_svg_neg_ne (dx dy : ℚ) (h : EPS ≤ |dy|) :
    direction_svg (-dx) (-dy) ≠ direction_svg dx dy := by
  unfold direction_svg
  have habs : |(-dy)| = |dy| := abs_neg dy
  have h' : ¬ |dy| < EPS := not_lt.mpr h
  have hdy0 : dy ≠ 0 := by
    intro h0
    rw [h0] at h
    simp [EPS] at h
    linarith [h]
  by_cases hdy : dy ≥ 0
  · have hdyp : dy > 0 := lt_of_le_of_ne hdy (Ne.symm hdy0)
    have hdy' : ¬ (-dy ≥ 0) := by linarith
    by_cases hdx : dx ≥ 0 <;> by_cases hdx' : -dx ≥ 0 <;>
      simp [habs, h', hdy, hdy', hdx, hdx']
  · have hdy' : -dy ≥ 0 := by linarith [not_le.mp hdy]
    by_cases hdx : dx ≥ 0 <;> by_cases hdx' : -dx ≥ 0 <;>
      simp [habs, h', hdy, hdy', hdx, hdx']

/-- C3 (confirmed). `half_open_eval` implements exactly the specification's
case analysis: `0` outside the vertical band when `x ∉ [L, R)`; a constant
sign `same_dir ? ∓1 : ±1` above/below the band when `x ∈ [L, R)`; inside the
band `+1` for `x ≥ R`, `-1` for `x < L`, otherwise the sign of `eval` with
`eval = 0` mapping to `+1` (the convex-hull probe is the constant sentinel,
so the implicit evaluation always decides the inner case). -/
theorem C3_half_open_eval_spec (seg : AbstractLineSegment) (sample : Pt) :
    half_open_eval seg sample = half_open_eval_specified seg sample := by
  unfold half_open_eval half_open_eval_specified AbstractLineSegment.hit_chull
  norm_num

/-- C4, correction witness: for a horizontal segment the two construction
orders yield the *same* `direction` value (`Horizontal`), contradicting the
claim that the `direction` values always differ. -/
theorem C4_cex_direction_equal :
    (AbstractLineSegment.new ⟨0, 0⟩ ⟨1, 0⟩ 1 0).direction
      = (AbstractLineSegment.new ⟨1, 0⟩ ⟨0, 0⟩ 1 0).direction := by
  rw [new_direction_eq, new_direction_eq]
  rw [direction_svg_horizontal _ _ (by norm_num [EPS]),
    direction_svg_horizontal _ _ (by norm_num [EPS])]

/-- C4 (amended). Constructing a segment from `(p0, p1)` and from `(p1, p0)`
yields identical canonicalized `(a, b, c)`, hence identical `eval` at every
point; `|to_winding_inc|` of the direction is preserved; and the two
`direction` values differ whenever the segment is non-horizontal
(`|Δy| ≥ 10⁻⁶`), while for a horizontal segment both are `Horizontal`. -/
theorem C4_reversal_stability (p0 p1 : Pt) (st pid : ℕ) :
    (AbstractLineSegment.new p1 p0 st pid).a = (AbstractLineSegment.new p0 p1 st pid).a ∧
    (AbstractLineSegment.new p1 p0 st pid).b = (AbstractLineSegment.new p0 p1 st pid).b ∧
    (AbstractLineSegment.new p1 p0 st pid).c = (AbstractLineSegment.new p0 p1 st pid).c ∧
    (∀ x y : ℚ, (AbstractLineSegment.new p1 p0 st pid).eval x y
      = (AbstractLineSegment.new p0 p1 st pid).eval x y) ∧
    |(AbstractLineSegment.new p1 p0 st pid).direction.to_winding_inc|
      = |(AbstractLineSegment.new p0 p1 st pid).direction.to_winding_inc| ∧
    (EPS ≤ |p1.y - p0.y| →
      (AbstractLineSegment.new p1 p0 st pid).direction
        ≠ (AbstractLineSegment.new p0 p1 st pid).direction) ∧
    (|p1.y - p0.y| < EPS →
      (AbstractLineSegment.new p1 p0 st pid).direction = Direction.Horizontal ∧
      (AbstractLineSegment.new p0 p1 st pid).direction = Direction.Horizontal) := by
  obtain ⟨ha, hb, hc⟩ := new_coeffs_reverse p0 p1 st pid
  have hdir : (AbstractLineSegment.new p0 p1 st pid).direction
      = direction_svg (p1.x - p0.x) (p1.y - p0.y) := new_direction_eq p0 p1 st pid
  have hdir' : (AbstractLineSegment.new p1 p0 st pid).direction
      = direction_svg (-(p1.x - p0.x)) (-(p1.y - p0.y)) := by
    rw [new_direction_eq p1 p0 st pid]
    congr 1 <;> ring
  refine ⟨ha, hb, hc, fun x y => ?_, ?_, fun h => ?_, fun h => ⟨?_, ?_⟩⟩
  · unfold AbstractLineSegment.eval
    rw [ha, hb, hc]
  · rw [hdir, hdir']
    exact direction_svg_neg_winc_abs _ _
  · rw [hdir, hdir']
    exact direction_svg_neg_ne _ _ h
  · rw [hdir']
    exact direction_svg_horizontal _ _ (by rwa [abs_neg])
  · rw [hdir]
    exact direction_svg_horizontal _ _ h

/-- C4 witness: the amended theorem applied at the concrete non-horizontal
segment `(0,0) → (3,4)` and at the implication-free components. -/
theorem C4_reversal_stability_witness :
    (AbstractLineSegment.new ⟨3, 4⟩ ⟨0, 0⟩ 1 0).direction
      ≠ (AbstractLineSegment.new ⟨0, 0⟩ ⟨3, 4⟩ 1 0).direction :=
  (C4_reversal_stability ⟨0, 0⟩ ⟨3, 4⟩ 1 0).2.2.2.2.2.1 (by norm_num [EPS])

/-- Helper: closed form of `Rect.from_ltrb`. -/
theorem from_ltrb_eq (l t r b : ℚ) :
    Rect.from_ltrb l t r b =
      if l ≤ r ∧ t ≤ b ∧ F32_MIN < r - l ∧ r - l < F32_MAX ∧
          F32_MIN < b - t ∧ b - t < F32_MAX
      then some ⟨l, t, r, b⟩ else none := by
  unfold Rect.from_ltrb checked_f32_sub
  by_cases h0 : l ≤ r ∧ t ≤ b
  · rw [if_pos h0]
    by_cases h1 : F32_MIN < r - l ∧ r - l < F32_MAX
    · rw [if_pos h1]
      by_cases h2 : F32_MIN < b - t ∧ b - t < F32_MAX
      · rw [if_pos h2, if_pos (by tauto)]
      · rw [if_neg h2, if_neg (by tauto)]
    · rw [if_neg h1]
      by_cases h2 : F32_MIN < b - t ∧ b - t < F32_MAX
      · rw [if_pos h2, if_neg (by tauto)]
      · rw [if_neg h2, if_neg (by tauto)]
  · rw [if_neg h0, if_neg (by tauto)]

/-- C6, correction witness: a rectangle whose width is exactly `f32::MAX`
(a finite value, and both edges are exactly representable `f32` values) is
rejected by `from_ltrb`, because the source guard demands the difference be
*strictly* below `f32::MAX`; so "fails only when a difference is
non-finite" is false. -/
theorem C6_cex_finite_width_rejected :
    Rect.from_ltrb (-((2 ^ 24 - 1) * 2 ^ 103)) 0 ((2 ^ 24 - 1) * 2 ^ 103) 0 = none ∧
    (-((2 ^ 24 - 1) * 2 ^ 103) : ℚ) ≤ (2 ^ 24 - 1) * 2 ^ 103 ∧
    ((0 : ℚ) ≤ 0) ∧
    |((2 ^ 24 - 1) * 2 ^ 103 : ℚ) - (-((2 ^ 24 - 1) * 2 ^ 103))| ≤ F32_MAX ∧
    |(0 : ℚ) - 0| ≤ F32_MAX := by
  refine ⟨?_, by norm_num, le_refl _, ?_, ?_⟩
  · rw [from_ltrb_eq]
    rw [if_neg]
    intro hcontra
    have hlt := hcontra.2.2.2.1
    rw [F32_MAX] at hlt
    norm_num at hlt
  · rw [sub_neg_eq_add, abs_of_nonneg (by positivity)]
    rw [F32_MAX]
    norm_num
  · rw [sub_zero, abs_zero, F32_MAX]
    positivity

/-- C6 (amended). `Rect.from_ltrb` returns `Some` exactly when
`left ≤ right`, `top ≤ bottom`, and both differences lie *strictly* between
`f32::MIN` and `f32::MAX`; when it returns `Some`, the stored fields equal
the given arguments. -/
theorem C6_from_ltrb_characterization (l t r b : ℚ) :
    ((Rect.from_ltrb l t r b).isSome ↔
      (l ≤ r ∧ t ≤ b ∧ F32_MIN < r - l ∧ r - l < F32_MAX ∧
        F32_MIN < b - t ∧ b - t < F32_MAX)) ∧
    (∀ rect : Rect, Rect.from_ltrb l t r b = some rect →
      rect.left = l ∧ rect.top = t ∧ rect.right = r ∧ rect.bottom = b) := by
  rw [from_ltrb_eq]
  split_ifs with h
  · exact ⟨by simpa using h, fun rect hrect => by
      simp only [Option.some.injEq] at hrect
      subst hrect
      exact ⟨rfl, rfl, rfl, rfl⟩⟩
  · exact ⟨by simpa using h, fun rect hrect => by simp at hrect⟩

/-- C6 witness: the amended characterization applied at the ordinary
rectangle `(0, 0, 1, 1)`. -/
theorem C6_from_ltrb_witness :
    (Rect.from_ltrb 0 0 1 1).isSome ∧ (⟨0, 0, 1, 1⟩ : Rect).left = 0 :=
  ⟨((C6_from_ltrb_characterization 0 0 1 1).1).mpr
      (by norm_num [F32_MIN, F32_MAX]),
    ((C6_from_ltrb_characterization 0 0 1 1).2 ⟨0, 0, 1, 1⟩
      (by rw [from_ltrb_eq, if_pos (by norm_num [F32_MIN, F32_MAX])])).1⟩

/-! ### Cell entries and the subdivision kernels (source `cell_entry.rs`) -/

/-- Source sentinel `NONE_U32 = 0xFFFF_FFFF`. -/
def NONE_U32 : ℕ := 4294967295

/-- Source entry flag `EMPTY`. -/
def EMPTY : ℕ := 0

/-- Source entry flag `ABSTRACT = 1 << 0`. -/
def ABSTRACT : ℕ := 1

/-- Source entry flag `WINDING_INCREMENT = 1 << 3`. -/
def WINDING_INCREMENT : ℕ := 8

/-- Child-quadrant index `TOP_LEFT = 0`. -/
def TOP_LEFT : Fin 4 := 0

/-- Child-quadrant index `TOP_RIGHT = 1`. -/
def TOP_RIGHT : Fin 4 := 1

/-- Child-quadrant index `BOTTOM_LEFT = 2`. -/
def BOTTOM_LEFT : Fin 4 := 2

/-- Child-quadrant index `BOTTOM_RIGHT = 3`. -/
def BOTTOM_RIGHT : Fin 4 := 3

/-- Source `cell_entry.rs::flag`. -/
def flag (x off : ℕ) : ℕ := (1 <<< x) <<< off

/-- Source `cell_entry.rs::fill`. -/
def fill (c : Fin 4) : ℕ := flag c.val 0

/-- Source `cell_entry.rs::has_fill`. -/
def has_fill (split_info : ℕ) (c : Fin 4) : Prop := split_info &&& fill c ≠ 0

instance (si : ℕ) (c : Fin 4) : Decidable (has_fill si c) := by
  unfold has_fill; infer_instance

/-- Source `cell_entry.rs::up`. -/
def up (c : Fin 4) : ℕ := flag c.val 4

/-- Source `cell_entry.rs::has_up`. -/
def has_up (split_info : ℕ) (c : Fin 4) : Prop := split_info &&& up c ≠ 0

instance (si : ℕ) (c : Fin 4) : Decidable (has_up si c) := by
  unfold has_up; infer_instance

/-- Source `cell_entry.rs::down`. -/
def down (c : Fin 4) : ℕ := flag c.val 8

/-- Source `cell_entry.rs::has_down`. -/
def has_down (split_info : ℕ) (c : Fin 4) : Prop := split_info &&& down c ≠ 0

instance (si : ℕ) (c : Fin 4) : Decidable (has_down si c) := by
  unfold has_down; infer_instance

/-- Source `cell_entry.rs::EdgeIntersectionInfo`: the 18 sign-flip flags on
the 3×3 probe grid plus the three far-right ("infinity") probes. -/
structure EdgeIntersectionInfo where
  cross0 : Bool
  cross1 : Bool
  cross2 : Bool
  cross3 : Bool
  cross4 : Bool
  cross5 : Bool
  cross6 : Bool
  cross7 : Bool
  cross8 : Bool
  cross9 : Bool
  cross10 : Bool
  cross11 : Bool
  cross12 : Bool
  cross13 : Bool
  cross14 : Bool
  cross15 : Bool
  cross16 : Bool
  cross17 : Bool
deriving DecidableEq, Repr

/-- Source `EdgeIntersectionInfo::new`: 15 `half_open_eval` probes and the
adjacent-probe sign products. -/
def EdgeIntersectionInfo.new (seg : AbstractLineSegment) (parent_bound : Rect)
    (mid_point : Pt) : EdgeIntersectionInfo :=
  let far_x := parent_bound.right + (parent_bound.width + 1) * 1024
  let sign_l := half_open_eval seg ⟨parent_bound.left, mid_point.y⟩
  let sign_c := half_open_eval seg ⟨mid_point.x, mid_point.y⟩
  let sign_r := half_open_eval seg ⟨parent_bound.right, mid_point.y⟩
  let sign_i := half_open_eval seg ⟨far_x, mid_point.y⟩
  let sign_bl := half_open_eval seg ⟨parent_bound.left, parent_bound.bottom⟩
  let sign_b := half_open_eval seg ⟨mid_point.x, parent_bound.bottom⟩
  let sign_br := half_open_eval seg ⟨parent_bound.right, parent_bound.bottom⟩
  let sign_bi := half_open_eval seg ⟨far_x, parent_bound.bottom⟩
  let sign_tl := half_open_eval seg ⟨parent_bound.left, parent_bound.top⟩
  let sign_t := half_open_eval seg ⟨mid_point.x, parent_bound.top⟩
  let sign_tr := half_open_eval seg ⟨parent_bound.right, parent_bound.top⟩
  let sign_ti := half_open_eval seg ⟨far_x, parent_bound.top⟩
  { cross0 := decide (sign_bl * sign_b < 0)
    cross1 := decide (sign_b * sign_br < 0)
    cross2 := decide (sign_bl * sign_l < 0)
    cross3 := decide (sign_b * sign_c < 0)
    cross4 := decide (sign_br * sign_r < 0)
    cross5 := decide (sign_l * sign_c < 0)
    cross6 := decide (sign_c * sign_r < 0)
    cross7 := decide (sign_tl * sign_l < 0)
    cross8 := decide (sign_t * sign_c < 0)
    cross9 := decide (sign_tr * sign_r < 0)
    cross10 := decide (sign_tl * sign_t < 0)
    cross11 := decide (sign_t * sign_tr < 0)
    cross12 := decide (sign_br * sign_bi < 0)
    cross13 := decide (sign_r * sign_i < 0)
    cross14 := decide (sign_tr * sign_ti < 0)
    cross15 := decide (sign_t * sign_ti < 0)
    cross16 := decide (sign_c * sign_i < 0)
    cross17 := decide (sign_b * sign_bi < 0) }

/-- Per-child winding vector, modelling the source's `winding: [i32; 4]`. -/
def addWind (w : Fin 4 → ℤ) (i : Fin 4) (d : ℤ) : Fin 4 → ℤ :=
  Function.update w i (w i + d)

/-- Source `cell_entry.rs::SplitData` (padding dropped). -/
structure SplitData where
  winding : Fin 4 → ℤ
  split_info : ℕ
deriving DecidableEq

/-- Source `SplitData::new`: the per-entry split classification built from
the edge-crossing flags, the endpoint positions, and the propagated
shortcut marker. -/
def SplitData.new (seg : AbstractLineSegment) (shortcut : ℤ) (einfo : EdgeIntersectionInfo)
    (bound : Rect) (mid_point : Pt) : SplitData :=
  let going_up : ℤ := if seg.y0 > seg.y1 then 1 else -1
  let going_right : ℤ := if seg.x0 < seg.x1 then 1 else -1
  let classify_child : ℚ → ℚ → Fin 4 := fun x y =>
    if x ≤ mid_point.x then (if y ≤ mid_point.y then TOP_LEFT else BOTTOM_LEFT)
    else if y ≤ mid_point.y then TOP_RIGHT else BOTTOM_RIGHT
  let contains_in_parent : ℚ → ℚ → Prop := fun x y =>
    bound.left ≤ x ∧ x ≤ bound.right ∧ bound.top ≤ y ∧ y ≤ bound.bottom
  let si : ℕ := 0
  let w : Fin 4 → ℤ := fun _ => 0
  let si := if contains_in_parent seg.x0 seg.y0 then
      si ||| fill (classify_child seg.x0 seg.y0) else si
  let si := if contains_in_parent seg.x1 seg.y1 then
      si ||| fill (classify_child seg.x1 seg.y1) else si
  let si := if einfo.cross0 then si ||| fill BOTTOM_LEFT else si
  let si := if einfo.cross1 then si ||| fill BOTTOM_RIGHT else si
  let w := if einfo.cross1 then addWind w BOTTOM_LEFT going_up else w
  let si := if einfo.cross2 then si ||| fill BOTTOM_LEFT else si
  let si := if einfo.cross3 then si ||| fill BOTTOM_LEFT ||| fill BOTTOM_RIGHT else si
  let si := if einfo.cross3 && !einfo.cross16 && !einfo.cross17 then
      (if going_right > 0 then si ||| up BOTTOM_LEFT else si ||| down BOTTOM_LEFT) else si
  let w := if einfo.cross3 && !einfo.cross16 && einfo.cross17 then
      addWind w BOTTOM_LEFT going_right else w
  let si := if einfo.cross4 then si ||| fill BOTTOM_RIGHT else si
  let si := if einfo.cross4 && !einfo.cross13 && !einfo.cross12 then
      (if going_right > 0 then si ||| up BOTTOM_RIGHT else si ||| down BOTTOM_RIGHT) else si
  let w := if einfo.cross4 && !einfo.cross13 && einfo.cross12 then
      addWind w BOTTOM_RIGHT going_right else w
  let si := if einfo.cross5 then si ||| fill BOTTOM_LEFT ||| fill TOP_LEFT else si
  let si := if einfo.cross6 then si ||| fill BOTTOM_RIGHT ||| fill TOP_RIGHT else si
  let w := if einfo.cross6 then addWind w TOP_LEFT going_up else w
  let si := if einfo.cross7 then si ||| fill TOP_LEFT else si
  let si := if einfo.cross8 then si ||| fill TOP_LEFT ||| fill TOP_RIGHT else si
  let si := if einfo.cross8 && !einfo.cross15 && !einfo.cross16 then
      (if going_right > 0 then si ||| up TOP_LEFT else si ||| down TOP_LEFT) else si
  let w := if einfo.cross8 && !einfo.cross15 && einfo.cross16 then
      addWind w TOP_LEFT going_right else w
  let si := if einfo.cross9 then si ||| fill TOP_RIGHT else si
  let si := if einfo.cross9 && !einfo.cross14 && !einfo.cross13 then
      (if going_right > 0 then si ||| up TOP_RIGHT else si ||| down TOP_RIGHT) else si
  let w := if einfo.cross9 && !einfo.cross14 && einfo.cross13 then
      addWind w TOP_RIGHT going_right else w
  let si := if einfo.cross10 then si ||| fill TOP_LEFT else si
  let si := if einfo.cross11 then si ||| fill TOP_RIGHT else si
  let w := if einfo.cross12 then addWind (addWind w BOTTOM_RIGHT going_up) BOTTOM_LEFT going_up else w
  let w := if einfo.cross13 then addWind (addWind w TOP_RIGHT going_up) TOP_LEFT going_up else w
  let sb := seg.get_shortcut_base
  let d : ℤ := if shortcut = -1 then -1 else 1
  let sbOk : Prop := ¬(sb.2 ≤ bound.top ∨ sb.1 < bound.left) ∧
      bound.right ≤ sb.1 ∧ mid_point.y ≤ sb.2
  let w := if shortcut ≠ 0 ∧ sbOk then addWind (addWind w TOP_LEFT d) TOP_RIGHT d else w
  let w := if shortcut ≠ 0 ∧ sbOk ∧ bound.bottom ≤ sb.2 then
      addWind (addWind w BOTTOM_LEFT d) BOTTOM_RIGHT d else w
  ⟨w, si⟩

/-- Source `cell_entry.rs::CellEntry` (padding dropped; `cell_pos` is always
in `0..4` in reachable states and is modelled as `Fin 4`). -/
structure CellEntry where
  entry_type : ℕ
  data : ℤ
  seg_idx : ℕ
  path_idx : ℕ
  cell_pos : Fin 4
  cell_id : ℕ
deriving DecidableEq, Repr

/-- Source `impl Default for CellEntry`. -/
def CellEntry.defaultEntry : CellEntry :=
  ⟨EMPTY, 0, NONE_U32, 4294967295, 0, 4294967295⟩

/-- Source `cell_entry.rs::SplitEntry`.  The `unique_id` debug counter has no
semantic effect (spec section 9) and is modelled as the constant `0`. -/
structure SplitEntry where
  split_data : SplitData
  offsets : Fin 4 → ℕ
  unique_id : ℕ
  seg_idx : ℕ
  path_idx : ℕ
  parent_cell_id : ℕ
deriving DecidableEq

/-- Source `cell_entry.rs::init_root_cell_entries`. -/
def init_root_cell_entries (abs_segments : List AbstractLineSegment) : List CellEntry :=
  abs_segments.enum.map fun p => ⟨ABSTRACT, 0, p.1, p.2.path_idx, 0, 0⟩

/-- Kernel K1 (source `build_split_entries`).  Out-of-range `seg_idx`
indexing (a Rust panic) is modelled by `none`. -/
def build_split_entries (parent_bound : Rect) (mid_point : Pt)
    (abs_segments : List AbstractLineSegment) :
    List CellEntry → Option (List SplitEntry)
  | [] => some []
  | entry :: rest => do
    let here ←
      if entry.entry_type &&& ABSTRACT ≠ 0 then
        match abs_segments.get? entry.seg_idx with
        | some seg =>
          some [⟨SplitData.new seg entry.data
              (EdgeIntersectionInfo.new seg parent_bound mid_point) parent_bound mid_point,
            fun _ => 0, 0, entry.seg_idx, seg.path_idx, entry.cell_id⟩]
        | none => none
      else
        some []
    let winc :=
      if entry.entry_type &&& WINDING_INCREMENT ≠ 0 then
        [⟨⟨fun _ => entry.data, 0⟩, fun _ => 0, 0, NONE_U32, entry.path_idx, entry.cell_id⟩]
      else []
    let tl ← build_split_entries parent_bound mid_point abs_segments rest
    some (here ++ winc ++ tl)

/-- Body of the kernel-K2 loop: `curr` accumulates the (already updated)
previous entry's winding when the paths match; the updated entry is what the
next iteration reads. -/
def consolidateAux (prev : SplitEntry) : List SplitEntry → List SplitEntry
  | [] => []
  | curr :: rest =>
    let curr' :=
      if curr.path_idx = prev.path_idx then
        { curr with split_data :=
          { curr.split_data with winding :=
              fun c => curr.split_data.winding c + prev.split_data.winding c } }
      else curr
    curr' :: consolidateAux curr' rest

/-- Kernel K2 (source `consolidate_winding_inc`); the `assert!(len > 0)`
panic on an empty list is modelled by `none`. -/
def consolidate_winding_inc : List SplitEntry → Option (List SplitEntry)
  | [] => none
  | e :: rest => some (e :: consolidateAux e rest)

/-- Helper: `dropWhile` never lengthens a list. -/
theorem dropWhile_length_le {α : Type} (p : α → Bool) (l : List α) :
    (l.dropWhile p).length ≤ l.length := by
  induction l with
  | nil => exact Nat.le_refl _
  | cons a tl ih =>
    simp only [List.dropWhile]
    cases p a
    · simp
    · simpa using Nat.le_succ_of_le ih

/-- Accumulating worker for `chunkBy`: `hk` is the key of the current run,
`acc` the current run so far in reverse. -/
def chunkAux {α : Type} (key : α → ℕ) (hk : ℕ) : List α → List α → List (List α)
  | acc, [] => [acc.reverse]
  | acc, x :: rest =>
    if key x == hk then chunkAux key hk (x :: acc) rest
    else acc.reverse :: chunkAux key (key x) [x] rest

/-- Maximal contiguous runs of equal key, in order; this is the run
decomposition the source's K3/K4 `while` loops compute with
`start`/`end`/`tail`. -/
def chunkBy {α : Type} (key : α → ℕ) : List α → List (List α)
  | [] => []
  | a :: rest => chunkAux key (key a) [a] rest

/-- Helper: `chunkAux` in terms of `takeWhile`/`dropWhile`. -/
theorem chunkAux_eq {α : Type} (key : α → ℕ) :
    ∀ (l acc : List α) (hk : ℕ),
      chunkAux key hk acc l =
        (acc.reverse ++ l.takeWhile (fun x => key x == hk)) ::
          chunkBy key (l.dropWhile (fun x => key x == hk)) := by
  intro l
  induction l with
  | nil =>
    intro acc hk
    simp [chunkAux, chunkBy, List.takeWhile, List.dropWhile]
  | cons x rest ih =>
    intro acc hk
    rw [chunkAux]
    by_cases hx : (key x == hk) = true
    · rw [if_pos hx]
      rw [ih (x :: acc) hk]
      rw [List.takeWhile_cons, List.dropWhile_cons, if_pos hx, if_pos hx]
      rw [List.reverse_cons, List.append_assoc, List.singleton_append]
    · rw [if_neg hx]
      rw [List.takeWhile_cons, List.dropWhile_cons, if_neg hx, if_neg hx, List.append_nil]
      rfl

/-- Helper: the run decomposition of a nonempty list: the head's maximal
same-key block, then the decomposition of the remainder. -/
theorem chunkBy_cons {α : Type} (key : α → ℕ) (a : α) (rest : List α) :
    chunkBy key (a :: rest) =
      (a :: rest.takeWhile (fun x => key x == key a)) ::
        chunkBy key (rest.dropWhile (fun x => key x == key a)) := by
  rw [chunkBy, chunkAux_eq]
  rfl

/-- Kernel-K3 inner loop over one path run: assign the running sum as the
entry's offset for `cell`, then advance it by `seg_out + winc_out`. -/
def offsetRun (cell : Fin 4) : ℕ → List SplitEntry → List SplitEntry × ℕ
  | sum, [] => ([], sum)
  | sum, e :: rest =>
    let seg_out : ℕ := if has_fill e.split_data.split_info cell then 1 else 0
    let winc_out : ℕ :=
      if rest.isEmpty ∧ e.split_data.winding cell ≠ 0 then 1 else 0
    let e' := { e with offsets := Function.update e.offsets cell sum }
    let rec_result := offsetRun cell (sum + seg_out + winc_out) rest
    (e' :: rec_result.1, rec_result.2)

/-- Kernel-K3 pass for one child cell: all path runs in order, threading the
global running sum. -/
def offsetPass (cell : Fin 4) (sum : ℕ) (l : List SplitEntry) : List SplitEntry × ℕ :=
  (chunkBy (fun e => e.path_idx) l).foldl
    (fun acc r =>
      let pr := offsetRun cell acc.2 r
      (acc.1 ++ pr.1, pr.2))
    ([], sum)

/-- Kernel K3 (source `update_to_global_offset`): children in the fixed
order TL, TR, BL, BR, then path runs, then input order; returns the updated
entries and the total output size.  The `assert!(!entries.is_empty())` panic
is modelled by `none`. -/
def update_to_global_offset (entries : List SplitEntry) : Option (List SplitEntry × ℕ) :=
  if entries.isEmpty then none
  else
    let p0 := offsetPass TOP_LEFT 0 entries
    let p1 := offsetPass TOP_RIGHT p0.2 p0.1
    let p2 := offsetPass BOTTOM_LEFT p1.2 p1.1
    let p3 := offsetPass BOTTOM_RIGHT p2.2 p2.1
    some p3

/-- Guarded write into the output vector; out-of-bounds indexing (a Rust
panic) is modelled by `none`. -/
def writeAt (arr : List CellEntry) (i : ℕ) (e : CellEntry) : Option (List CellEntry) :=
  if i < arr.length then some (arr.set i e) else none

/-- Kernel-K4 inner loop over one path run for one cell: the deduplication
`continue` (next record shares this record's offset), then up to two writes
(`SEGMENT` first, then `WINDING`; the `?`-style chaining of the fallible
writes is written as explicit `Option.bind`). -/
def scatterRun (cell : Fin 4) : List CellEntry → List SplitEntry → Option (List CellEntry)
  | arr, [] => some arr
  | arr, curr :: rest =>
    if (match rest with
        | next :: _ => next.offsets cell == curr.offsets cell
        | [] => false) then
      scatterRun cell arr rest
    else
      Option.bind
        (if has_fill curr.split_data.split_info cell then
          (writeAt arr (curr.offsets cell)
            ⟨ABSTRACT,
              (if has_up curr.split_data.split_info cell then 1
                else if has_down curr.split_data.split_info cell then -1 else 0),
              curr.seg_idx, curr.path_idx, cell,
              curr.parent_cell_id * 4 + cell.val⟩).map
            (fun a => (a, curr.offsets cell + 1))
        else
          some (arr, curr.offsets cell))
        (fun step1 =>
          Option.bind
            (if rest.isEmpty ∧ curr.split_data.winding cell ≠ 0 then
              writeAt step1.1 step1.2
                ⟨WINDING_INCREMENT, curr.split_data.winding cell, NONE_U32,
                  curr.path_idx, cell, curr.parent_cell_id * 4 + cell.val⟩
            else some step1.1)
            (fun step2 => scatterRun cell step2 rest))

/-- Kernel-K4 pass for one child cell over all path runs. -/
def scatterPass (cell : Fin 4) (arr : List CellEntry) (l : List SplitEntry) :
    Option (List CellEntry) :=
  (chunkBy (fun e => e.path_idx) l).foldlM (fun a r => scatterRun cell a r) arr

/-- Kernel K4 (source `split_to_cell_entry`): output vector of
`out_vec_size` default entries, scattered into in (child, path, input)
order.  The `assert!(split_entries.last().is_some())` panic on an empty
input is modelled by `none`. -/
def split_to_cell_entry (split_entries : List SplitEntry) (out_vec_size : ℕ) :
    Option (List CellEntry) :=
  if split_entries.isEmpty then none
  else
    [TOP_LEFT, TOP_RIGHT, BOTTOM_LEFT, BOTTOM_RIGHT].foldlM
      (fun arr cell => scatterPass cell arr split_entries)
      (List.replicate out_vec_size CellEntry.defaultEntry)

/-- Source `subdivide_cell_entry`: the four kernels in order. -/
def subdivide_cell_entry (cell_entries : List CellEntry) (parent_bound : Rect)
    (parent_mid_point : Pt) (abs_segments : List AbstractLineSegment) :
    Option (List CellEntry) := do
  let split_entries ← build_split_entries parent_bound parent_mid_point abs_segments cell_entries
  let consolidated ← consolidate_winding_inc split_entries
  let offsetted ← update_to_global_offset consolidated
  split_to_cell_entry offsetted.1 offsetted.2

/-! ### Specification-side definitions for the scan kernels (spec section 4.2 and
property 5), written from the spec's words, to be compared with the
source-derived kernels. -/

/-- Helper: the run decomposition concatenates back to the list (bounded
recursion form). -/
theorem chunkBy_flatten_bounded {α : Type} (key : α → ℕ) :
    ∀ (n : ℕ) (l : List α), l.length ≤ n → (chunkBy key l).flatten = l := by
  intro n
  induction n with
  | zero =>
    intro l hl
    match l with
    | [] => rfl
    | a :: r => simp at hl
  | succ n ih =>
    intro l hl
    match l with
    | [] => rfl
    | a :: rest =>
      rw [chunkBy_cons, List.flatten_cons]
      have hlen : (rest.dropWhile (fun x => key x == key a)).length ≤ n := by
        have := dropWhile_length_le (fun x => key x == key a) rest
        simp only [List.length_cons] at hl
        omega
      rw [ih _ hlen]
      rw [List.cons_append, List.takeWhile_append_dropWhile]

/-- Helper: the run decomposition concatenates back to the list. -/
theorem chunkBy_flatten {α : Type} (key : α → ℕ) (l : List α) :
    (chunkBy key l).flatten = l :=
  chunkBy_flatten_bounded key l.length l (Nat.le_refl _)

/-- Spec K2: the inclusive left-to-right sum of the windings of the entries
of one path run, up to and including position `k`. -/
def inclusiveWind (run : List SplitEntry) (k : ℕ) (c : Fin 4) : ℤ :=
  ((run.take (k + 1)).map (fun x => x.split_data.winding c)).sum

/-- Spec K2 on one path run: every entry's winding becomes the inclusive sum
up to and including it. -/
def scanRunSpec (run : List SplitEntry) : List SplitEntry :=
  run.mapIdx fun k e =>
    { e with split_data :=
      { e.split_data with winding := fun c => inclusiveWind run k c } }

/-- Spec K2 on a whole entry list: the scan is segmented by the contiguous
`path_idx` runs. -/
def scanSpec (l : List SplitEntry) : List SplitEntry :=
  ((chunkBy (fun e => e.path_idx) l).map scanRunSpec).flatten

/-- Continuation of the K2 loop after a path boundary: the head of the next
run is taken unchanged and becomes the new accumulator. -/
def consolidateNext : List SplitEntry → List SplitEntry
  | [] => []
  | b :: d => b :: consolidateAux b d

/-- Accumulating form of the K2 loop inside one path run: every entry adds
the running accumulator `w0` and the updated entry feeds the next step. -/
def accRun (w0 : Fin 4 → ℤ) : List SplitEntry → List SplitEntry
  | [] => []
  | e :: rest =>
    { e with split_data :=
      { e.split_data with winding := fun c => e.split_data.winding c + w0 c } }
      :: accRun (fun c => e.split_data.winding c + w0 c) rest

/-- Helper: the head surviving `dropWhile` falsifies the predicate. -/
theorem dropWhile_head_not {α : Type} (p : α → Bool) :
    ∀ (l : List α) (b : α), (l.dropWhile p).head? = some b → p b = false := by
  intro l
  induction l with
  | nil => intro b h; simp [List.dropWhile] at h
  | cons a tl ih =>
    intro b h
    rw [List.dropWhile] at h
    rcases hpa : p a with _ | _
    · rw [hpa] at h
      simp only [List.head?_cons, Option.some.injEq] at h
      subst h
      exact hpa
    · rw [hpa] at h
      exact ih b h

/-- Helper: congruence for the winding-overwrite record update. -/
theorem updWind_eq (e : SplitEntry) {f g : Fin 4 → ℤ} (h : ∀ c, f c = g c) :
    ({ e with split_data := { e.split_data with winding := f } } : SplitEntry)
      = { e with split_data := { e.split_data with winding := g } } := by
  have hfg : f = g := funext h
  rw [hfg]

/-- Helper: `mapIdx` congruence on in-range indices. -/
theorem mapIdx_congr_get {α β : Type} :
    ∀ (l : List α) (f g : ℕ → α → β),
      (∀ i a, l.get? i = some a → f i a = g i a) → l.mapIdx f = l.mapIdx g := by
  intro l
  induction l with
  | nil => intro f g _; rfl
  | cons a tl ih =>
    intro f g h
    rw [List.mapIdx_cons, List.mapIdx_cons]
    rw [h 0 a rfl, ih (fun i => f (i + 1)) (fun i => g (i + 1)) (fun i x hx => h (i + 1) x hx)]

/-- Helper: the K2 loop over `t ++ rest`, where `t` shares the accumulator's
path and `rest` starts (if at all) with a different path, accumulates over
`t` and restarts on `rest`. -/
theorem consolidateAux_split (t : List SplitEntry) :
    ∀ (prev : SplitEntry) (rest : List SplitEntry),
      (∀ e ∈ t, e.path_idx = prev.path_idx) →
      (∀ b, rest.head? = some b → b.path_idx ≠ prev.path_idx) →
      consolidateAux prev (t ++ rest) =
        accRun prev.split_data.winding t ++ consolidateNext rest := by
  induction t with
  | nil =>
    intro prev rest _ hB
    match rest with
    | [] => rfl
    | b :: d =>
      simp only [List.nil_append, consolidateAux, accRun, consolidateNext]
      rw [if_neg (hB b rfl)]
  | cons e t' ih =>
    intro prev rest hT hB
    have hpe : e.path_idx = prev.path_idx := hT e (List.mem_cons_self e t')
    simp only [List.cons_append, consolidateAux, accRun]
    rw [if_pos hpe]
    refine congrArg _ ?_
    exact ih _ rest (fun x hx => (hT x (List.mem_cons_of_mem e hx)).trans hpe.symm)
      (fun b hb hcontra => hB b hb (hcontra.trans hpe))

/-- Helper: the accumulating loop computes the explicit inclusive sums. -/
theorem accRun_eq_sums (run : List SplitEntry) :
    ∀ w0 : Fin 4 → ℤ,
      accRun w0 run = run.mapIdx fun k e =>
        { e with split_data :=
          { e.split_data with winding := fun c => w0 c + inclusiveWind run k c } } := by
  induction run with
  | nil => intro w0; rfl
  | cons e rest ih =>
    intro w0
    rw [List.mapIdx_cons]
    unfold accRun
    refine congrArg₂ List.cons ?_ ?_
    · refine updWind_eq e fun c => ?_
      simp only [inclusiveWind]
      rw [show (e :: rest).take (0 + 1) = [e] from rfl]
      simp only [List.map_cons, List.map_nil, List.sum_cons, List.sum_nil, add_zero]
      ring
    · rw [ih (fun c => e.split_data.winding c + w0 c)]
      refine mapIdx_congr_get _ _ _ ?_
      intro i a _
      refine updWind_eq a fun c => ?_
      simp only [inclusiveWind, List.take_succ_cons, List.map_cons, List.sum_cons]
      ring

/-- Helper: spec K2 on a run with explicit head. -/
theorem scanRunSpec_cons (a : SplitEntry) (t : List SplitEntry) :
    scanRunSpec (a :: t) = a :: accRun a.split_data.winding t := by
  unfold scanRunSpec
  rw [List.mapIdx_cons]
  refine congrArg₂ List.cons ?_ ?_
  · exact updWind_eq a fun c => by
      simp only [inclusiveWind]
      rw [show (a :: t).take (0 + 1) = [a] from rfl]
      simp
  · rw [accRun_eq_sums]
    refine mapIdx_congr_get _ _ _ ?_
    intro i x _
    refine updWind_eq x fun c => ?_
    simp only [inclusiveWind, List.take_succ_cons, List.map_cons, List.sum_cons]

/-- Main helper for C1's K2 half: the source K2 loop equals the spec's
path-segmented inclusive scan. -/
theorem consolidate_eq_scanSpec_bounded :
    ∀ (n : ℕ) (l : List SplitEntry), l.length ≤ n → l ≠ [] →
      consolidate_winding_inc l = some (scanSpec l) := by
  intro n
  induction n with
  | zero =>
    intro l hl hne
    match l with
    | [] => exact absurd rfl hne
    | a :: rest => simp at hl
  | succ n ih =>
    intro l hl hne
    match l with
    | a :: rest =>
      have hsplit : rest.takeWhile (fun x => x.path_idx == a.path_idx) ++
          rest.dropWhile (fun x => x.path_idx == a.path_idx) = rest := by
        exact List.takeWhile_append_dropWhile _ _
      have hT : ∀ e ∈ rest.takeWhile (fun x => x.path_idx == a.path_idx),
          e.path_idx = a.path_idx := by
        intro e he
        simpa using List.mem_takeWhile_imp he
      have hB : ∀ b, (rest.dropWhile (fun x => x.path_idx == a.path_idx)).head? = some b →
          b.path_idx ≠ a.path_idx := by
        intro b hb
        simpa using dropWhile_head_not _ rest b hb
      have hrec : consolidateNext (rest.dropWhile (fun x => x.path_idx == a.path_idx))
          = scanSpec (rest.dropWhile (fun x => x.path_idx == a.path_idx)) := by
        match hd : rest.dropWhile (fun x => x.path_idx == a.path_idx) with
        | [] =>
          rw [hd]
          rfl
        | b :: d =>
          rw [hd]
          have hlen : (b :: d).length ≤ n := by
            have h1 := dropWhile_length_le (fun x => x.path_idx == a.path_idx) rest
            rw [hd] at h1
            simp only [List.length_cons] at hl
            omega
          have hihres := ih (b :: d) hlen (by simp)
          unfold consolidate_winding_inc at hihres
          simp only [Option.some.injEq] at hihres
          exact hihres
      have hgoal : scanSpec (a :: rest) =
          scanRunSpec (a :: rest.takeWhile (fun x => x.path_idx == a.path_idx)) ++
            scanSpec (rest.dropWhile (fun x => x.path_idx == a.path_idx)) := by
        unfold scanSpec
        rw [chunkBy_cons, List.map_cons, List.flatten_cons]
      rw [show consolidate_winding_inc (a :: rest) = some (a :: consolidateAux a rest) from rfl]
      rw [hgoal, scanRunSpec_cons]
      conv_lhs => rw [← hsplit]
      rw [consolidateAux_split _ a _ hT hB, hrec, List.cons_append]

/-! ### Specification-side definitions for K3 (exclusive offsets) and K4
(scatter), from the spec's words. -/

/-- Spec K3: the number of outputs one record emits into one (cell, path)
bucket: `seg_out` iff its `fill[cell]` bit is set, `winc_out` iff it is the
tail of its path run and its cumulative winding for `cell` is nonzero. -/
def emitOf (cell : Fin 4) (isTail : Bool) (e : SplitEntry) : ℕ :=
  (if has_fill e.split_data.split_info cell then 1 else 0) +
  (if isTail ∧ e.split_data.winding cell ≠ 0 then 1 else 0)

/-- Emit counts of one path run, in input order. -/
def runEmits (cell : Fin 4) : List SplitEntry → List ℕ
  | [] => []
  | e :: rest => emitOf cell rest.isEmpty e :: runEmits cell rest

/-- Emit counts of a whole entry list for one child cell, path runs in
order. -/
def cellEmits (cell : Fin 4) (l : List SplitEntry) : List ℕ :=
  ((chunkBy (fun e => e.path_idx) l).map (runEmits cell)).flatten

/-- Exclusive running sums starting at `s` (the strict exclusive prefix-sum
of the spec). -/
def exclFrom : ℕ → List ℕ → List ℕ
  | _, [] => []
  | s, n :: tl => s :: exclFrom (s + n) tl

/-- Total number of outputs of one child cell. -/
def cellTotal (cell : Fin 4) (l : List SplitEntry) : ℕ := (cellEmits cell l).sum

/-- Where a child cell's output region begins, children in the fixed order
TL, TR, BL, BR. -/
def cellStart (cell : Fin 4) (l : List SplitEntry) : ℕ :=
  match cell with
  | 0 => 0
  | 1 => cellTotal TOP_LEFT l
  | 2 => cellTotal TOP_LEFT l + cellTotal TOP_RIGHT l
  | 3 => cellTotal TOP_LEFT l + cellTotal TOP_RIGHT l + cellTotal BOTTOM_LEFT l

/-- Total number of outputs over all four children. -/
def totalEmits (l : List SplitEntry) : ℕ :=
  cellTotal TOP_LEFT l + cellTotal TOP_RIGHT l + cellTotal BOTTOM_LEFT l +
    cellTotal BOTTOM_RIGHT l

/-- Everything of a split entry except its offsets (K3 and K4 read only
these fields). -/
def coreOf (e : SplitEntry) : SplitData × ℕ × ℕ × ℕ × ℕ :=
  (e.split_data, e.unique_id, e.seg_idx, e.path_idx, e.parent_cell_id)

/-- Helper: `exclFrom` distributes over append. -/
theorem exclFrom_append (xs : List ℕ) : ∀ (s : ℕ) (ys : List ℕ),
    exclFrom s (xs ++ ys) = exclFrom s xs ++ exclFrom (s + xs.sum) ys := by
  induction xs with
  | nil => intro s ys; simp [exclFrom]
  | cons n tl ih =>
    intro s ys
    simp only [List.cons_append, exclFrom, List.sum_cons, List.append_eq]
    rw [ih (s + n) ys]
    refine congrArg _ (congrArg _ (congrArg₂ _ ?_ rfl))
    omega

/-- Helper: the K3 inner loop computes the exclusive sums of the emit
counts, advances the running sum by the run total, and changes nothing but
this cell's offsets. -/
theorem offsetRun_spec (cell : Fin 4) (r : List SplitEntry) : ∀ s : ℕ,
    (offsetRun cell s r).1.map (fun e => e.offsets cell) = exclFrom s (runEmits cell r) ∧
    (offsetRun cell s r).2 = s + (runEmits cell r).sum ∧
    (offsetRun cell s r).1.map coreOf = r.map coreOf ∧
    (∀ c' : Fin 4, c' ≠ cell →
      (offsetRun cell s r).1.map (fun e => e.offsets c') = r.map (fun e => e.offsets c')) := by
  induction r with
  | nil =>
    intro s
    refine ⟨rfl, by simp [offsetRun, runEmits], rfl, fun c' _ => rfl⟩
  | cons e rest ih =>
    intro s
    obtain ⟨ih1, ih2, ih3, ih4⟩ := ih (s + emitOf cell rest.isEmpty e)
    have hstep : offsetRun cell s (e :: rest) =
        ({ e with offsets := Function.update e.offsets cell s } ::
            (offsetRun cell (s + emitOf cell rest.isEmpty e) rest).1,
          (offsetRun cell (s + emitOf cell rest.isEmpty e) rest).2) := by
      rw [offsetRun]
      have : s + (if has_fill e.split_data.split_info cell then 1 else 0) +
          (if rest.isEmpty ∧ e.split_data.winding cell ≠ 0 then 1 else 0) =
          s + emitOf cell rest.isEmpty e := by
        unfold emitOf
        omega
      rw [this]
    rw [hstep]
    refine ⟨?_, ?_, ?_, ?_⟩
    · rw [List.map_cons, ih1, runEmits, exclFrom]
      refine congrArg₂ _ ?_ rfl
      simp [Function.update_same]
    · rw [ih2, runEmits, List.sum_cons]
      omega
    · rw [List.map_cons, ih3, List.map_cons]
      rfl
    · intro c' hc'
      rw [List.map_cons, ih4 c' hc', List.map_cons]
      refine congrArg₂ _ ?_ rfl
      simp [Function.update_noteq hc']

/-- Ghost recursion describing the K3 pass run-by-run. -/
def offsetRunsGo (cell : Fin 4) : ℕ → List (List SplitEntry) → List (List SplitEntry) × ℕ
  | s, [] => ([], s)
  | s, r :: rs =>
    let pr := offsetRun cell s r
    let rec_result := offsetRunsGo cell pr.2 rs
    (pr.1 :: rec_result.1, rec_result.2)

/-- Helper: the K3 fold over runs is `offsetRunsGo` with an accumulator. -/
theorem offsetFold_eq (cell : Fin 4) : ∀ (runs : List (List SplitEntry))
    (acc : List SplitEntry) (s : ℕ),
    runs.foldl (fun acc r =>
        let pr := offsetRun cell acc.2 r
        (acc.1 ++ pr.1, pr.2)) (acc, s) =
      (acc ++ (offsetRunsGo cell s runs).1.flatten, (offsetRunsGo cell s runs).2) := by
  intro runs
  induction runs with
  | nil => intro acc s; simp [offsetRunsGo]
  | cons r rs ih =>
    intro acc s
    rw [List.foldl_cons]
    rw [ih]
    simp only [offsetRunsGo, List.flatten_cons, List.append_assoc]

/-- Helper: `offsetRunsGo` over a run list: exclusive offsets for this cell,
total advance, and preservation of everything else. -/
theorem offsetRunsGo_spec (cell : Fin 4) : ∀ (runs : List (List SplitEntry)) (s : ℕ),
    ((offsetRunsGo cell s runs).1.flatten.map (fun e => e.offsets cell)
      = exclFrom s ((runs.map (runEmits cell)).flatten)) ∧
    ((offsetRunsGo cell s runs).2 = s + ((runs.map (runEmits cell)).flatten).sum) ∧
    ((offsetRunsGo cell s runs).1.flatten.map coreOf = runs.flatten.map coreOf) ∧
    (∀ c' : Fin 4, c' ≠ cell →
      (offsetRunsGo cell s runs).1.flatten.map (fun e => e.offsets c')
        = runs.flatten.map (fun e => e.offsets c')) := by
  intro runs
  induction runs with
  | nil =>
    intro s
    exact ⟨rfl, by simp [offsetRunsGo], rfl, fun c' _ => rfl⟩
  | cons r rs ih =>
    intro s
    obtain ⟨hr1, hr2, hr3, hr4⟩ := offsetRun_spec cell r s
    obtain ⟨ih1, ih2, ih3, ih4⟩ := ih (offsetRun cell s r).2
    simp only [offsetRunsGo, List.flatten_cons, List.map_append, List.map_cons]
    refine ⟨?_, ?_, ?_, ?_⟩
    · rw [hr1, ih1, exclFrom_append, hr2]
    · rw [ih2, hr2, List.sum_append]
      omega
    · rw [hr3, ih3]
    · intro c' hc'
      rw [hr4 c' hc', ih4 c' hc']

/-- Helper: characterization of one whole K3 pass. -/
theorem offsetPass_spec (cell : Fin 4) (s : ℕ) (l : List SplitEntry) :
    ((offsetPass cell s l).1.map (fun e => e.offsets cell) = exclFrom s (cellEmits cell l)) ∧
    ((offsetPass cell s l).2 = s + cellTotal cell l) ∧
    ((offsetPass cell s l).1.map coreOf = l.map coreOf) ∧
    (∀ c' : Fin 4, c' ≠ cell →
      (offsetPass cell s l).1.map (fun e => e.offsets c') = l.map (fun e => e.offsets c')) := by
  obtain ⟨h1, h2, h3, h4⟩ := offsetRunsGo_spec cell (chunkBy (fun e => e.path_idx) l) s
  have hflat : (chunkBy (fun e => e.path_idx) l).flatten = l := chunkBy_flatten _ l
  have hpass : offsetPass cell s l =
      ((offsetRunsGo cell s (chunkBy (fun e => e.path_idx) l)).1.flatten,
        (offsetRunsGo cell s (chunkBy (fun e => e.path_idx) l)).2) := by
    unfold offsetPass
    rw [offsetFold_eq]
    rw [List.nil_append]
  rw [hpass]
  rw [hflat] at h3 h4
  exact ⟨h1, h2, h3, h4⟩

/-- Helper: `chunkBy` commutes with `map` when the key factors through the
mapped function. -/
theorem chunkBy_map_bounded {α β : Type} (f : α → β) (key : β → ℕ) :
    ∀ (n : ℕ) (l : List α), l.length ≤ n →
      (chunkBy (fun a => key (f a)) l).map (List.map f) = chunkBy key (l.map f) := by
  intro n
  induction n with
  | zero =>
    intro l hl
    match l with
    | [] => rfl
    | a :: r => simp at hl
  | succ n ih =>
    intro l hl
    match l with
    | [] => rfl
    | a :: rest =>
      rw [List.map_cons, chunkBy_cons, chunkBy_cons, List.map_cons, List.map_cons,
        List.takeWhile_map, List.dropWhile_map]
      simp only [Function.comp_def]
      have hlen : (rest.dropWhile (fun x => key (f x) == key (f a))).length ≤ n := by
        have := dropWhile_length_le (fun x => key (f x) == key (f a)) rest
        simp only [List.length_cons] at hl
        omega
      rw [← ih _ hlen]

/-- Helper: `chunkBy` commutes with `map`. -/
theorem chunkBy_map {α β : Type} (f : α → β) (key : β → ℕ) (l : List α) :
    (chunkBy (fun a => key (f a)) l).map (List.map f) = chunkBy key (l.map f) :=
  chunkBy_map_bounded f key l.length l (Nat.le_refl _)

/-- Emit count read off the offset-free projection of an entry. -/
def emitOfCore (cell : Fin 4) (isTail : Bool) (c : SplitData × ℕ × ℕ × ℕ × ℕ) : ℕ :=
  (if has_fill c.1.split_info cell then 1 else 0) +
  (if isTail ∧ c.1.winding cell ≠ 0 then 1 else 0)

/-- Run emit counts read off the offset-free projections. -/
def runEmitsCore (cell : Fin 4) : List (SplitData × ℕ × ℕ × ℕ × ℕ) → List ℕ
  | [] => []
  | c :: rest => emitOfCore cell rest.isEmpty c :: runEmitsCore cell rest

/-- Helper: `runEmits` factors through `coreOf`. -/
theorem runEmits_eq_core (cell : Fin 4) : ∀ r : List SplitEntry,
    runEmits cell r = runEmitsCore cell (r.map coreOf) := by
  intro r
  induction r with
  | nil => rfl
  | cons e rest ih =>
    rw [List.map_cons, runEmits, runEmitsCore, ih]
    refine congrArg₂ _ ?_ rfl
    unfold emitOf emitOfCore coreOf
    simp [List.isEmpty_iff]

/-- Helper: `cellEmits` depends only on the offset-free projections. -/
theorem cellEmits_congr (cell : Fin 4) (l1 l2 : List SplitEntry)
    (h : l1.map coreOf = l2.map coreOf) : cellEmits cell l1 = cellEmits cell l2 := by
  have key1 : ∀ l : List SplitEntry, cellEmits cell l =
      ((chunkBy (fun c : SplitData × ℕ × ℕ × ℕ × ℕ => c.2.2.2.1) (l.map coreOf)).map
        (runEmitsCore cell)).flatten := by
    intro l
    unfold cellEmits
    rw [← chunkBy_map coreOf (fun c => c.2.2.2.1) l]
    rw [List.map_map]
    refine congrArg _ (List.map_congr_left ?_)
    intro r _
    exact runEmits_eq_core cell r
  rw [key1 l1, key1 l2, h]

/-- Helper: `cellTotal` depends only on the offset-free projections. -/
theorem cellTotal_congr (cell : Fin 4) (l1 l2 : List SplitEntry)
    (h : l1.map coreOf = l2.map coreOf) : cellTotal cell l1 = cellTotal cell l2 := by
  unfold cellTotal
  rw [cellEmits_congr cell l1 l2 h]

/-- Main helper for C1's K3 half and for the scatter lemmas: full
characterization of `update_to_global_offset`: it succeeds exactly on
nonempty input, assigns every entry the globally exclusive offsets in
(child, path run, input) order, returns the total emit count, and changes
nothing but the offsets. -/
theorem update_spec (l m : List SplitEntry) (T : ℕ)
    (h : update_to_global_offset l = some (m, T)) :
    m.map coreOf = l.map coreOf ∧
    (∀ c : Fin 4, m.map (fun e => e.offsets c) = exclFrom (cellStart c l) (cellEmits c l)) ∧
    T = totalEmits l := by
  have hne : l.isEmpty = false := by
    by_contra hcontra
    have : l.isEmpty = true := by
      cases hempty : l.isEmpty
      · exact absurd hempty hcontra
      · rfl
    unfold update_to_global_offset at h
    rw [this] at h
    simp at h
  unfold update_to_global_offset at h
  rw [hne] at h
  simp only [Bool.false_eq_true, if_false, Option.some.injEq] at h
  rcases hP0 : offsetPass TOP_LEFT 0 l with ⟨m1, s1⟩
  rcases hP1 : offsetPass TOP_RIGHT s1 m1 with ⟨m2, s2⟩
  rcases hP2 : offsetPass BOTTOM_LEFT s2 m2 with ⟨m3, s3⟩
  rcases hP3 : offsetPass BOTTOM_RIGHT s3 m3 with ⟨m4, s4⟩
  rw [hP0] at h
  dsimp only at h
  rw [hP1] at h
  dsimp only at h
  rw [hP2] at h
  dsimp only at h
  rw [hP3] at h
  have P0 := offsetPass_spec TOP_LEFT 0 l
  rw [hP0] at P0
  dsimp only at P0
  obtain ⟨p01, p02, p03, p04⟩ := P0
  have P1 := offsetPass_spec TOP_RIGHT s1 m1
  rw [hP1] at P1
  dsimp only at P1
  obtain ⟨p11, p12, p13, p14⟩ := P1
  have P2 := offsetPass_spec BOTTOM_LEFT s2 m2
  rw [hP2] at P2
  dsimp only at P2
  obtain ⟨p21, p22, p23, p24⟩ := P2
  have P3 := offsetPass_spec BOTTOM_RIGHT s3 m3
  rw [hP3] at P3
  dsimp only at P3
  obtain ⟨p31, p32, p33, p34⟩ := P3
  injection h with hm hT
  subst hm
  subst hT
  have hc1 : m1.map coreOf = l.map coreOf := p03
  have hc2 : m2.map coreOf = l.map coreOf := p13.trans hc1
  have hc3 : m3.map coreOf = l.map coreOf := p23.trans hc2
  have hc4 : m4.map coreOf = l.map coreOf := p33.trans hc3
  have e1 : cellEmits TOP_RIGHT m1 = cellEmits TOP_RIGHT l := cellEmits_congr _ _ _ hc1
  have e2 : cellEmits BOTTOM_LEFT m2 = cellEmits BOTTOM_LEFT l := cellEmits_congr _ _ _ hc2
  have e3 : cellEmits BOTTOM_RIGHT m3 = cellEmits BOTTOM_RIGHT l := cellEmits_congr _ _ _ hc3
  have t1 : cellTotal TOP_RIGHT m1 = cellTotal TOP_RIGHT l := cellTotal_congr _ _ _ hc1
  have t2 : cellTotal BOTTOM_LEFT m2 = cellTotal BOTTOM_LEFT l := cellTotal_congr _ _ _ hc2
  have t3 : cellTotal BOTTOM_RIGHT m3 = cellTotal BOTTOM_RIGHT l := cellTotal_congr _ _ _ hc3
  refine ⟨hc4, ?_, ?_⟩
  · intro c
    fin_cases c
    · show m4.map (fun e => e.offsets TOP_LEFT)
        = exclFrom (cellStart TOP_LEFT l) (cellEmits TOP_LEFT l)
      rw [p34 TOP_LEFT (by decide), p24 TOP_LEFT (by decide), p14 TOP_LEFT (by decide), p01]
      rfl
    · show m4.map (fun e => e.offsets TOP_RIGHT)
        = exclFrom (cellStart TOP_RIGHT l) (cellEmits TOP_RIGHT l)
      rw [p34 TOP_RIGHT (by decide), p24 TOP_RIGHT (by decide), p11, e1, p02]
      rw [Nat.zero_add]
      rfl
    · show m4.map (fun e => e.offsets BOTTOM_LEFT)
        = exclFrom (cellStart BOTTOM_LEFT l) (cellEmits BOTTOM_LEFT l)
      rw [p34 BOTTOM_LEFT (by decide), p21, e2, p12, p02, t1]
      rw [Nat.zero_add]
      rfl
    · show m4.map (fun e => e.offsets BOTTOM_RIGHT)
        = exclFrom (cellStart BOTTOM_RIGHT l) (cellEmits BOTTOM_RIGHT l)
      rw [p31, e3, p22, p12, p02, t1, t2]
      rw [Nat.zero_add]
      rfl
  · rw [p32, p22, p12, p02, t1, t2, t3]
    unfold totalEmits
    omega

/-- Spec K4: the `SEGMENT` record one input writes for one child: shortcut
marker from the up/down bits, inherited `seg_idx` and `path_idx`,
`cell_pos = cell`, `cell_id = parent_cell_id·4 + cell`. -/
def segRecordOf (cell : Fin 4) (e : SplitEntry) : CellEntry :=
  ⟨ABSTRACT,
    (if has_up e.split_data.split_info cell then 1
      else if has_down e.split_data.split_info cell then -1 else 0),
    e.seg_idx, e.path_idx, cell, e.parent_cell_id * 4 + cell.val⟩

/-- Spec K4: the `WINDING` record the tail of a path run writes for one
child: the cumulative winding as data. -/
def wincRecordOf (cell : Fin 4) (e : SplitEntry) : CellEntry :=
  ⟨WINDING_INCREMENT, e.split_data.winding cell, NONE_U32, e.path_idx, cell,
    e.parent_cell_id * 4 + cell.val⟩

/-- Spec K4: what one input record emits for one child, `SEGMENT` first,
then `WINDING`. -/
def emissionOf (cell : Fin 4) (isTail : Bool) (e : SplitEntry) : List CellEntry :=
  (if has_fill e.split_data.split_info cell then [segRecordOf cell e] else []) ++
  (if isTail ∧ e.split_data.winding cell ≠ 0 then [wincRecordOf cell e] else [])

/-- Emissions of one path run, in input order. -/
def runEmission (cell : Fin 4) : List SplitEntry → List CellEntry
  | [] => []
  | e :: rest => emissionOf cell rest.isEmpty e ++ runEmission cell rest

/-- Emissions of a whole entry list for one child, path runs in order. -/
def cellEmission (cell : Fin 4) (l : List SplitEntry) : List CellEntry :=
  ((chunkBy (fun e => e.path_idx) l).map (runEmission cell)).flatten

/-- Spec K4: the full scatter output, children in the fixed TL, TR, BL, BR
order. -/
def scatterSpec (l : List SplitEntry) : List CellEntry :=
  cellEmission TOP_LEFT l ++ cellEmission TOP_RIGHT l ++ cellEmission BOTTOM_LEFT l ++
    cellEmission BOTTOM_RIGHT l

/-- Helper: `exclFrom` preserves length. -/
theorem exclFrom_length (ns : List ℕ) : ∀ s : ℕ, (exclFrom s ns).length = ns.length := by
  induction ns with
  | nil => intro s; rfl
  | cons n tl ih =>
    intro s
    simp only [exclFrom, List.length_cons, ih (s + n)]

/-- Helper: `runEmits` preserves length. -/
theorem runEmits_length (cell : Fin 4) : ∀ r : List SplitEntry,
    (runEmits cell r).length = r.length := by
  intro r
  induction r with
  | nil => rfl
  | cons e rest ih => simp only [runEmits, List.length_cons, ih]

/-- Helper: an input's emission has exactly `emitOf` records. -/
theorem emissionOf_length (cell : Fin 4) (b : Bool) (e : SplitEntry) :
    (emissionOf cell b e).length = emitOf cell b e := by
  unfold emissionOf emitOf
  split_ifs <;> simp

/-- Helper: a run's emission has exactly the run's total emit count. -/
theorem runEmission_length (cell : Fin 4) : ∀ r : List SplitEntry,
    (runEmission cell r).length = (runEmits cell r).sum := by
  intro r
  induction r with
  | nil => rfl
  | cons e rest ih =>
    simp only [runEmission, runEmits, List.length_append, List.sum_cons, ih,
      emissionOf_length]

/-- Helper: a cell's emission has exactly the cell's total. -/
theorem cellEmission_length (cell : Fin 4) (l : List SplitEntry) :
    (cellEmission cell l).length = cellTotal cell l := by
  unfold cellEmission cellTotal cellEmits
  induction chunkBy (fun e => e.path_idx) l with
  | nil => rfl
  | cons r rs ih =>
    simp only [List.map_cons, List.flatten_cons, List.length_append, List.sum_append,
      runEmission_length, ih]

/-- Helper: two adjacent writes as a splice. -/
theorem set_set_splice : ∀ (arr : List CellEntry) (s : ℕ) (a b : CellEntry),
    s + 1 < arr.length →
    (arr.set s a).set (s + 1) b = arr.take s ++ a :: b :: arr.drop (s + 2) := by
  intro arr
  induction arr with
  | nil => intro s a b h; simp at h
  | cons x xs ih =>
    intro s a b h
    match s with
    | 0 =>
      match xs, h with
      | y :: ys, _ => rfl
    | t + 1 =>
      simp only [List.set_cons_succ, List.take_succ_cons, List.cons_append,
        List.drop_succ_cons]
      refine congrArg _ ?_
      refine (ih t a b ?_)
      simp only [List.length_cons] at h
      omega

/-- Helper: length of a splice. -/
theorem splice_length (arr A : List CellEntry) (s k : ℕ)
    (hs : s + k ≤ arr.length) (hA : A.length = k) :
    (arr.take s ++ A ++ arr.drop (s + k)).length = arr.length := by
  simp only [List.length_append, List.length_take, List.length_drop, hA]
  omega

/-- Helper: continuing to splice after an earlier splice. -/
theorem splice_assemble (arr A B : List CellEntry) (s k j : ℕ)
    (hs : s + k ≤ arr.length) (hA : A.length = k) :
    (arr.take s ++ A ++ arr.drop (s + k)).take (s + k) ++ B ++
      (arr.take s ++ A ++ arr.drop (s + k)).drop (s + k + j)
    = arr.take s ++ (A ++ B) ++ arr.drop (s + k + j) := by
  have hlen : (arr.take s ++ A).length = s + k := by
    simp only [List.length_append, List.length_take, hA]
    omega
  have h1 : (arr.take s ++ A ++ arr.drop (s + k)).take (s + k) = arr.take s ++ A :=
    List.take_left' hlen
  have h2 : (arr.take s ++ A ++ arr.drop (s + k)).drop (s + k + j)
      = arr.drop (s + k + j) := by
    have hd : (arr.take s ++ A ++ arr.drop (s + k)).drop ((arr.take s ++ A).length + j)
        = (arr.drop (s + k)).drop j := List.drop_append j
    rw [hlen] at hd
    rw [hd, List.drop_drop]
  rw [h1, h2]
  simp only [List.append_assoc]

/-- Main per-run scatter lemma: when a run's offsets are the exclusive
sums of its emit counts starting at `s` (as K3 computes them) and the
output vector is large enough, the K4 inner loop succeeds and splices the
run's emission into positions `[s, s + total)`. -/
theorem scatterRun_splice (cell : Fin 4) : ∀ (r : List SplitEntry) (arr : List CellEntry) (s : ℕ),
    r.map (fun e => e.offsets cell) = exclFrom s (runEmits cell r) →
    s + (runEmits cell r).sum ≤ arr.length →
    scatterRun cell arr r =
      some (arr.take s ++ runEmission cell r ++ arr.drop (s + (runEmits cell r).sum)) := by
  intro r
  induction r with
  | nil =>
    intro arr s _ _
    rw [scatterRun, runEmission, runEmits]
    simp only [List.sum_nil, Nat.add_zero, List.append_nil, List.take_append_drop]
  | cons curr rest ih =>
    intro arr s hoff hlen
    rw [runEmits, List.map_cons, exclFrom, List.cons.injEq] at hoff
    obtain ⟨hoff1, hoff2⟩ := hoff
    rw [runEmits, List.sum_cons] at hlen
    rw [runEmission, runEmits, List.sum_cons]
    cases rest with
    | nil =>
      rw [scatterRun]
      rw [if_neg (by simp)]
      rw [hoff1]
      by_cases hseg : has_fill curr.split_data.split_info cell
      · have hb1 : s < arr.length := by
          unfold emitOf at hlen
          rw [if_pos hseg] at hlen
          omega
        rw [if_pos hseg, writeAt, if_pos hb1]
        simp only [Option.map_some', Option.some_bind]
        by_cases hwin : curr.split_data.winding cell ≠ 0
        · have hcond : (List.isEmpty ([] : List SplitEntry) = true) ∧
              curr.split_data.winding cell ≠ 0 := ⟨rfl, hwin⟩
          rw [if_pos hcond]
          have hb2 : s + 1 < (arr.set s
              ⟨ABSTRACT,
                (if has_up curr.split_data.split_info cell then 1
                  else if has_down curr.split_data.split_info cell then -1 else 0),
                curr.seg_idx, curr.path_idx, cell,
                curr.parent_cell_id * 4 + cell.val⟩).length := by
            rw [List.length_set]
            unfold emitOf at hlen
            rw [if_pos hseg, if_pos hcond] at hlen
            omega
          rw [writeAt, if_pos hb2]
          simp only [Option.some_bind]
          rw [scatterRun]
          rw [set_set_splice arr s _ _ (by rw [List.length_set] at hb2; exact hb2)]
          have he : emitOf cell (List.isEmpty ([] : List SplitEntry)) curr = 2 := by
            unfold emitOf
            rw [if_pos hseg, if_pos hcond]
          have hm : emissionOf cell (List.isEmpty ([] : List SplitEntry)) curr =
              [segRecordOf cell curr, wincRecordOf cell curr] := by
            unfold emissionOf
            rw [if_pos hseg, if_pos hcond]
            rfl
          rw [he, hm, runEmission]
          simp only [runEmits, List.sum_nil, Nat.add_zero, List.append_nil,
            List.append_assoc, List.singleton_append, List.cons_append, List.nil_append]
          rfl
        · rw [if_neg (fun hcontra => hwin hcontra.2)]
          simp only [Option.some_bind]
          rw [scatterRun]
          rw [List.set_eq_take_cons_drop _ hb1]
          have he : emitOf cell (List.isEmpty ([] : List SplitEntry)) curr = 1 := by
            unfold emitOf
            rw [if_pos hseg, if_neg (fun hcontra => hwin hcontra.2)]
          have hm : emissionOf cell (List.isEmpty ([] : List SplitEntry)) curr =
              [segRecordOf cell curr] := by
            unfold emissionOf
            rw [if_pos hseg, if_neg (fun hcontra => hwin hcontra.2)]
            rfl
          rw [he, hm, runEmission]
          simp only [runEmits, List.sum_nil, Nat.add_zero, List.append_nil,
            List.append_assoc, List.singleton_append, List.cons_append, List.nil_append]
          rfl
      · rw [if_neg hseg]
        simp only [Option.some_bind]
        by_cases hwin : curr.split_data.winding cell ≠ 0
        · have hcond : (List.isEmpty ([] : List SplitEntry) = true) ∧
              curr.split_data.winding cell ≠ 0 := ⟨rfl, hwin⟩
          rw [if_pos hcond]
          have hb1 : s < arr.length := by
            unfold emitOf at hlen
            rw [if_neg hseg, if_pos hcond] at hlen
            omega
          rw [writeAt, if_pos hb1]
          simp only [Option.some_bind]
          rw [scatterRun]
          rw [List.set_eq_take_cons_drop _ hb1]
          have he : emitOf cell (List.isEmpty ([] : List SplitEntry)) curr = 1 := by
            unfold emitOf
            rw [if_neg hseg, if_pos hcond]
          have hm : emissionOf cell (List.isEmpty ([] : List SplitEntry)) curr =
              [wincRecordOf cell curr] := by
            unfold emissionOf
            rw [if_neg hseg, if_pos hcond]
            rfl
          rw [he, hm, runEmission]
          simp only [runEmits, List.sum_nil, Nat.add_zero, List.append_nil,
            List.append_assoc, List.singleton_append, List.cons_append, List.nil_append]
          rfl
        · rw [if_neg (fun hcontra => hwin hcontra.2)]
          simp only [Option.some_bind]
          rw [scatterRun]
          have he : emitOf cell (List.isEmpty ([] : List SplitEntry)) curr = 0 := by
            unfold emitOf
            rw [if_neg hseg, if_neg (fun hcontra => hwin hcontra.2)]
          have hm : emissionOf cell (List.isEmpty ([] : List SplitEntry)) curr = [] := by
            unfold emissionOf
            rw [if_neg hseg, if_neg (fun hcontra => hwin hcontra.2)]
            rfl
          rw [he, hm, runEmission]
          simp only [runEmits, List.sum_nil, Nat.add_zero, List.append_nil, List.nil_append,
            List.take_append_drop]
    | cons next rest' =>
      have hemptyP : ¬ ((next :: rest').isEmpty = true ∧ curr.split_data.winding cell ≠ 0) := by
        intro hcontra
        simp at hcontra
      have hnext : next.offsets cell = s + emitOf cell (next :: rest').isEmpty curr := by
        have := congrArg List.head? hoff2
        rw [runEmits, List.map_cons, exclFrom] at this
        simp only [List.head?_cons, Option.some.injEq] at this
        exact this
      have hemitv : emitOf cell (next :: rest').isEmpty curr =
          (if has_fill curr.split_data.split_info cell then 1 else 0) := by
        unfold emitOf
        rw [if_neg hemptyP, Nat.add_zero]
      rw [scatterRun]
      by_cases hsk : next.offsets cell = curr.offsets cell
      · -- dedup skip: this record emits nothing
        have hsk' : next.offsets cell = s := by rw [hsk, hoff1]
        have hn0 : emitOf cell (next :: rest').isEmpty curr = 0 := by
          rw [hsk'] at hnext
          omega
        have hseg : ¬ has_fill curr.split_data.split_info cell := by
          intro hcontra
          rw [hemitv, if_pos hcontra] at hn0
          exact absurd hn0 (by omega)
        have hm : emissionOf cell (next :: rest').isEmpty curr = [] := by
          unfold emissionOf
          rw [if_neg hseg, if_neg hemptyP]
          rfl
        rw [if_pos (by simp [hsk])]
        rw [hn0] at hoff2 hlen
        rw [hn0, hm]
        simp only [List.nil_append, Nat.zero_add]
        rw [Nat.add_zero] at hoff2
        exact ih arr s hoff2 (by omega)
      · -- no skip: the record emits exactly its SEGMENT record
        have hseg : has_fill curr.split_data.split_info cell := by
          by_contra hcontra
          rw [hemitv, if_neg hcontra, Nat.add_zero] at hnext
          rw [hoff1] at hsk
          exact hsk hnext
        have hn1 : emitOf cell (next :: rest').isEmpty curr = 1 := by
          rw [hemitv, if_pos hseg]
        rw [if_neg (by simp [hsk])]
        rw [if_pos hseg, hoff1]
        have hb1 : s < arr.length := by
          rw [hn1] at hlen
          omega
        rw [writeAt, if_pos hb1]
        simp only [Option.map_some', Option.some_bind]
        rw [if_neg hemptyP]
        simp only [Option.some_bind]
        have harr2 : arr.set s
            ⟨ABSTRACT,
              (if has_up curr.split_data.split_info cell then 1
                else if has_down curr.split_data.split_info cell then -1 else 0),
              curr.seg_idx, curr.path_idx, cell,
              curr.parent_cell_id * 4 + cell.val⟩ =
            arr.take s ++ [segRecordOf cell curr] ++ arr.drop (s + 1) := by
          rw [List.set_eq_take_cons_drop _ hb1]
          simp only [List.append_assoc, List.singleton_append]
          rfl
        have hoffih : (next :: rest').map (fun e => e.offsets cell)
            = exclFrom (s + 1) (runEmits cell (next :: rest')) := by
          rw [hn1] at hoff2
          exact hoff2
        have hih := ih (arr.take s ++ [segRecordOf cell curr] ++ arr.drop (s + 1)) (s + 1)
          hoffih
          (by rw [splice_length arr [segRecordOf cell curr] s 1 (by rw [hn1] at hlen; omega) rfl]
              rw [hn1] at hlen
              omega)
        rw [harr2, hih]
        rw [splice_assemble arr [segRecordOf cell curr] (runEmission cell (next :: rest'))
          s 1 ((runEmits cell (next :: rest')).sum) (by rw [hn1] at hlen; omega) rfl]
        have hm : emissionOf cell (next :: rest').isEmpty curr =
            [segRecordOf cell curr] := by
          unfold emissionOf
          rw [if_pos hseg, if_neg hemptyP]
          rw [List.append_nil]
        rw [hm, hn1]
        have harith : s + 1 + (runEmits cell (next :: rest')).sum =
            s + (1 + (runEmits cell (next :: rest')).sum) := by omega
        rw [harith]

/-- Runs-level scatter lemma: all path runs of one cell pass, splicing the
cell's whole emission into `[s, s + cell total)`. -/
theorem scatterRuns_splice (cell : Fin 4) : ∀ (runs : List (List SplitEntry))
    (arr : List CellEntry) (s : ℕ),
    runs.flatten.map (fun e => e.offsets cell)
      = exclFrom s ((runs.map (runEmits cell)).flatten) →
    s + ((runs.map (runEmits cell)).flatten).sum ≤ arr.length →
    List.foldlM (fun a r => scatterRun cell a r) arr runs =
      some (arr.take s ++ (runs.map (runEmission cell)).flatten ++
        arr.drop (s + ((runs.map (runEmits cell)).flatten).sum)) := by
  intro runs
  induction runs with
  | nil =>
    intro arr s _ _
    simp [List.take_append_drop]
  | cons r rs ih =>
    intro arr s hoff hlen
    simp only [List.flatten_cons, List.map_append, List.map_cons, List.sum_append]
      at hoff hlen ⊢
    rw [exclFrom_append] at hoff
    obtain ⟨hoffr, hoffrs⟩ := List.append_inj hoff
      (by rw [exclFrom_length, List.length_map, runEmits_length])
    have h1 := scatterRun_splice cell r arr s hoffr (by omega)
    rw [List.foldlM_cons, h1]
    simp only [Option.bind_eq_bind, Option.some_bind]
    have hlen2 : s + (runEmits cell r).sum ≤ arr.length := by omega
    have hsp : (arr.take s ++ runEmission cell r ++
        arr.drop (s + (runEmits cell r).sum)).length = arr.length :=
      splice_length arr (runEmission cell r) s ((runEmits cell r).sum) hlen2
        (runEmission_length cell r)
    have h2 := ih (arr.take s ++ runEmission cell r ++ arr.drop (s + (runEmits cell r).sum))
      (s + (runEmits cell r).sum) hoffrs (by rw [hsp]; omega)
    rw [h2]
    rw [splice_assemble arr (runEmission cell r) ((rs.map (runEmission cell)).flatten)
      s ((runEmits cell r).sum) (((rs.map (runEmits cell)).flatten).sum) hlen2
      (runEmission_length cell r)]
    have harith : s + (runEmits cell r).sum + ((rs.map (runEmits cell)).flatten).sum
        = s + ((runEmits cell r).sum + ((rs.map (runEmits cell)).flatten).sum) := by omega
    rw [harith]

/-- Helper: splicing into the written region of a partially filled buffer. -/
theorem replicate_splice (D E : List CellEntry) (k T : ℕ)
    (_hbound : D.length + k ≤ T) (_hE : E.length = k) :
    (D ++ List.replicate (T - D.length) CellEntry.defaultEntry).take D.length ++ E ++
      (D ++ List.replicate (T - D.length) CellEntry.defaultEntry).drop (D.length + k)
    = (D ++ E) ++ List.replicate (T - (D.length + k)) CellEntry.defaultEntry := by
  rw [List.take_left]
  have hdrop : (D ++ List.replicate (T - D.length) CellEntry.defaultEntry).drop (D.length + k)
      = (List.replicate (T - D.length) CellEntry.defaultEntry).drop k := List.drop_append k
  rw [hdrop, List.drop_replicate]
  have harith : T - D.length - k = T - (D.length + k) := by omega
  rw [harith]

/-- Main helper for C7/C9/C10: given offsets produced by K3 (as characterized
by `update_spec`, restated intrinsically on the offset-carrying list), the K4
scatter succeeds and its output is exactly the specification's emission
list, in (child, path run, input) order. -/
theorem split_to_cell_entry_spec (m : List SplitEntry) (T : ℕ)
    (hne : m.isEmpty = false)
    (hoff : ∀ c : Fin 4, m.map (fun e => e.offsets c) = exclFrom (cellStart c m) (cellEmits c m))
    (hT : T = totalEmits m) :
    split_to_cell_entry m T = some (scatterSpec m) := by
  have hs0 : cellStart TOP_LEFT m = 0 := rfl
  have hs1 : cellStart TOP_RIGHT m = cellTotal TOP_LEFT m := rfl
  have hs2 : cellStart BOTTOM_LEFT m = cellTotal TOP_LEFT m + cellTotal TOP_RIGHT m := rfl
  have hs3 : cellStart BOTTOM_RIGHT m
      = cellTotal TOP_LEFT m + cellTotal TOP_RIGHT m + cellTotal BOTTOM_LEFT m := rfl
  have hTot : T = cellTotal TOP_LEFT m + cellTotal TOP_RIGHT m + cellTotal BOTTOM_LEFT m +
      cellTotal BOTTOM_RIGHT m := hT
  have hpass : ∀ (c : Fin 4) (D : List CellEntry) (dlen : ℕ),
      D.length = dlen →
      dlen = cellStart c m →
      cellStart c m + cellTotal c m ≤ T →
      scatterPass c (D ++ List.replicate (T - dlen) CellEntry.defaultEntry) m
        = some ((D ++ cellEmission c m) ++
            List.replicate (T - (dlen + cellTotal c m)) CellEntry.defaultEntry) := by
    intro c D dlen hdlen hstart hbound
    unfold scatterPass
    have hlenarr : (D ++ List.replicate (T - dlen) CellEntry.defaultEntry).length = T := by
      simp only [List.length_append, List.length_replicate]
      omega
    have h1 := scatterRuns_splice c (chunkBy (fun e => e.path_idx) m)
      (D ++ List.replicate (T - dlen) CellEntry.defaultEntry) (cellStart c m)
      (by rw [chunkBy_flatten]
          exact hoff c)
      (by rw [hlenarr]
          exact hbound)
    rw [h1]
    have hEm : ((chunkBy (fun e => e.path_idx) m).map (runEmission c)).flatten
        = cellEmission c m := rfl
    have hSum : (((chunkBy (fun e => e.path_idx) m).map (runEmits c)).flatten).sum
        = cellTotal c m := rfl
    rw [hEm, hSum, ← hstart, ← hdlen]
    refine congrArg _ ?_
    exact replicate_splice D (cellEmission c m) (cellTotal c m) T
      (by omega) (cellEmission_length c m)
  unfold split_to_cell_entry
  rw [if_neg (by simp [hne])]
  rw [show List.replicate T CellEntry.defaultEntry
      = [] ++ List.replicate (T - 0) CellEntry.defaultEntry from by simp]
  rw [List.foldlM_cons]
  rw [hpass TOP_LEFT [] 0 rfl hs0.symm (by omega)]
  simp only [Option.bind_eq_bind, Option.some_bind, List.nil_append, Nat.zero_add]
  rw [List.foldlM_cons]
  rw [hpass TOP_RIGHT (cellEmission TOP_LEFT m) (cellTotal TOP_LEFT m)
    (cellEmission_length _ _) hs1.symm (by omega)]
  simp only [Option.bind_eq_bind, Option.some_bind]
  rw [List.foldlM_cons]
  rw [hpass BOTTOM_LEFT (cellEmission TOP_LEFT m ++ cellEmission TOP_RIGHT m)
    (cellTotal TOP_LEFT m + cellTotal TOP_RIGHT m)
    (by simp [cellEmission_length]) hs2.symm (by omega)]
  simp only [Option.bind_eq_bind, Option.some_bind]
  rw [List.foldlM_cons]
  rw [hpass BOTTOM_RIGHT
    ((cellEmission TOP_LEFT m ++ cellEmission TOP_RIGHT m) ++ cellEmission BOTTOM_LEFT m)
    (cellTotal TOP_LEFT m + cellTotal TOP_RIGHT m + cellTotal BOTTOM_LEFT m)
    (by simp [cellEmission_length]; omega) hs3.symm (by omega)]
  simp only [Option.bind_eq_bind, Option.some_bind]
  rw [List.foldlM_nil]
  have hzero : T - (cellTotal TOP_LEFT m + cellTotal TOP_RIGHT m + cellTotal BOTTOM_LEFT m +
      cellTotal BOTTOM_RIGHT m) = 0 := by omega
  rw [hzero, List.replicate_zero, List.append_nil]
  unfold scatterSpec
  simp [List.append_assoc]

/-- Helper: `cellStart` depends only on the offset-free projections. -/
theorem cellStart_congr (cell : Fin 4) (l1 l2 : List SplitEntry)
    (h : l1.map coreOf = l2.map coreOf) : cellStart cell l1 = cellStart cell l2 := by
  have t0 := cellTotal_congr TOP_LEFT l1 l2 h
  have t1 := cellTotal_congr TOP_RIGHT l1 l2 h
  have t2 := cellTotal_congr BOTTOM_LEFT l1 l2 h
  fin_cases cell
  · rfl
  · exact t0
  · show cellTotal TOP_LEFT l1 + cellTotal TOP_RIGHT l1
      = cellTotal TOP_LEFT l2 + cellTotal TOP_RIGHT l2
    omega
  · show cellTotal TOP_LEFT l1 + cellTotal TOP_RIGHT l1 + cellTotal BOTTOM_LEFT l1
      = cellTotal TOP_LEFT l2 + cellTotal TOP_RIGHT l2 + cellTotal BOTTOM_LEFT l2
    omega

/-- Helper: `totalEmits` depends only on the offset-free projections. -/
theorem totalEmits_congr (l1 l2 : List SplitEntry)
    (h : l1.map coreOf = l2.map coreOf) : totalEmits l1 = totalEmits l2 := by
  unfold totalEmits
  rw [cellTotal_congr TOP_LEFT l1 l2 h, cellTotal_congr TOP_RIGHT l1 l2 h,
    cellTotal_congr BOTTOM_LEFT l1 l2 h, cellTotal_congr BOTTOM_RIGHT l1 l2 h]

/-- Helper: K3's characterization restated intrinsically on its own
output. -/
theorem update_spec_self (l m : List SplitEntry) (T : ℕ)
    (h : update_to_global_offset l = some (m, T)) :
    m.isEmpty = false ∧
    (∀ c : Fin 4, m.map (fun e => e.offsets c) = exclFrom (cellStart c m) (cellEmits c m)) ∧
    T = totalEmits m ∧ m.map coreOf = l.map coreOf := by
  obtain ⟨hcore, hoffs, hT⟩ := update_spec l m T h
  have hlne : l.isEmpty = false := by
    by_contra hcontra
    have hl : l.isEmpty = true := by
      cases hempty : l.isEmpty
      · exact absurd hempty hcontra
      · rfl
    unfold update_to_global_offset at h
    rw [hl] at h
    simp at h
  have hlen : m.length = l.length := by
    have := congrArg List.length hcore
    simpa using this
  refine ⟨?_, ?_, ?_, hcore⟩
  · cases hm : m with
    | cons x xs => rfl
    | nil =>
      rw [hm] at hlen
      cases hl : l with
      | nil => rw [hl] at hlne; simp at hlne
      | cons y ys => rw [hl] at hlen; simp at hlen
  · intro c
    rw [hoffs c, cellStart_congr c m l hcore, cellEmits_congr c m l hcore]
  · rw [hT, totalEmits_congr m l hcore]

/-- Sample split entry used to witness the scan/scatter theorems at a
concrete input. -/
def sampleSplitEntry : SplitEntry :=
  ⟨⟨fun _ => 1, 1⟩, fun _ => 0, 0, 0, 0, 0⟩

/-- C1 (confirmed).  K2 (`consolidate_winding_inc`) computes, for each
entry and each of the four child cells, the left-to-right inclusive sum of
the K1 windings over the entry's contiguous `path_idx` run up to and
including it (`scanSpec`); K3 (`update_to_global_offset`) then assigns each
entry, for each cell, the strict exclusive prefix sum of
`seg_out + winc_out` (with `seg_out = 1` iff the `fill[cell]` bit is set and
`winc_out = 1` iff the entry is its run's tail with nonzero cumulative
winding) in the nested (child TL,TR,BL,BR; path run; input order) order,
returning the total, and changes nothing else. -/
theorem C1_scan_correctness (l : List SplitEntry) (hne : l ≠ []) :
    consolidate_winding_inc l = some (scanSpec l) ∧
    (∀ (m : List SplitEntry) (T : ℕ),
      update_to_global_offset (scanSpec l) = some (m, T) →
      (∀ c : Fin 4, m.map (fun e => e.offsets c)
        = exclFrom (cellStart c (scanSpec l)) (cellEmits c (scanSpec l))) ∧
      T = totalEmits (scanSpec l) ∧
      m.map coreOf = (scanSpec l).map coreOf) := by
  refine ⟨consolidate_eq_scanSpec_bounded l.length l (Nat.le_refl _) hne, ?_⟩
  intro m T h
  obtain ⟨hcore, hoffs, hT⟩ := update_spec (scanSpec l) m T h
  exact ⟨hoffs, hT, hcore⟩

/-- C1 witness: the scan theorems applied at a concrete one-entry list. -/
theorem C1_scan_correctness_witness :
    consolidate_winding_inc [sampleSplitEntry] = some (scanSpec [sampleSplitEntry]) :=
  (C1_scan_correctness [sampleSplitEntry] (by simp)).1

/-- Helper: members of an emission are tagged records. -/
theorem emissionOf_mem_type (cell : Fin 4) (b : Bool) (e : SplitEntry) :
    ∀ x ∈ emissionOf cell b e,
      x.entry_type = ABSTRACT ∨ x.entry_type = WINDING_INCREMENT := by
  intro x hx
  unfold emissionOf at hx
  rw [List.mem_append] at hx
  rcases hx with hx | hx
  · split_ifs at hx with hc
    · rw [List.mem_singleton] at hx
      subst hx
      exact Or.inl rfl
    · simp at hx
  · split_ifs at hx with hc
    · rw [List.mem_singleton] at hx
      subst hx
      exact Or.inr rfl
    · simp at hx

/-- Helper: members of a run's emission are tagged records. -/
theorem runEmission_mem_type (cell : Fin 4) : ∀ (r : List SplitEntry),
    ∀ x ∈ runEmission cell r,
      x.entry_type = ABSTRACT ∨ x.entry_type = WINDING_INCREMENT := by
  intro r
  induction r with
  | nil => intro x hx; simp [runEmission] at hx
  | cons e rest ih =>
    intro x hx
    unfold runEmission at hx
    rw [List.mem_append] at hx
    rcases hx with hx | hx
    · exact emissionOf_mem_type cell rest.isEmpty e x hx
    · exact ih x hx

/-- Helper: members of the scatter specification are tagged records. -/
theorem scatterSpec_mem_type (m : List SplitEntry) :
    ∀ x ∈ scatterSpec m, x.entry_type = ABSTRACT ∨ x.entry_type = WINDING_INCREMENT := by
  intro x hx
  unfold scatterSpec cellEmission at hx
  simp only [List.mem_append, List.mem_flatten, List.mem_map] at hx
  rcases hx with ((⟨lx, ⟨⟨r, _, hr⟩, hmem⟩⟩ | ⟨lx, ⟨⟨r, _, hr⟩, hmem⟩⟩) |
      ⟨lx, ⟨⟨r, _, hr⟩, hmem⟩⟩) | ⟨lx, ⟨⟨r, _, hr⟩, hmem⟩⟩ <;>
    exact runEmission_mem_type _ r x (hr ▸ hmem)

/-- C10 (confirmed).  When the input's offsets were computed by K3
(`update_to_global_offset`), K4 (`split_to_cell_entry`) succeeds, its output
is exactly the emission list of every record in (child, path run, input)
order — so with `out_vec_size` equal to K3's total, every slot receives
exactly the record destined for it — and no slot remains in the default
`EMPTY` state; the deduplication `continue` only ever skips records that
emit nothing. -/
theorem C10_scatter_exact (l m : List SplitEntry) (T : ℕ)
    (h : update_to_global_offset l = some (m, T)) :
    split_to_cell_entry m T = some (scatterSpec m) ∧
    (scatterSpec m).length = T ∧
    (∀ x ∈ scatterSpec m, x.entry_type ≠ EMPTY) := by
  obtain ⟨hne, hoffs, hT, _⟩ := update_spec_self l m T h
  refine ⟨split_to_cell_entry_spec m T hne hoffs hT, ?_, ?_⟩
  · unfold scatterSpec
    simp only [List.length_append, cellEmission_length]
    rw [hT]
    unfold totalEmits
    omega
  · intro x hx
    rcases scatterSpec_mem_type m x hx with hx' | hx' <;> rw [hx'] <;> decide

/-- C10 witness: the scatter characterization applied at the K3 output of a
concrete one-entry list. -/
theorem C10_scatter_exact_witness :
    split_to_cell_entry ((update_to_global_offset [sampleSplitEntry]).getD ([], 0)).1
        ((update_to_global_offset [sampleSplitEntry]).getD ([], 0)).2
      = some (scatterSpec ((update_to_global_offset [sampleSplitEntry]).getD ([], 0)).1) :=
  (C10_scatter_exact [sampleSplitEntry] _ _ rfl).1

/-- Helper: K1 succeeds when every `ABSTRACT` entry's segment index is in
range. -/
theorem build_split_entries_isSome (pb : Rect) (mp : Pt)
    (segs : List AbstractLineSegment) : ∀ ce : List CellEntry,
    (∀ e ∈ ce, e.entry_type &&& ABSTRACT ≠ 0 → e.seg_idx < segs.length) →
    (build_split_entries pb mp segs ce).isSome := by
  intro ce
  induction ce with
  | nil => intro _; rfl
  | cons entry rest ih =>
    intro hseg
    have hrest := ih (fun e he => hseg e (List.mem_cons_of_mem _ he))
    obtain ⟨tl, htl⟩ := Option.isSome_iff_exists.mp hrest
    rw [build_split_entries]
    by_cases habs : entry.entry_type &&& ABSTRACT ≠ 0
    · have hlt : entry.seg_idx < segs.length := hseg entry (List.mem_cons_self _ _) habs
      have hget : segs.get? entry.seg_idx = some (segs.get ⟨entry.seg_idx, hlt⟩) :=
        List.get?_eq_get hlt
      simp only [if_pos habs, hget, htl, Option.bind_eq_bind, Option.some_bind]
      rfl
    · simp only [if_neg habs, htl, Option.bind_eq_bind, Option.some_bind]
      rfl

/-- Helper: K1 produces at least one split entry when some parent entry
carries the `ABSTRACT` or `WINDING_INCREMENT` flag. -/
theorem build_split_entries_ne_nil (pb : Rect) (mp : Pt)
    (segs : List AbstractLineSegment) : ∀ (ce : List CellEntry) (sl : List SplitEntry),
    build_split_entries pb mp segs ce = some sl →
    (∃ e ∈ ce, e.entry_type &&& ABSTRACT ≠ 0 ∨ e.entry_type &&& WINDING_INCREMENT ≠ 0) →
    sl ≠ [] := by
  intro ce
  induction ce with
  | nil =>
    intro sl _ hex
    simp at hex
  | cons entry rest ih =>
    intro sl hsl hex
    rw [build_split_entries] at hsl
    obtain ⟨e, he, hflag⟩ := hex
    by_cases habs : entry.entry_type &&& ABSTRACT ≠ 0
    · rw [if_pos habs] at hsl
      cases hget : segs.get? entry.seg_idx with
      | none =>
        rw [hget] at hsl
        simp at hsl
      | some seg =>
        rw [hget] at hsl
        simp only [Option.bind_eq_bind, Option.some_bind, Option.bind_eq_some] at hsl
        obtain ⟨tl, htl, hsl⟩ := hsl
        rw [Option.some.injEq] at hsl
        rw [← hsl]
        simp
    · rw [if_neg habs] at hsl
      simp only [Option.bind_eq_bind, Option.some_bind, Option.bind_eq_some] at hsl
      obtain ⟨tl, htl, hsl⟩ := hsl
      rw [Option.some.injEq] at hsl
      rcases List.mem_cons.mp he with he' | he'
      · subst he'
        rcases hflag with hflag | hflag
        · exact absurd hflag habs
        · rw [← hsl]
          intro hnil
          rw [List.append_eq_nil, List.append_eq_nil] at hnil
          have := hnil.1.2
          rw [if_pos hflag] at this
          simp at this
      · have htlne := ih tl htl ⟨e, he', hflag⟩
        rw [← hsl]
        intro hnil
        rw [List.append_eq_nil] at hnil
        exact htlne hnil.2

/-- C7 counterexample: on the empty entry slice K2's `assert!(len > 0)`
fires — modelled by `subdivide_cell_entry` returning `none` — so the
subdivision kernel does panic on some data. -/
theorem C7_cex_empty_slice_panics :
    subdivide_cell_entry [] ⟨0, 0, 1, 1⟩ ⟨1/2, 1/2⟩ [] = none := rfl

/-- C7 amended.  `subdivide_cell_entry` returns a result whenever the entry
slice contains at least one flagged entry (so K2's and K3's emptiness
asserts cannot fire) and every `ABSTRACT` entry's `seg_idx` is in range for
the segment array (so K1's indexing cannot panic); K4's writes then stay in
bounds by the K3 offset characterization. -/
theorem C7_subdivide_total_amended (ce : List CellEntry) (pb : Rect) (mp : Pt)
    (segs : List AbstractLineSegment)
    (hflag : ∃ e ∈ ce, e.entry_type &&& ABSTRACT ≠ 0 ∨ e.entry_type &&& WINDING_INCREMENT ≠ 0)
    (hseg : ∀ e ∈ ce, e.entry_type &&& ABSTRACT ≠ 0 → e.seg_idx < segs.length) :
    (subdivide_cell_entry ce pb mp segs).isSome := by
  obtain ⟨sl, hsl⟩ := Option.isSome_iff_exists.mp (build_split_entries_isSome pb mp segs ce hseg)
  have hslne : sl ≠ [] := build_split_entries_ne_nil pb mp segs ce sl hsl hflag
  have hcons : consolidate_winding_inc sl = some (scanSpec sl) :=
    consolidate_eq_scanSpec_bounded sl.length sl (Nat.le_refl _) hslne
  have hscanne : scanSpec sl ≠ [] := by
    cases hsl' : sl with
    | nil => exact absurd hsl' hslne
    | cons a rest =>
      rw [hsl'] at hcons
      have h2 : some (a :: consolidateAux a rest) = some (scanSpec (a :: rest)) := hcons
      rw [Option.some.injEq] at h2
      rw [← h2]
      simp
  have hupd : (update_to_global_offset (scanSpec sl)).isSome := by
    unfold update_to_global_offset
    have hie : (scanSpec sl).isEmpty = false := by
      cases hc : scanSpec sl with
      | nil => exact absurd hc hscanne
      | cons x xs => rfl
    rw [hie]
    simp
  obtain ⟨⟨m, T⟩, hmT⟩ := Option.isSome_iff_exists.mp hupd
  obtain ⟨hmne, hoffs, hT, _⟩ := update_spec_self (scanSpec sl) m T hmT
  have hsplit := split_to_cell_entry_spec m T hmne hoffs hT
  unfold subdivide_cell_entry
  rw [hsl]
  simp only [Option.bind_eq_bind, Option.some_bind]
  rw [hcons]
  simp only [Option.some_bind]
  rw [hmT]
  simp only [Option.some_bind]
  rw [hsplit]
  rfl

/-- C7 witness: the amended totality theorem applied at a concrete
one-entry slice. -/
theorem C7_subdivide_total_amended_witness :
    (subdivide_cell_entry [⟨WINDING_INCREMENT, 1, NONE_U32, 0, TOP_LEFT, 0⟩]
      ⟨0, 0, 100, 100⟩ ⟨50, 50⟩ []).isSome :=
  C7_subdivide_total_amended [⟨WINDING_INCREMENT, 1, NONE_U32, 0, TOP_LEFT, 0⟩]
    ⟨0, 0, 100, 100⟩ ⟨50, 50⟩ []
    ⟨⟨WINDING_INCREMENT, 1, NONE_U32, 0, TOP_LEFT, 0⟩, List.mem_singleton.mpr rfl,
      Or.inr (by decide)⟩
    (by intro e he h; rw [List.mem_singleton] at he; subst he; exact absurd h (by decide))

/-! ### Scatter uniqueness (spec property 6) -/

/-- The offset-free fields K4's record identities are built from:
`(path_idx, split_info, seg_idx)`. -/
def skel (e : SplitEntry) : ℕ × ℕ × ℕ :=
  (e.path_idx, e.split_data.split_info, e.seg_idx)

/-- Ordering invariant: `path_idx` ascending. -/
def sePathLe (a b : SplitEntry) : Prop := a.path_idx ≤ b.path_idx

/-- Ordering invariant: two fillable entries of one path carry different
segments (winding-only records have `split_info = 0` and are exempt). -/
def seSegUniq (a b : SplitEntry) : Prop :=
  a.path_idx = b.path_idx →
    a.split_data.split_info = 0 ∨ b.split_data.split_info = 0 ∨ a.seg_idx ≠ b.seg_idx

/-- The claimed uniqueness between two output records: no shared
`(cell_id, path_idx, seg_idx)` triple for `SEGMENT` records and no shared
`(cell_id, path_idx)` pair for `WINDING` records. -/
def scatterDistinct (x y : CellEntry) : Prop :=
  (x.entry_type = ABSTRACT → y.entry_type = ABSTRACT →
    ¬(x.cell_id = y.cell_id ∧ x.path_idx = y.path_idx ∧ x.seg_idx = y.seg_idx)) ∧
  (x.entry_type = WINDING_INCREMENT → y.entry_type = WINDING_INCREMENT →
    ¬(x.cell_id = y.cell_id ∧ x.path_idx = y.path_idx))

/-- Helper: records of different entry types are vacuously distinct. -/
theorem scatterDistinct_of_types (x y : CellEntry)
    (h1 : ¬(x.entry_type = ABSTRACT ∧ y.entry_type = ABSTRACT))
    (h2 : ¬(x.entry_type = WINDING_INCREMENT ∧ y.entry_type = WINDING_INCREMENT)) :
    scatterDistinct x y :=
  ⟨fun hx hy => absurd ⟨hx, hy⟩ h1, fun hx hy => absurd ⟨hx, hy⟩ h2⟩

/-- Helper: records with different `cell_id` are distinct. -/
theorem scatterDistinct_of_cell_id (x y : CellEntry) (h : x.cell_id ≠ y.cell_id) :
    scatterDistinct x y :=
  ⟨fun _ _ hc => h hc.1, fun _ _ hc => h hc.1⟩

/-- Helper: records with different `path_idx` are distinct. -/
theorem scatterDistinct_of_path (x y : CellEntry) (h : x.path_idx ≠ y.path_idx) :
    scatterDistinct x y :=
  ⟨fun _ _ hc => h hc.2.1, fun _ _ hc => h hc.2⟩

/-- Helper: a fillable record has a nonzero `split_info`. -/
theorem has_fill_ne_zero (si : ℕ) (cell : Fin 4) (h : has_fill si cell) : si ≠ 0 := by
  intro hcontra
  subst hcontra
  exact h (Nat.zero_and _)

/-- Helper: every member of an emission is that entry's `SEGMENT` record
(fillable) or its `WINDING` record. -/
theorem emissionOf_mem_char (cell : Fin 4) (b : Bool) (e : SplitEntry) :
    ∀ x ∈ emissionOf cell b e,
      (x = segRecordOf cell e ∧ has_fill e.split_data.split_info cell) ∨
        x = wincRecordOf cell e := by
  intro x hx
  unfold emissionOf at hx
  rw [List.mem_append] at hx
  rcases hx with hx | hx
  · split_ifs at hx with hc
    · rw [List.mem_singleton] at hx
      exact Or.inl ⟨hx, hc⟩
    · simp at hx
  · split_ifs at hx with hc
    · rw [List.mem_singleton] at hx
      exact Or.inr hx
    · simp at hx

/-- Helper: every member of a run's emission traces back to a run entry. -/
theorem runEmission_mem_char (cell : Fin 4) : ∀ (r : List SplitEntry),
    ∀ x ∈ runEmission cell r, ∃ e ∈ r,
      (x = segRecordOf cell e ∧ has_fill e.split_data.split_info cell) ∨
        x = wincRecordOf cell e := by
  intro r
  induction r with
  | nil =>
    intro x hx
    simp [runEmission] at hx
  | cons e rest ih =>
    intro x hx
    rw [runEmission, List.mem_append] at hx
    rcases hx with hx | hx
    · exact ⟨e, List.mem_cons_self _ _, emissionOf_mem_char cell rest.isEmpty e x hx⟩
    · obtain ⟨f, hf, hch⟩ := ih x hx
      exact ⟨f, List.mem_cons_of_mem _ hf, hch⟩

/-- Helper: a non-tail entry emits at most its `SEGMENT` record. -/
theorem emissionOf_false (cell : Fin 4) (e : SplitEntry) :
    emissionOf cell false e =
      if has_fill e.split_data.split_info cell then [segRecordOf cell e] else [] := by
  unfold emissionOf
  have h : ¬((false = true) ∧ e.split_data.winding cell ≠ 0) := by simp
  rw [if_neg h, List.append_nil]

/-- Helper: one entry's emission is internally distinct (`SEGMENT` and
`WINDING` records have different types). -/
theorem emissionOf_pairwise (cell : Fin 4) (b : Bool) (e : SplitEntry) :
    (emissionOf cell b e).Pairwise scatterDistinct := by
  unfold emissionOf
  split_ifs with h1 h2 h2
  · simp only [List.singleton_append]
    refine List.pairwise_cons.mpr ⟨?_, List.pairwise_singleton _ _⟩
    intro y hy
    rw [List.mem_singleton] at hy
    subst hy
    refine scatterDistinct_of_types _ _ ?_ ?_
    · rintro ⟨_, hw⟩
      revert hw
      simp [wincRecordOf, ABSTRACT, WINDING_INCREMENT]
    · rintro ⟨hs, _⟩
      revert hs
      simp [segRecordOf, ABSTRACT, WINDING_INCREMENT]
  · rw [List.append_nil]
    exact List.pairwise_singleton _ _
  · rw [List.nil_append]
    exact List.pairwise_singleton _ _
  · exact List.Pairwise.nil

/-- Helper: within one path run, the emitted records are pairwise distinct
whenever the fillable run entries carry pairwise different segments: the
only `WINDING` record is the tail's, and two `SEGMENT` records of one run
come from different fillable entries. -/
theorem runEmission_pairwise (cell : Fin 4) : ∀ (r : List SplitEntry),
    r.Pairwise seSegUniq → (runEmission cell r).Pairwise scatterDistinct := by
  intro r
  induction r with
  | nil =>
    intro _
    exact List.Pairwise.nil
  | cons e rest ih =>
    intro hp
    rw [List.pairwise_cons] at hp
    obtain ⟨hhead, htail⟩ := hp
    rw [runEmission, List.pairwise_append]
    refine ⟨emissionOf_pairwise cell rest.isEmpty e, ih htail, ?_⟩
    intro a ha y hy
    cases hrest : rest with
    | nil =>
      rw [hrest] at hy
      simp [runEmission] at hy
    | cons g rest' =>
      rw [hrest] at ha hy
      rw [show ((g :: rest').isEmpty) = false from rfl, emissionOf_false] at ha
      split_ifs at ha with hfill
      · rw [List.mem_singleton] at ha
        subst ha
        obtain ⟨f, hf, hch⟩ := runEmission_mem_char cell (g :: rest') y hy
        rcases hch with ⟨hy', hfillf⟩ | hy'
        · subst hy'
          refine ⟨?_, ?_⟩
          · intro _ _
            rintro ⟨_, hpath, hseg⟩
            have hpath' : e.path_idx = f.path_idx := hpath
            have hseg' : e.seg_idx = f.seg_idx := hseg
            have huf : seSegUniq e f := hhead f (by rw [hrest]; exact hf)
            rcases huf hpath' with h0 | h0 | h0
            · exact has_fill_ne_zero _ _ hfill h0
            · exact has_fill_ne_zero _ _ hfillf h0
            · exact h0 hseg'
          · intro hx _
            revert hx
            simp [segRecordOf, ABSTRACT, WINDING_INCREMENT]
        · subst hy'
          refine scatterDistinct_of_types _ _ ?_ ?_
          · rintro ⟨_, hw⟩
            revert hw
            simp [wincRecordOf, ABSTRACT, WINDING_INCREMENT]
          · rintro ⟨hs, _⟩
            revert hs
            simp [segRecordOf, ABSTRACT, WINDING_INCREMENT]
      · simp at ha

/-- Helper: all members of one run of the decomposition share its key. -/
theorem chunkBy_run_key {α : Type} (key : α → ℕ) : ∀ (n : ℕ) (l : List α),
    l.length ≤ n → ∀ r ∈ chunkBy key l, ∀ x ∈ r, ∀ y ∈ r, key x = key y := by
  intro n
  induction n with
  | zero =>
    intro l hl r hr
    rw [Nat.le_zero, List.length_eq_zero] at hl
    subst hl
    simp [chunkBy] at hr
  | succ n ih =>
    intro l hl r hr
    cases l with
    | nil => simp [chunkBy] at hr
    | cons a rest =>
      rw [chunkBy_cons, List.mem_cons] at hr
      rcases hr with hr | hr
      · subst hr
        have hkey : ∀ z ∈ a :: rest.takeWhile (fun x => key x == key a), key z = key a := by
          intro z hz
          rcases List.mem_cons.mp hz with hz | hz
          · rw [hz]
          · have hz' := List.mem_takeWhile_imp hz
            exact eq_of_beq hz'
        intro x hx y hy
        rw [hkey x hx, hkey y hy]
      · refine ih (rest.dropWhile (fun x => key x == key a)) ?_ r hr
        have h1 := dropWhile_length_le (fun x => key x == key a) rest
        have h2 : rest.length ≤ n := by
          rw [List.length_cons] at hl
          omega
        omega

/-- Helper: when the list is sorted by key, different runs of the
decomposition have different keys. -/
theorem chunkBy_keys_ne {α : Type} (key : α → ℕ) : ∀ (n : ℕ) (l : List α),
    l.length ≤ n → l.Pairwise (fun a b => key a ≤ key b) →
    (chunkBy key l).Pairwise (fun r1 r2 => ∀ x ∈ r1, ∀ y ∈ r2, key x ≠ key y) := by
  intro n
  induction n with
  | zero =>
    intro l hl _
    rw [Nat.le_zero, List.length_eq_zero] at hl
    subst hl
    exact List.Pairwise.nil
  | succ n ih =>
    intro l hl hsort
    cases l with
    | nil => exact List.Pairwise.nil
    | cons a rest =>
      rw [chunkBy_cons, List.pairwise_cons]
      rw [List.pairwise_cons] at hsort
      obtain ⟨ha, hrest⟩ := hsort
      have hlen : rest.length ≤ n := by
        rw [List.length_cons] at hl
        omega
      have hdsub : (rest.dropWhile (fun x => key x == key a)).Sublist rest :=
        List.dropWhile_sublist _
      have hdsort : (rest.dropWhile (fun x => key x == key a)).Pairwise
          (fun a b => key a ≤ key b) := hrest.sublist hdsub
      have hdlt : ∀ y ∈ rest.dropWhile (fun x => key x == key a), key a < key y := by
        cases hd : rest.dropWhile (fun x => key x == key a) with
        | nil => simp
        | cons h0 d' =>
          have hph0 : (fun x => key x == key a) h0 = false :=
            dropWhile_head_not _ rest h0 (by rw [hd]; rfl)
          have hh0mem : h0 ∈ rest := hdsub.subset (hd ▸ List.mem_cons_self _ _)
          have hah0 : key a ≤ key h0 := ha h0 hh0mem
          have hane : key a ≠ key h0 := by
            intro hcontra
            rw [show ((fun x => key x == key a) h0) = (key h0 == key a) from rfl] at hph0
            rw [← hcontra] at hph0
            simp at hph0
          rw [hd] at hdsort
          rw [List.pairwise_cons] at hdsort
          intro y hy
          rcases List.mem_cons.mp hy with hy | hy
          · subst hy
            exact Nat.lt_of_le_of_ne hah0 hane
          · exact Nat.lt_of_lt_of_le (Nat.lt_of_le_of_ne hah0 hane) (hdsort.1 y hy)
      refine ⟨?_, ih _ (Nat.le_trans (dropWhile_length_le _ rest) hlen) hdsort⟩
      intro r2 hr2 x hx y hy
      have hkx : key x = key a := by
        rcases List.mem_cons.mp hx with hx | hx
        · rw [hx]
        · have hx' := List.mem_takeWhile_imp hx
          exact eq_of_beq hx'
      have hymem : y ∈ rest.dropWhile (fun x => key x == key a) := by
        rw [← chunkBy_flatten key (rest.dropWhile (fun x => key x == key a))]
        exact List.mem_flatten.mpr ⟨r2, hr2, hy⟩
      rw [hkx]
      exact Nat.ne_of_lt (hdlt y hymem)

/-- Helper: one child cell's emission is pairwise distinct when the input is
path-sorted and fillable entries of one path carry different segments. -/
theorem cellEmission_pairwise (cell : Fin 4) (m : List SplitEntry)
    (hsort : m.Pairwise sePathLe) (huniq : m.Pairwise seSegUniq) :
    (cellEmission cell m).Pairwise scatterDistinct := by
  unfold cellEmission
  rw [List.pairwise_flatten]
  have hflat := chunkBy_flatten (fun e : SplitEntry => e.path_idx) m
  have huniq' : (chunkBy (fun e : SplitEntry => e.path_idx) m).flatten.Pairwise seSegUniq := by
    rw [hflat]
    exact huniq
  have hchunks := (List.pairwise_flatten.mp huniq').1
  constructor
  · intro l hl
    rw [List.mem_map] at hl
    obtain ⟨r, hr, hl⟩ := hl
    subst hl
    exact runEmission_pairwise cell r (hchunks r hr)
  · rw [List.pairwise_map]
    have hkeys := chunkBy_keys_ne (fun e : SplitEntry => e.path_idx) m.length m
      (Nat.le_refl _) hsort
    refine hkeys.imp ?_
    intro r1 r2 hk x hx y hy
    obtain ⟨e, he, hche⟩ := runEmission_mem_char cell r1 x hx
    obtain ⟨f, hf, hchf⟩ := runEmission_mem_char cell r2 y hy
    apply scatterDistinct_of_path
    have hpx : x.path_idx = e.path_idx := by
      rcases hche with ⟨h, _⟩ | h <;> (subst h; rfl)
    have hpy : y.path_idx = f.path_idx := by
      rcases hchf with ⟨h, _⟩ | h <;> (subst h; rfl)
    rw [hpx, hpy]
    exact hk e he f hf

/-- Helper: every record of one child's emission has that child's position
as `cell_id mod 4`. -/
theorem cellEmission_cell_id (cell : Fin 4) (m : List SplitEntry) :
    ∀ x ∈ cellEmission cell m, x.cell_id % 4 = cell.val := by
  intro x hx
  unfold cellEmission at hx
  rw [List.mem_flatten] at hx
  obtain ⟨l, hl, hx⟩ := hx
  rw [List.mem_map] at hl
  obtain ⟨r, hr, hl⟩ := hl
  subst hl
  obtain ⟨e, _, hch⟩ := runEmission_mem_char cell r x hx
  have hcid : x.cell_id = e.parent_cell_id * 4 + cell.val := by
    rcases hch with ⟨h, _⟩ | h <;> (subst h; rfl)
  have hlt : cell.val < 4 := cell.isLt
  omega

/-- Helper: the whole scatter specification is pairwise distinct; records of
different children differ already in `cell_id mod 4`. -/
theorem scatterSpec_pairwise (m : List SplitEntry)
    (hsort : m.Pairwise sePathLe) (huniq : m.Pairwise seSegUniq) :
    (scatterSpec m).Pairwise scatterDistinct := by
  have hcross : ∀ (c c' : Fin 4), c ≠ c' →
      ∀ x ∈ cellEmission c m, ∀ y ∈ cellEmission c' m, scatterDistinct x y := by
    intro c c' hne x hx y hy
    apply scatterDistinct_of_cell_id
    intro hcontra
    apply hne
    have h1 := cellEmission_cell_id c m x hx
    have h2 := cellEmission_cell_id c' m y hy
    rw [hcontra, h2] at h1
    exact Fin.ext h1.symm
  have hone : ∀ c : Fin 4, (cellEmission c m).Pairwise scatterDistinct :=
    fun c => cellEmission_pairwise c m hsort huniq
  unfold scatterSpec
  rw [List.append_assoc, List.append_assoc]
  rw [List.pairwise_append]
  refine ⟨hone TOP_LEFT, ?_, ?_⟩
  · rw [List.pairwise_append]
    refine ⟨hone TOP_RIGHT, ?_, ?_⟩
    · rw [List.pairwise_append]
      exact ⟨hone BOTTOM_LEFT, hone BOTTOM_RIGHT,
        hcross BOTTOM_LEFT BOTTOM_RIGHT (by decide)⟩
    · intro a ha b hb
      rcases List.mem_append.mp hb with hb | hb
      · exact hcross TOP_RIGHT BOTTOM_LEFT (by decide) a ha b hb
      · exact hcross TOP_RIGHT BOTTOM_RIGHT (by decide) a ha b hb
  · intro a ha b hb
    rcases List.mem_append.mp hb with hb | hb
    · exact hcross TOP_LEFT TOP_RIGHT (by decide) a ha b hb
    rcases List.mem_append.mp hb with hb | hb
    · exact hcross TOP_LEFT BOTTOM_LEFT (by decide) a ha b hb
    · exact hcross TOP_LEFT BOTTOM_RIGHT (by decide) a ha b hb

/-- Helper: K2's loop never changes `(path_idx, split_info, seg_idx)`. -/
theorem consolidateAux_skel : ∀ (l : List SplitEntry) (prev : SplitEntry),
    (consolidateAux prev l).map skel = l.map skel := by
  intro l
  induction l with
  | nil =>
    intro prev
    rfl
  | cons curr rest ih =>
    intro prev
    simp only [consolidateAux]
    split_ifs with h
    · rw [List.map_cons, List.map_cons, ih]
      rfl
    · rw [List.map_cons, List.map_cons, ih]

/-- Helper: K2 never changes `(path_idx, split_info, seg_idx)`. -/
theorem consolidate_skel (l l2 : List SplitEntry)
    (h : consolidate_winding_inc l = some l2) : l2.map skel = l.map skel := by
  cases l with
  | nil => exact absurd h (by simp [consolidate_winding_inc])
  | cons e rest =>
    have h' : some (e :: consolidateAux e rest) = some l2 := h
    rw [Option.some.injEq] at h'
    rw [← h', List.map_cons, consolidateAux_skel, List.map_cons]

/-- Helper: `skel` is determined by the offset-free projection. -/
theorem skel_of_core (l1 l2 : List SplitEntry) (h : l1.map coreOf = l2.map coreOf) :
    l1.map skel = l2.map skel := by
  have hfac : ∀ l : List SplitEntry,
      l.map skel = (l.map coreOf).map (fun c => (c.2.2.2.1, c.1.split_info, c.2.2.1)) := by
    intro l
    rw [List.map_map]
    rfl
  rw [hfac, hfac, h]

/-- Helper: a pairwise property of the `skel` fields transports along lists
with equal `skel` images. -/
theorem pairwise_skel (R : ℕ × ℕ × ℕ → ℕ × ℕ × ℕ → Prop) (l1 l2 : List SplitEntry)
    (h : l1.map skel = l2.map skel)
    (hp : l2.Pairwise (fun a b => R (skel a) (skel b))) :
    l1.Pairwise (fun a b => R (skel a) (skel b)) := by
  have h2 := List.pairwise_map.mpr hp
  rw [← h] at h2
  exact List.pairwise_map.mp h2

/-- The claim's ordering invariant on parent entries: `path_idx`
ascending. -/
def cePathLe (a b : CellEntry) : Prop := a.path_idx ≤ b.path_idx

/-- The claim's ordering invariant on parent entries: at most one `SEGMENT`
entry per `(seg_idx, path_idx)` pair. -/
def ceSegUniq (a b : CellEntry) : Prop :=
  a.entry_type &&& ABSTRACT ≠ 0 → b.entry_type &&& ABSTRACT ≠ 0 →
    a.path_idx = b.path_idx → a.seg_idx ≠ b.seg_idx

/-- Helper: K1 turns the parent-entry ordering invariant into the
split-entry one: paths stay ascending, fillable split entries of one path
carry different segments, and each split entry's path traces back to its
parent entry. -/
theorem build_split_entries_invariants (pb : Rect) (mp : Pt)
    (segs : List AbstractLineSegment) : ∀ (ce : List CellEntry) (sl : List SplitEntry),
    build_split_entries pb mp segs ce = some sl →
    (∀ e ∈ ce, e.entry_type &&& ABSTRACT ≠ 0 →
      ∀ seg, segs.get? e.seg_idx = some seg → seg.path_idx = e.path_idx) →
    ce.Pairwise cePathLe → ce.Pairwise ceSegUniq →
    sl.Pairwise sePathLe ∧ sl.Pairwise seSegUniq ∧
    (∀ se ∈ sl, ∃ e ∈ ce, se.path_idx = e.path_idx ∧
      (se.split_data.split_info = 0 ∨
        (e.entry_type &&& ABSTRACT ≠ 0 ∧ se.seg_idx = e.seg_idx))) := by
  intro ce
  induction ce with
  | nil =>
    intro sl hsl _ _ _
    have h' : some [] = some sl := hsl
    rw [Option.some.injEq] at h'
    rw [← h']
    exact ⟨List.Pairwise.nil, List.Pairwise.nil, by simp⟩
  | cons entry rest ih =>
    intro sl hsl hcons hsort huniq
    rw [List.pairwise_cons] at hsort huniq
    obtain ⟨hsorth, hsortr⟩ := hsort
    obtain ⟨huniqh, huniqr⟩ := huniq
    have hconsr : ∀ e ∈ rest, e.entry_type &&& ABSTRACT ≠ 0 →
        ∀ seg, segs.get? e.seg_idx = some seg → seg.path_idx = e.path_idx :=
      fun e he => hcons e (List.mem_cons_of_mem _ he)
    rw [build_split_entries] at hsl
    by_cases habs : entry.entry_type &&& ABSTRACT ≠ 0
    · rw [if_pos habs] at hsl
      cases hget : segs.get? entry.seg_idx with
      | none =>
        rw [hget] at hsl
        simp at hsl
      | some seg =>
        rw [hget] at hsl
        simp only [Option.bind_eq_bind, Option.some_bind, Option.bind_eq_some] at hsl
        obtain ⟨tl, htl, hsl⟩ := hsl
        rw [Option.some.injEq] at hsl
        obtain ⟨htlsort, htluniq, htlmem⟩ := ih tl htl hconsr hsortr huniqr
        have hrecpath : seg.path_idx = entry.path_idx :=
          hcons entry (List.mem_cons_self _ _) habs seg hget
        by_cases hwinc : entry.entry_type &&& WINDING_INCREMENT ≠ 0
        · rw [if_pos hwinc] at hsl
          rw [← hsl]
          simp only [List.singleton_append]
          refine ⟨?_, ?_, ?_⟩
          · refine List.pairwise_cons.mpr ⟨?_, List.pairwise_cons.mpr ⟨?_, htlsort⟩⟩
            · intro b hb
              rcases List.mem_cons.mp hb with hb | hb
              · subst hb
                show seg.path_idx ≤ entry.path_idx
                exact Nat.le_of_eq hrecpath
              · obtain ⟨f, hf, hbpath, _⟩ := htlmem b hb
                show seg.path_idx ≤ b.path_idx
                rw [hrecpath, hbpath]
                exact hsorth f hf
            · intro b hb
              obtain ⟨f, hf, hbpath, _⟩ := htlmem b hb
              show entry.path_idx ≤ b.path_idx
              rw [hbpath]
              exact hsorth f hf
          · refine List.pairwise_cons.mpr ⟨?_, List.pairwise_cons.mpr ⟨?_, htluniq⟩⟩
            · intro b hb
              rcases List.mem_cons.mp hb with hb | hb
              · subst hb
                intro _
                exact Or.inr (Or.inl rfl)
              · intro hpath
                have hpath' : seg.path_idx = b.path_idx := hpath
                obtain ⟨f, hf, hbpath, hdisj⟩ := htlmem b hb
                rcases hdisj with hsi0 | ⟨hfabs, hbseg⟩
                · exact Or.inr (Or.inl hsi0)
                · refine Or.inr (Or.inr ?_)
                  show entry.seg_idx ≠ b.seg_idx
                  rw [hbseg]
                  exact huniqh f hf habs hfabs (by rw [← hrecpath, hpath', hbpath])
            · intro b _ _
              exact Or.inl rfl
          · intro se hse
            rcases List.mem_cons.mp hse with hse | hse
            · subst hse
              exact ⟨entry, List.mem_cons_self _ _, hrecpath, Or.inr ⟨habs, rfl⟩⟩
            rcases List.mem_cons.mp hse with hse | hse
            · subst hse
              exact ⟨entry, List.mem_cons_self _ _, rfl, Or.inl rfl⟩
            · obtain ⟨f, hf, h1, h2⟩ := htlmem se hse
              exact ⟨f, List.mem_cons_of_mem _ hf, h1, h2⟩
        · rw [if_neg hwinc] at hsl
          rw [← hsl]
          simp only [List.singleton_append, List.nil_append]
          refine ⟨?_, ?_, ?_⟩
          · refine List.pairwise_cons.mpr ⟨?_, htlsort⟩
            intro b hb
            obtain ⟨f, hf, hbpath, _⟩ := htlmem b hb
            show seg.path_idx ≤ b.path_idx
            rw [hrecpath, hbpath]
            exact hsorth f hf
          · refine List.pairwise_cons.mpr ⟨?_, htluniq⟩
            intro b hb
            intro hpath
            have hpath' : seg.path_idx = b.path_idx := hpath
            obtain ⟨f, hf, hbpath, hdisj⟩ := htlmem b hb
            rcases hdisj with hsi0 | ⟨hfabs, hbseg⟩
            · exact Or.inr (Or.inl hsi0)
            · refine Or.inr (Or.inr ?_)
              show entry.seg_idx ≠ b.seg_idx
              rw [hbseg]
              exact huniqh f hf habs hfabs (by rw [← hrecpath, hpath', hbpath])
          · intro se hse
            rcases List.mem_cons.mp hse with hse | hse
            · subst hse
              exact ⟨entry, List.mem_cons_self _ _, hrecpath, Or.inr ⟨habs, rfl⟩⟩
            · obtain ⟨f, hf, h1, h2⟩ := htlmem se hse
              exact ⟨f, List.mem_cons_of_mem _ hf, h1, h2⟩
    · rw [if_neg habs] at hsl
      simp only [Option.bind_eq_bind, Option.some_bind, Option.bind_eq_some] at hsl
      obtain ⟨tl, htl, hsl⟩ := hsl
      rw [Option.some.injEq] at hsl
      obtain ⟨htlsort, htluniq, htlmem⟩ := ih tl htl hconsr hsortr huniqr
      by_cases hwinc : entry.entry_type &&& WINDING_INCREMENT ≠ 0
      · rw [if_pos hwinc] at hsl
        rw [← hsl]
        simp only [List.singleton_append, List.nil_append]
        refine ⟨?_, ?_, ?_⟩
        · refine List.pairwise_cons.mpr ⟨?_, htlsort⟩
          intro b hb
          obtain ⟨f, hf, hbpath, _⟩ := htlmem b hb
          show entry.path_idx ≤ b.path_idx
          rw [hbpath]
          exact hsorth f hf
        · refine List.pairwise_cons.mpr ⟨?_, htluniq⟩
          intro b _ _
          exact Or.inl rfl
        · intro se hse
          rcases List.mem_cons.mp hse with hse | hse
          · subst hse
            exact ⟨entry, List.mem_cons_self _ _, rfl, Or.inl rfl⟩
          · obtain ⟨f, hf, h1, h2⟩ := htlmem se hse
            exact ⟨f, List.mem_cons_of_mem _ hf, h1, h2⟩
      · rw [if_neg hwinc] at hsl
        rw [← hsl]
        simp only [List.nil_append]
        refine ⟨htlsort, htluniq, ?_⟩
        intro se hse
        obtain ⟨f, hf, h1, h2⟩ := htlmem se hse
        exact ⟨f, List.mem_cons_of_mem _ hf, h1, h2⟩

/-- C9 (confirmed).  For every parent entry list satisfying the ordering
invariant — `path_idx` ascending, at most one `ABSTRACT` entry per
`(seg_idx, path_idx)` pair, and `ABSTRACT` entries pointing at segments of
their own path — the subdivision pipeline's K4 output has no two `SEGMENT`
records sharing a `(cell_id, path_idx, seg_idx)` triple, and at most one
`WINDING` record per `(cell_id, path_idx)` pair. -/
theorem C9_scatter_uniqueness (ce : List CellEntry) (pb : Rect) (mp : Pt)
    (segs : List AbstractLineSegment) (out : List CellEntry)
    (hcons : ∀ e ∈ ce, e.entry_type &&& ABSTRACT ≠ 0 →
      ∀ seg, segs.get? e.seg_idx = some seg → seg.path_idx = e.path_idx)
    (hsort : ce.Pairwise cePathLe) (huniq : ce.Pairwise ceSegUniq)
    (hout : subdivide_cell_entry ce pb mp segs = some out) :
    out.Pairwise scatterDistinct := by
  unfold subdivide_cell_entry at hout
  simp only [Option.bind_eq_bind, Option.bind_eq_some] at hout
  obtain ⟨sl, hsl, l2, hl2, p, hp, hsplit⟩ := hout
  obtain ⟨hsl_sort, hsl_uniq, _⟩ :=
    build_split_entries_invariants pb mp segs ce sl hsl hcons hsort huniq
  have hskel2 : l2.map skel = sl.map skel := consolidate_skel sl l2 hl2
  obtain ⟨hmne, hoffs, hT, hcore⟩ := update_spec_self l2 p.1 p.2 hp
  have hskel3 : p.1.map skel = l2.map skel := skel_of_core p.1 l2 hcore
  have hskel : p.1.map skel = sl.map skel := by rw [hskel3, hskel2]
  have hm_sort : p.1.Pairwise sePathLe :=
    pairwise_skel (fun s t => s.1 ≤ t.1) p.1 sl hskel hsl_sort
  have hm_uniq : p.1.Pairwise seSegUniq :=
    pairwise_skel (fun s t => s.1 = t.1 → s.2.1 = 0 ∨ t.2.1 = 0 ∨ s.2.2 ≠ t.2.2)
      p.1 sl hskel hsl_uniq
  have hspec := split_to_cell_entry_spec p.1 p.2 hmne hoffs hT
  rw [hsplit] at hspec
  rw [Option.some.injEq] at hspec
  rw [hspec]
  exact scatterSpec_pairwise p.1 hm_sort hm_uniq

/-- C9 witness: the uniqueness theorem applied at a concrete one-entry
slice. -/
theorem C9_scatter_uniqueness_witness :
    ((subdivide_cell_entry [⟨WINDING_INCREMENT, 1, NONE_U32, 0, TOP_LEFT, 0⟩]
        ⟨0, 0, 100, 100⟩ ⟨50, 50⟩ []).getD []).Pairwise scatterDistinct :=
  C9_scatter_uniqueness [⟨WINDING_INCREMENT, 1, NONE_U32, 0, TOP_LEFT, 0⟩]
    ⟨0, 0, 100, 100⟩ ⟨50, 50⟩ [] _
    (by
      intro e he h
      rw [List.mem_singleton] at he
      subst he
      exact absurd h (by decide))
    (List.pairwise_singleton _ _) (List.pairwise_singleton _ _) rfl

/-! ### The quadtree driver (source `quad_tree.rs`) -/

/-- Source `quad_tree.rs::QuadCell`.  The `children` id array is a 4-tuple
`(TL, TR, BL, BR)`; `leaf_entry_range` is a `(start, end)` pair. -/
structure QuadCell where
  id : ℕ
  depth : ℕ
  bbox : Rect
  children : Option (ℕ × ℕ × ℕ × ℕ)
  leaf_entry_range : Option (ℕ × ℕ)

/-- The driver loop's mutable state: the node arena, the finished leaf
entries, and the frontier of cells still to subdivide.  The source keeps the
frontier as parallel `cells_cur`/`entries_cur`/`ranges_cur` vectors whose
ranges tile `entries_cur` in order; it is modelled as the equivalent list of
`(cell id, its entry slice)` pairs. -/
structure BuildSt where
  nodes : List QuadCell
  leaf_entries : List CellEntry
  frontier : List (ℕ × List CellEntry)

/-- Source `quad_tree.rs::get_child_bounds`. -/
def get_child_bounds (parent_bbox : Rect) (mid : Pt) : Option (Rect × Rect × Rect × Rect) := do
  let tl ← Rect.from_ltrb parent_bbox.left parent_bbox.top mid.x mid.y
  let tr ← Rect.from_ltrb mid.x parent_bbox.top parent_bbox.right mid.y
  let bl ← Rect.from_ltrb parent_bbox.left mid.y mid.x parent_bbox.bottom
  let br ← Rect.from_ltrb mid.x mid.y parent_bbox.right parent_bbox.bottom
  some (tl, tr, bl, br)

/-- The driver's leaf branch: append the parent's entries to the leaf vector
and record the range on the parent cell.  Arena indexing out of bounds (a
Rust panic) is modelled by `none`. -/
def makeLeaf (st : BuildSt) (pid : ℕ) (es : List CellEntry) : Option BuildSt := do
  let c ← st.nodes.get? pid
  let r : ℕ × ℕ := (st.leaf_entries.length, st.leaf_entries.length + es.length)
  some { st with
    nodes := st.nodes.set pid { c with leaf_entry_range := some r },
    leaf_entries := st.leaf_entries ++ es }

/-- The per-child distribution loop: relabel each subdivided entry's
`cell_id` to the child's arena id `base + cell_pos`, group by child position
in the fixed TL, TR, BL, BR order, and skip empty children (the source's
`continue`). -/
def childGroups (flat : List CellEntry) (base : ℕ) : List (ℕ × List CellEntry) :=
  (let g0 := (flat.filter (fun e => decide (e.cell_pos = TOP_LEFT))).map
      (fun e => { e with cell_id := base });
    if g0.isEmpty then [] else [(base, g0)]) ++
  (let g1 := (flat.filter (fun e => decide (e.cell_pos = TOP_RIGHT))).map
      (fun e => { e with cell_id := base + 1 });
    if g1.isEmpty then [] else [(base + 1, g1)]) ++
  (let g2 := (flat.filter (fun e => decide (e.cell_pos = BOTTOM_LEFT))).map
      (fun e => { e with cell_id := base + 2 });
    if g2.isEmpty then [] else [(base + 2, g2)]) ++
  (let g3 := (flat.filter (fun e => decide (e.cell_pos = BOTTOM_RIGHT))).map
      (fun e => { e with cell_id := base + 3 });
    if g3.isEmpty then [] else [(base + 3, g3)])

/-- One iteration of the driver's per-parent loop body (source
`build_quadtree` lines 89-161): decide `can_split` by the parent's
`ABSTRACT` entry count, fall back to a leaf when splitting is impossible,
otherwise push the four child cells (arena ids `nodes.len()..+4`), set the
parent's `children`, subdivide the parent's entries and distribute them. -/
def processParent (abs_segments : List AbstractLineSegment) (min_seg depth : ℕ)
    (st : BuildSt) (p : ℕ × List CellEntry) : Option BuildSt := do
  let parent_cell ← st.nodes.get? p.1
  let parent_seg_count := (p.2.filter (fun e => decide (e.entry_type &&& ABSTRACT ≠ 0))).length
  if min_seg < parent_seg_count then
    let pb := parent_cell.bbox
    let mid : Pt := ⟨(pb.right + pb.left) * (1/2), (pb.bottom + pb.top) * (1/2)⟩
    match get_child_bounds pb mid with
    | none => makeLeaf st p.1 p.2
    | some cb => do
      let base := st.nodes.length
      let nodes1 := st.nodes ++
        [⟨base, depth + 1, cb.1, none, none⟩, ⟨base + 1, depth + 1, cb.2.1, none, none⟩,
          ⟨base + 2, depth + 1, cb.2.2.1, none, none⟩,
          ⟨base + 3, depth + 1, cb.2.2.2, none, none⟩]
      let nodes2 := nodes1.set p.1
        { parent_cell with children := some (base, base + 1, base + 2, base + 3) }
      let flat ← subdivide_cell_entry p.2 pb mid abs_segments
      some { nodes := nodes2, leaf_entries := st.leaf_entries,
             frontier := st.frontier ++ childGroups flat base }
  else makeLeaf st p.1 p.2

/-- One level of the driver loop: process every frontier cell, accumulating
the next level's frontier. -/
def buildLevel (abs_segments : List AbstractLineSegment) (min_seg depth : ℕ)
    (st : BuildSt) : Option BuildSt :=
  st.frontier.foldlM (processParent abs_segments min_seg depth) { st with frontier := [] }

/-- The driver's final pass: any frontier left when `max_depth` is reached
becomes leaves. -/
def flushFrontier (st : BuildSt) : Option BuildSt :=
  st.frontier.foldlM (fun acc p => makeLeaf acc p.1 p.2) { st with frontier := [] }

/-- The driver's depth loop with its early exit on an empty frontier. -/
def buildLoop (abs_segments : List AbstractLineSegment) (min_seg : ℕ) :
    ℕ → ℕ → BuildSt → Option BuildSt
  | 0, _, st => some st
  | n + 1, depth, st =>
    if st.frontier.isEmpty then some st
    else do
      let st' ← buildLevel abs_segments min_seg depth st
      buildLoop abs_segments min_seg n (depth + 1) st'

/-- Source `quad_tree.rs::build_quadtree`: root cell id 0, root entries
relabelled to the root, then the level loop and the final flush.  Errors
(`anyhow::Result`) are modelled by `none`. -/
def build_quadtree (root_bbox : Rect) (root_entries : List CellEntry)
    (max_depth min_seg : ℕ) (abs_segments : List AbstractLineSegment) :
    Option (List QuadCell × List CellEntry) := do
  let entries0 := root_entries.map fun e => { e with cell_id := 0, cell_pos := TOP_LEFT }
  let st0 : BuildSt := ⟨[⟨0, 0, root_bbox, none, none⟩], [], [(0, entries0)]⟩
  let st1 ← buildLoop abs_segments min_seg max_depth 0 st0
  let st2 ← flushFrontier st1
  some (st2.nodes, st2.leaf_entries)

/-- Source `quad_tree.rs::QuadTree::new`. -/
def QuadTree.new (abs_segments : List AbstractLineSegment) (root_bbox : Rect)
    (max_depth min_seg : ℕ) : Option (List QuadCell × List CellEntry) :=
  build_quadtree root_bbox (init_root_cell_entries abs_segments) max_depth min_seg abs_segments

/-- Helper: a successful `get?` means the index is in bounds. -/
theorem get?_lt {α : Type} (l : List α) (j : ℕ) (a : α) (h : l.get? j = some a) :
    j < l.length := by
  by_contra hc
  push_neg at hc
  rw [List.get?_eq_none.mpr hc] at h
  simp at h

/-- Helper: `get?` on a four-element list. -/
theorem get?_four {α : Type} (a0 a1 a2 a3 : α) (j : ℕ) (c : α)
    (h : ([a0, a1, a2, a3] : List α).get? j = some c) :
    (j = 0 ∧ c = a0) ∨ (j = 1 ∧ c = a1) ∨ (j = 2 ∧ c = a2) ∨ (j = 3 ∧ c = a3) := by
  rcases j with _ | _ | _ | _ | j
  · injection h with h
    exact Or.inl ⟨rfl, h.symm⟩
  · injection h with h
    exact Or.inr (Or.inl ⟨rfl, h.symm⟩)
  · injection h with h
    exact Or.inr (Or.inr (Or.inl ⟨rfl, h.symm⟩))
  · injection h with h
    exact Or.inr (Or.inr (Or.inr ⟨rfl, h.symm⟩))
  · exact absurd h (by simp)

/-- The arena invariant the driver maintains: ids equal indices, no cell is
both internal and leaf, children ids are consecutive, and every recorded
leaf range indexes entries carrying the owner's id. -/
def nodesWF (nodes : List QuadCell) (leaf_entries : List CellEntry) : Prop :=
  ∀ i c, nodes.get? i = some c →
    c.id = i ∧
    ¬(c.children.isSome ∧ c.leaf_entry_range.isSome) ∧
    (∀ ch, c.children = some ch →
      ch.2.1 = ch.1 + 1 ∧ ch.2.2.1 = ch.1 + 2 ∧ ch.2.2.2 = ch.1 + 3) ∧
    (∀ r, c.leaf_entry_range = some r → r.2 ≤ leaf_entries.length ∧
      (∀ j en, r.1 ≤ j → j < r.2 → leaf_entries.get? j = some en → en.cell_id = c.id))

/-- The frontier invariant: every frontier id points at an arena cell that
is still neither internal nor leaf, every queued entry already carries its
cell's id, and no id is queued twice. -/
def frontWF (nodes : List QuadCell) (front : List (ℕ × List CellEntry)) : Prop :=
  (∀ p ∈ front, ∃ c, nodes.get? p.1 = some c ∧ c.children = none ∧ c.leaf_entry_range = none) ∧
  (∀ p ∈ front, ∀ e ∈ p.2, e.cell_id = p.1) ∧
  (front.map Prod.fst).Nodup

/-- Helper: the leaf branch preserves the arena invariant, leaves the
frontier alone, and touches no other cell. -/
theorem makeLeaf_wf (st : BuildSt) (pid : ℕ) (es : List CellEntry) (st1 : BuildSt)
    (h : makeLeaf st pid es = some st1)
    (hn : nodesWF st.nodes st.leaf_entries)
    (hes : ∀ e ∈ es, e.cell_id = pid)
    (hpid : ∃ c0, st.nodes.get? pid = some c0 ∧ c0.children = none ∧
      c0.leaf_entry_range = none) :
    nodesWF st1.nodes st1.leaf_entries ∧ st1.frontier = st.frontier ∧
    st1.nodes.length = st.nodes.length ∧
    (∀ i, i ≠ pid → st1.nodes.get? i = st.nodes.get? i) := by
  obtain ⟨c0, hc0, hch0, hlr0⟩ := hpid
  unfold makeLeaf at h
  rw [hc0] at h
  simp only [Option.bind_eq_bind, Option.some_bind, Option.some.injEq] at h
  subst h
  have hlt : pid < st.nodes.length := get?_lt _ _ _ hc0
  refine ⟨?_, rfl, by simp, ?_⟩
  · intro i c hc
    by_cases hi : i = pid
    · subst hi
      rw [List.get?_set_eq_of_lt _ hlt] at hc
      rw [Option.some.injEq] at hc
      subst hc
      refine ⟨(hn i c0 hc0).1, ?_, ?_, ?_⟩
      · have hch : ∀ x : Option (ℕ × ℕ × ℕ × ℕ), x = c0.children →
            ¬(x.isSome ∧ (some (st.leaf_entries.length,
              st.leaf_entries.length + es.length) : Option (ℕ × ℕ)).isSome) := by
          intro x hx
          rw [hx, hch0]
          simp
        exact hch c0.children rfl
      · intro ch hchq
        have hchq' : c0.children = some ch := hchq
        rw [hch0] at hchq'
        exact absurd hchq' (by simp)
      · intro r hr
        have hr' : (st.leaf_entries.length, st.leaf_entries.length + es.length) = r := by
          have h2 : some (st.leaf_entries.length, st.leaf_entries.length + es.length)
              = some r := hr
          rw [Option.some.injEq] at h2
          exact h2
        refine ⟨?_, ?_⟩
        · show r.2 ≤ (st.leaf_entries ++ es).length
          rw [← hr', List.length_append]
        · intro j en hj1 hj2 hget
          have hj1' : st.leaf_entries.length ≤ j := by rw [← hr'] at hj1; exact hj1
          have hget' : (st.leaf_entries ++ es).get? j = some en := hget
          rw [List.get?_append_right hj1'] at hget'
          have hmem : en ∈ es := List.get?_mem hget'
          have hid : c0.id = i := (hn i c0 hc0).1
          show en.cell_id = c0.id
          rw [hes en hmem]
          exact hid.symm
    · rw [List.get?_set_ne _ _ (fun hq => hi hq.symm)] at hc
      obtain ⟨h1, h2, h3, h4⟩ := hn i c hc
      refine ⟨h1, h2, h3, ?_⟩
      intro r hr
      obtain ⟨hb, hj⟩ := h4 r hr
      refine ⟨?_, ?_⟩
      · show r.2 ≤ (st.leaf_entries ++ es).length
        rw [List.length_append]
        omega
      · intro j en hj1 hj2 hget
        have hget' : (st.leaf_entries ++ es).get? j = some en := hget
        rw [List.get?_append (by omega)] at hget'
        exact hj j en hj1 hj2 hget'
  · intro i hi
    exact List.get?_set_ne _ _ (fun hq => hi hq.symm)

/-- Helper: every child group's id is one of the four fresh ids and its
entries are relabelled to it. -/
theorem childGroups_mem (flat : List CellEntry) (base : ℕ) :
    ∀ q ∈ childGroups flat base,
      base ≤ q.1 ∧ q.1 < base + 4 ∧ (∀ e ∈ q.2, e.cell_id = q.1) := by
  have hone : ∀ (pos : Fin 4) (k : ℕ), k < 4 → ∀ q ∈
      (let g := (flat.filter (fun e => decide (e.cell_pos = pos))).map
        (fun e => { e with cell_id := base + k });
      if g.isEmpty then ([] : List (ℕ × List CellEntry)) else [(base + k, g)]),
      base ≤ q.1 ∧ q.1 < base + 4 ∧ (∀ e ∈ q.2, e.cell_id = q.1) := by
    intro pos k hk q hq
    simp only at hq
    split_ifs at hq with hemp
    · simp at hq
    · rw [List.mem_singleton] at hq
      subst hq
      refine ⟨?_, ?_, ?_⟩
      · show base ≤ base + k
        omega
      · show base + k < base + 4
        omega
      · intro e he
        rw [List.mem_map] at he
        obtain ⟨x, _, hx⟩ := he
        rw [← hx]
  intro q hq
  unfold childGroups at hq
  rw [List.mem_append, List.mem_append, List.mem_append] at hq
  rcases hq with ((hq | hq) | hq) | hq
  · exact hone TOP_LEFT 0 (by omega) q hq
  · exact hone TOP_RIGHT 1 (by omega) q hq
  · exact hone BOTTOM_LEFT 2 (by omega) q hq
  · exact hone BOTTOM_RIGHT 3 (by omega) q hq

/-- Helper: the four child groups carry four different ids. -/
theorem childGroups_nodup (flat : List CellEntry) (base : ℕ) :
    ((childGroups flat base).map Prod.fst).Nodup := by
  unfold childGroups
  dsimp only
  split_ifs <;> simp <;> omega

/-- Helper: the per-parent loop body preserves the arena invariant, touches
no other existing cell, and appends fresh well-labelled groups to the
frontier. -/
theorem processParent_wf (abs_segments : List AbstractLineSegment) (min_seg depth : ℕ)
    (st st1 : BuildSt) (p : ℕ × List CellEntry)
    (h : processParent abs_segments min_seg depth st p = some st1)
    (hn : nodesWF st.nodes st.leaf_entries)
    (hpid : ∃ c0, st.nodes.get? p.1 = some c0 ∧ c0.children = none ∧
      c0.leaf_entry_range = none)
    (hes : ∀ e ∈ p.2, e.cell_id = p.1) :
    nodesWF st1.nodes st1.leaf_entries ∧
    (∀ i, i ≠ p.1 → i < st.nodes.length → st1.nodes.get? i = st.nodes.get? i) ∧
    ∃ ng, st1.frontier = st.frontier ++ ng ∧
      (∀ q ∈ ng, (∃ c, st1.nodes.get? q.1 = some c ∧ c.children = none ∧
        c.leaf_entry_range = none) ∧ (∀ e ∈ q.2, e.cell_id = q.1) ∧ st.nodes.length ≤ q.1) ∧
      (ng.map Prod.fst).Nodup := by
  obtain ⟨c0, hc0, hch0, hlr0⟩ := hpid
  have hleaf : makeLeaf st p.1 p.2 = some st1 →
      nodesWF st1.nodes st1.leaf_entries ∧
      (∀ i, i ≠ p.1 → i < st.nodes.length → st1.nodes.get? i = st.nodes.get? i) ∧
      ∃ ng, st1.frontier = st.frontier ++ ng ∧
        (∀ q ∈ ng, (∃ c, st1.nodes.get? q.1 = some c ∧ c.children = none ∧
          c.leaf_entry_range = none) ∧ (∀ e ∈ q.2, e.cell_id = q.1) ∧
          st.nodes.length ≤ q.1) ∧
        (ng.map Prod.fst).Nodup := by
    intro hm
    obtain ⟨hn1, hfr, _, hpres⟩ := makeLeaf_wf st p.1 p.2 st1 hm hn hes ⟨c0, hc0, hch0, hlr0⟩
    exact ⟨hn1, fun i hi _ => hpres i hi, [],
      by rw [hfr, List.append_nil], by simp, by simp⟩
  unfold processParent at h
  rw [hc0] at h
  simp only [Option.bind_eq_bind, Option.some_bind] at h
  split_ifs at h with hcan
  · split at h
    · exact hleaf h
    · rename_i cb _
      simp only [Option.bind_eq_bind, Option.bind_eq_some] at h
      obtain ⟨flat, _, h⟩ := h
      rw [Option.some.injEq] at h
      subst h
      have hlt : p.1 < st.nodes.length := get?_lt _ _ _ hc0
      have hnew : ∀ j, j < 4 → ∃ c : QuadCell,
          ([⟨st.nodes.length, depth + 1, cb.1, none, none⟩,
            ⟨st.nodes.length + 1, depth + 1, cb.2.1, none, none⟩,
            ⟨st.nodes.length + 2, depth + 1, cb.2.2.1, none, none⟩,
            ⟨st.nodes.length + 3, depth + 1, cb.2.2.2, none, none⟩] : List QuadCell).get? j
            = some c ∧ c.children = none ∧ c.leaf_entry_range = none := by
        intro j hj
        rcases j with _ | _ | _ | _ | j
        · exact ⟨⟨st.nodes.length, depth + 1, cb.1, none, none⟩, rfl, rfl, rfl⟩
        · exact ⟨⟨st.nodes.length + 1, depth + 1, cb.2.1, none, none⟩, rfl, rfl, rfl⟩
        · exact ⟨⟨st.nodes.length + 2, depth + 1, cb.2.2.1, none, none⟩, rfl, rfl, rfl⟩
        · exact ⟨⟨st.nodes.length + 3, depth + 1, cb.2.2.2, none, none⟩, rfl, rfl, rfl⟩
        · omega
      refine ⟨?_, ?_, childGroups flat st.nodes.length, rfl, ?_, childGroups_nodup _ _⟩
      · intro i c hc
        by_cases hi : i = p.1
        · subst hi
          have hlt1 : p.1 < (st.nodes ++
              ([⟨st.nodes.length, depth + 1, cb.1, none, none⟩,
                ⟨st.nodes.length + 1, depth + 1, cb.2.1, none, none⟩,
                ⟨st.nodes.length + 2, depth + 1, cb.2.2.1, none, none⟩,
                ⟨st.nodes.length + 3, depth + 1, cb.2.2.2, none, none⟩] : List QuadCell)).length := by
            rw [List.length_append]
            omega
          rw [List.get?_set_eq_of_lt _ hlt1] at hc
          rw [Option.some.injEq] at hc
          subst hc
          refine ⟨(hn p.1 c0 hc0).1, ?_, ?_, ?_⟩
          · have hlr : ∀ x : Option (ℕ × ℕ), x = c0.leaf_entry_range →
                ¬((some (st.nodes.length, st.nodes.length + 1, st.nodes.length + 2,
                  st.nodes.length + 3) : Option (ℕ × ℕ × ℕ × ℕ)).isSome ∧ x.isSome) := by
              intro x hx
              rw [hx, hlr0]
              simp
            exact hlr c0.leaf_entry_range rfl
          · intro ch hchq
            have hchq' : some (st.nodes.length, st.nodes.length + 1, st.nodes.length + 2,
                st.nodes.length + 3) = some ch := hchq
            rw [Option.some.injEq] at hchq'
            rw [← hchq']
            exact ⟨rfl, rfl, rfl⟩
          · intro r hr
            have hr' : c0.leaf_entry_range = some r := hr
            rw [hlr0] at hr'
            exact absurd hr' (by simp)
        · rw [List.get?_set_ne _ _ (fun hq => hi hq.symm)] at hc
          by_cases hlow : i < st.nodes.length
          · rw [List.get?_append hlow] at hc
            exact hn i c hc
          · push_neg at hlow
            rw [List.get?_append_right hlow] at hc
            have h4 := get?_four _ _ _ _ (i - st.nodes.length) c hc
            have hid : ∀ m, i - st.nodes.length = m → c.id = st.nodes.length + m → c.id = i := by
              intro m hm hcid
              rw [hcid]
              omega
            rcases h4 with ⟨hj, hcv⟩ | ⟨hj, hcv⟩ | ⟨hj, hcv⟩ | ⟨hj, hcv⟩ <;> subst hcv
            · refine ⟨hid 0 hj rfl, by simp, ?_, ?_⟩
              · intro ch hchq
                exact absurd (show (none : Option (ℕ × ℕ × ℕ × ℕ)) = some ch from hchq)
                  (by simp)
              · intro r hr
                exact absurd (show (none : Option (ℕ × ℕ)) = some r from hr) (by simp)
            · refine ⟨hid 1 hj rfl, by simp, ?_, ?_⟩
              · intro ch hchq
                exact absurd (show (none : Option (ℕ × ℕ × ℕ × ℕ)) = some ch from hchq)
                  (by simp)
              · intro r hr
                exact absurd (show (none : Option (ℕ × ℕ)) = some r from hr) (by simp)
            · refine ⟨hid 2 hj rfl, by simp, ?_, ?_⟩
              · intro ch hchq
                exact absurd (show (none : Option (ℕ × ℕ × ℕ × ℕ)) = some ch from hchq)
                  (by simp)
              · intro r hr
                exact absurd (show (none : Option (ℕ × ℕ)) = some r from hr) (by simp)
            · refine ⟨hid 3 hj rfl, by simp, ?_, ?_⟩
              · intro ch hchq
                exact absurd (show (none : Option (ℕ × ℕ × ℕ × ℕ)) = some ch from hchq)
                  (by simp)
              · intro r hr
                exact absurd (show (none : Option (ℕ × ℕ)) = some r from hr) (by simp)
      · intro i hi hilow
        have h1 : (((st.nodes ++
            ([⟨st.nodes.length, depth + 1, cb.1, none, none⟩,
              ⟨st.nodes.length + 1, depth + 1, cb.2.1, none, none⟩,
              ⟨st.nodes.length + 2, depth + 1, cb.2.2.1, none, none⟩,
              ⟨st.nodes.length + 3, depth + 1, cb.2.2.2, none, none⟩] : List QuadCell)).set p.1
            { c0 with children := some (st.nodes.length, st.nodes.length + 1,
                st.nodes.length + 2, st.nodes.length + 3) }).get? i) =
            (st.nodes ++
            ([⟨st.nodes.length, depth + 1, cb.1, none, none⟩,
              ⟨st.nodes.length + 1, depth + 1, cb.2.1, none, none⟩,
              ⟨st.nodes.length + 2, depth + 1, cb.2.2.1, none, none⟩,
              ⟨st.nodes.length + 3, depth + 1, cb.2.2.2, none, none⟩] : List QuadCell)).get? i :=
          List.get?_set_ne _ _ (fun hq => hi hq.symm)
        rw [h1, List.get?_append hilow]
      · intro q hq
        obtain ⟨hq1, hq2, hq3⟩ := childGroups_mem flat st.nodes.length q hq
        refine ⟨?_, hq3, hq1⟩
        have hne : q.1 ≠ p.1 := by omega
        obtain ⟨c, hcget, hcch, hclr⟩ := hnew (q.1 - st.nodes.length) (by omega)
        refine ⟨c, ?_, hcch, hclr⟩
        have h1 := List.get?_set_ne
          ({ c0 with children := some (st.nodes.length, st.nodes.length + 1,
              st.nodes.length + 2, st.nodes.length + 3) })
          (st.nodes ++
            ([⟨st.nodes.length, depth + 1, cb.1, none, none⟩,
              ⟨st.nodes.length + 1, depth + 1, cb.2.1, none, none⟩,
              ⟨st.nodes.length + 2, depth + 1, cb.2.2.1, none, none⟩,
              ⟨st.nodes.length + 3, depth + 1, cb.2.2.2, none, none⟩] : List QuadCell))
          (fun hq' => hne hq'.symm)
        rw [h1, List.get?_append_right (by omega)]
        exact hcget
  · exact hleaf h

/-- Helper: one level of the driver preserves both invariants. -/
theorem buildLevel_wf_aux (abs_segments : List AbstractLineSegment) (min_seg depth : ℕ) :
    ∀ (F : List (ℕ × List CellEntry)) (st : BuildSt),
    nodesWF st.nodes st.leaf_entries →
    frontWF st.nodes (F ++ st.frontier) →
    ∀ st', F.foldlM (processParent abs_segments min_seg depth) st = some st' →
    nodesWF st'.nodes st'.leaf_entries ∧ frontWF st'.nodes st'.frontier := by
  intro F
  induction F with
  | nil =>
    intro st hn hf st' h
    have h' : some st = some st' := h
    rw [Option.some.injEq] at h'
    subst h'
    exact ⟨hn, hf⟩
  | cons q F' ih =>
    intro st hn hf st' h
    rw [List.foldlM_cons] at h
    simp only [Option.bind_eq_bind, Option.bind_eq_some] at h
    obtain ⟨st1, h1, h2⟩ := h
    obtain ⟨hfv, hfe, hfn⟩ := hf
    have hq0 : ∃ c, st.nodes.get? q.1 = some c ∧ c.children = none ∧
        c.leaf_entry_range = none := hfv q (by simp)
    have hqe : ∀ e ∈ q.2, e.cell_id = q.1 := hfe q (by simp)
    obtain ⟨hn1, hpres, ng, hfr1, hng, hngnodup⟩ :=
      processParent_wf abs_segments min_seg depth st st1 q h1 hn hq0 hqe
    refine ih st1 hn1 ?_ st' h2
    rw [hfr1, ← List.append_assoc]
    have hLold : ∀ p' ∈ F' ++ st.frontier, p'.1 < st.nodes.length ∧
        ∃ c, st.nodes.get? p'.1 = some c ∧ c.children = none ∧
          c.leaf_entry_range = none := by
      intro p' hp'
      obtain ⟨c, hc, h1c, h2c⟩ := hfv p' (List.mem_cons_of_mem _ hp')
      exact ⟨get?_lt _ _ _ hc, c, hc, h1c, h2c⟩
    have hqnotin : q.1 ∉ (F' ++ st.frontier).map Prod.fst := by
      have := hfn
      rw [List.cons_append, List.map_cons, List.nodup_cons] at this
      exact this.1
    refine ⟨?_, ?_, ?_⟩
    · intro p' hp'
      rcases List.mem_append.mp hp' with hp' | hp'
      · obtain ⟨hlt', c, hc, h1c, h2c⟩ := hLold p' hp'
        have hne : p'.1 ≠ q.1 := by
          intro hcontra
          apply hqnotin
          rw [← hcontra]
          exact List.mem_map_of_mem _ hp'
        refine ⟨c, ?_, h1c, h2c⟩
        rw [hpres p'.1 hne hlt']
        exact hc
      · exact (hng p' hp').1
    · intro p' hp'
      rcases List.mem_append.mp hp' with hp' | hp'
      · exact hfe p' (List.mem_cons_of_mem _ hp')
      · exact (hng p' hp').2.1
    · rw [List.map_append, List.nodup_append]
      refine ⟨?_, hngnodup, ?_⟩
      · have := hfn
        rw [List.cons_append, List.map_cons, List.nodup_cons] at this
        exact this.2
      · intro a ha hb
        rw [List.mem_map] at ha hb
        obtain ⟨p1, hp1, ha1⟩ := ha
        obtain ⟨p2, hp2, hb2⟩ := hb
        have hlt1 := (hLold p1 hp1).1
        have hge2 := (hng p2 hp2).2.2
        omega

/-- Helper: the driver's depth loop preserves both invariants. -/
theorem buildLoop_wf (abs_segments : List AbstractLineSegment) (min_seg : ℕ) :
    ∀ (n depth : ℕ) (st st' : BuildSt),
    nodesWF st.nodes st.leaf_entries → frontWF st.nodes st.frontier →
    buildLoop abs_segments min_seg n depth st = some st' →
    nodesWF st'.nodes st'.leaf_entries ∧ frontWF st'.nodes st'.frontier := by
  intro n
  induction n with
  | zero =>
    intro depth st st' hn hf h
    have h' : some st = some st' := h
    rw [Option.some.injEq] at h'
    subst h'
    exact ⟨hn, hf⟩
  | succ n ih =>
    intro depth st st' hn hf h
    rw [buildLoop] at h
    split_ifs at h with hemp
    · rw [Option.some.injEq] at h
      subst h
      exact ⟨hn, hf⟩
    · simp only [Option.bind_eq_bind, Option.bind_eq_some] at h
      obtain ⟨st1, h1, h2⟩ := h
      unfold buildLevel at h1
      have haux := buildLevel_wf_aux abs_segments min_seg depth st.frontier
        { st with frontier := [] } hn (by rw [List.append_nil]; exact hf) st1 h1
      exact ih (depth + 1) st1 st' haux.1 haux.2 h2

/-- Helper: the final flush preserves the arena invariant. -/
theorem flushFold_wf : ∀ (F : List (ℕ × List CellEntry)) (st : BuildSt),
    nodesWF st.nodes st.leaf_entries →
    (∀ p ∈ F, ∃ c, st.nodes.get? p.1 = some c ∧ c.children = none ∧
      c.leaf_entry_range = none) →
    (∀ p ∈ F, ∀ e ∈ p.2, e.cell_id = p.1) →
    (F.map Prod.fst).Nodup →
    ∀ st', F.foldlM (fun acc p => makeLeaf acc p.1 p.2) st = some st' →
    nodesWF st'.nodes st'.leaf_entries := by
  intro F
  induction F with
  | nil =>
    intro st hn _ _ _ st' h
    have h' : some st = some st' := h
    rw [Option.some.injEq] at h'
    subst h'
    exact hn
  | cons q F' ih =>
    intro st hn hfv hfe hfn st' h
    rw [List.foldlM_cons] at h
    simp only [Option.bind_eq_bind, Option.bind_eq_some] at h
    obtain ⟨st1, h1, h2⟩ := h
    obtain ⟨hn1, _, _, hpres⟩ := makeLeaf_wf st q.1 q.2 st1 h1 hn
      (hfe q (by simp)) (hfv q (by simp))
    have hqnotin : q.1 ∉ F'.map Prod.fst := by
      have := hfn
      rw [List.map_cons, List.nodup_cons] at this
      exact this.1
    refine ih st1 hn1 ?_ (fun p hp => hfe p (List.mem_cons_of_mem _ hp)) ?_ st' h2
    · intro p hp
      obtain ⟨c, hc, h1c, h2c⟩ := hfv p (List.mem_cons_of_mem _ hp)
      have hne : p.1 ≠ q.1 := by
        intro hcontra
        apply hqnotin
        rw [← hcontra]
        exact List.mem_map_of_mem _ hp
      refine ⟨c, ?_, h1c, h2c⟩
      rw [hpres p.1 hne]
      exact hc
    · have := hfn
      rw [List.map_cons, List.nodup_cons] at this
      exact this.2

/-- Helper: every successful driver run satisfies the arena invariant. -/
theorem build_quadtree_wf (root_bbox : Rect) (root_entries : List CellEntry)
    (max_depth min_seg : ℕ) (abs_segments : List AbstractLineSegment)
    (nodes : List QuadCell) (entries : List CellEntry)
    (h : build_quadtree root_bbox root_entries max_depth min_seg abs_segments
      = some (nodes, entries)) :
    nodesWF nodes entries := by
  unfold build_quadtree at h
  simp only [Option.bind_eq_bind, Option.bind_eq_some] at h
  obtain ⟨st1, h1, st2, h2, h3⟩ := h
  rw [Option.some.injEq, Prod.mk.injEq] at h3
  obtain ⟨h3n, h3e⟩ := h3
  have hn0 : nodesWF [⟨0, 0, root_bbox, none, none⟩] [] := by
    intro i c hc
    rcases i with _ | i
    · injection hc with hc
      subst hc
      refine ⟨rfl, by simp, ?_, ?_⟩
      · intro ch hq
        exact absurd (show (none : Option (ℕ × ℕ × ℕ × ℕ)) = some ch from hq) (by simp)
      · intro r hr
        exact absurd (show (none : Option (ℕ × ℕ)) = some r from hr) (by simp)
    · exact absurd hc (by simp)
  have hf0 : frontWF [⟨0, 0, root_bbox, none, none⟩]
      [(0, root_entries.map fun e => { e with cell_id := 0, cell_pos := TOP_LEFT })] := by
    refine ⟨?_, ?_, by simp⟩
    · intro p hp
      rw [List.mem_singleton] at hp
      subst hp
      exact ⟨⟨0, 0, root_bbox, none, none⟩, rfl, rfl, rfl⟩
    · intro p hp
      rw [List.mem_singleton] at hp
      subst hp
      intro e he
      rw [List.mem_map] at he
      obtain ⟨x, _, hx⟩ := he
      rw [← hx]
  obtain ⟨hn1, hf1⟩ := buildLoop_wf abs_segments min_seg max_depth 0 _ st1 hn0 hf0 h1
  unfold flushFrontier at h2
  have hn2 := flushFold_wf st1.frontier { st1 with frontier := [] } hn1 hf1.1 hf1.2.1
    hf1.2.2 st2 h2
  rw [← h3n, ← h3e]
  exact hn2

/-- A concrete segment (the diagonal from (10,10) to (20,20)) driving the
quadtree counterexamples. -/
def cexSeg : AbstractLineSegment := AbstractLineSegment.new ⟨10, 10⟩ ⟨20, 20⟩ 0 0

set_option maxRecDepth 10000 in
/-- C2 counterexample: on one diagonal segment in a 100×100 root with
`max_depth = 1`, `min_seg = 0`, the build succeeds but arena cell 2 (the
root's TR child, which received no entries and was skipped by the
`continue`) has `children = None` and `leaf_entry_range = None`: it is
neither internal nor a leaf. -/
theorem C2_cex_cell_neither :
    (QuadTree.new [cexSeg] ⟨0, 0, 100, 100⟩ 1 0).isSome = true ∧
    (((QuadTree.new [cexSeg] ⟨0, 0, 100, 100⟩ 1 0).getD ([], [])).1.get? 2).map
      (fun c => (c.children, c.leaf_entry_range)) = some (none, none) :=
  ⟨by with_unfolding_all rfl, by with_unfolding_all rfl⟩

/-- C2 amended.  In every quadtree the driver builds, no arena cell is ever
both internal and a leaf; but a cell can be neither: a child cell that
receives no entries is dropped from the frontier by the `continue` at
`quad_tree.rs:151` and never gets a `leaf_entry_range`. -/
theorem C2_leaf_completeness_amended (abs_segments : List AbstractLineSegment)
    (root_bbox : Rect) (max_depth min_seg : ℕ) (nodes : List QuadCell)
    (entries : List CellEntry)
    (h : QuadTree.new abs_segments root_bbox max_depth min_seg = some (nodes, entries)) :
    ∀ c ∈ nodes, ¬(c.children.isSome ∧ c.leaf_entry_range.isSome) := by
  intro c hc
  obtain ⟨i, hi⟩ := List.mem_iff_get?.mp hc
  exact (build_quadtree_wf root_bbox (init_root_cell_entries abs_segments) max_depth
    min_seg abs_segments nodes entries h i c hi).2.1

set_option maxRecDepth 10000 in
/-- C2 witness: the amended theorem applied at the concrete build's root
cell (internal, so not a leaf). -/
theorem C2_leaf_completeness_amended_witness :
    ¬((⟨0, 0, ⟨0, 0, 100, 100⟩, some (1, 2, 3, 4), none⟩ : QuadCell).children.isSome ∧
      (⟨0, 0, ⟨0, 0, 100, 100⟩, some (1, 2, 3, 4), none⟩ : QuadCell).leaf_entry_range.isSome) := by
  have h0 : ((QuadTree.new [cexSeg] ⟨0, 0, 100, 100⟩ 1 0).getD ([], [])).1.get? 0
      = some ⟨0, 0, ⟨0, 0, 100, 100⟩, some (1, 2, 3, 4), none⟩ := by
    with_unfolding_all rfl
  exact C2_leaf_completeness_amended [cexSeg] ⟨0, 0, 100, 100⟩ 1 0 _ _
    (by with_unfolding_all rfl) _ (List.get?_mem h0)

set_option maxRecDepth 10000 in
/-- C8 counterexample: in the concrete build, the root (id 0) is internal
with children ids `(1, 2, 3, 4)` — the next free arena indices — not
`(0*4+0, …, 0*4+3)` as claimed; and the sole stored leaf entry carries
`cell_id = 1` (the TL child's arena id), not `0*4+0 = 0`. -/
theorem C8_cex_arena_ids :
    (((QuadTree.new [cexSeg] ⟨0, 0, 100, 100⟩ 1 0).getD ([], [])).1.get? 0).map
      (fun c => c.children) = some (some (1, 2, 3, 4)) ∧
    ¬((1, 2, 3, 4) = ((0 * 4 + 0 : ℕ), (0 * 4 + 1 : ℕ), (0 * 4 + 2 : ℕ), (0 * 4 + 3 : ℕ))) ∧
    ((QuadTree.new [cexSeg] ⟨0, 0, 100, 100⟩ 1 0).getD ([], [])).2.map
      (fun e => e.cell_id) = [1] :=
  ⟨by with_unfolding_all rfl, by decide, by with_unfolding_all rfl⟩

/-- C8 amended.  Child arena ids are the next free indices, consecutive
from the first child: cell ids equal arena indices, every internal cell's
`children` tuple is `(b, b+1, b+2, b+3)`, and every entry stored in a leaf's
range carries that leaf's arena id (the kernel's provisional
`parent·4 + cell_pos` label is rewritten to the child's arena id at
`quad_tree.rs:146`). -/
theorem C8_arena_ids_amended (abs_segments : List AbstractLineSegment)
    (root_bbox : Rect) (max_depth min_seg : ℕ) (nodes : List QuadCell)
    (entries : List CellEntry)
    (h : QuadTree.new abs_segments root_bbox max_depth min_seg = some (nodes, entries)) :
    (∀ i c, nodes.get? i = some c → c.id = i) ∧
    (∀ c ∈ nodes, ∀ ch, c.children = some ch →
      ch.2.1 = ch.1 + 1 ∧ ch.2.2.1 = ch.1 + 2 ∧ ch.2.2.2 = ch.1 + 3) ∧
    (∀ c ∈ nodes, ∀ r, c.leaf_entry_range = some r →
      ∀ j en, r.1 ≤ j → j < r.2 → entries.get? j = some en → en.cell_id = c.id) := by
  have hwf := build_quadtree_wf root_bbox (init_root_cell_entries abs_segments) max_depth
    min_seg abs_segments nodes entries h
  refine ⟨fun i c hc => (hwf i c hc).1, ?_, ?_⟩
  · intro c hc ch hch
    obtain ⟨i, hi⟩ := List.mem_iff_get?.mp hc
    exact (hwf i c hi).2.2.1 ch hch
  · intro c hc r hr j en hj1 hj2 hget
    obtain ⟨i, hi⟩ := List.mem_iff_get?.mp hc
    exact ((hwf i c hi).2.2.2 r hr).2 j en hj1 hj2 hget

set_option maxRecDepth 10000 in
/-- C8 witness: the amended theorem applied at the concrete build's TL
child, arena index 1. -/
theorem C8_arena_ids_amended_witness :
    (⟨1, 1, ⟨0, 0, 50, 50⟩, none, some (0, 1)⟩ : QuadCell).id = 1 :=
  (C8_arena_ids_amended [cexSeg] ⟨0, 0, 100, 100⟩ 1 0 _ _ (by with_unfolding_all rfl)).1 1
    ⟨1, 1, ⟨0, 0, 50, 50⟩, none, some (0, 1)⟩ (by with_unfolding_all rfl)

/-! ### The CPU renderer (source `cpu_renderer.rs`) -/

/-- Source `path.rs::AbstractPath`.  The renderer reads only `paint_id`;
`fill_rule` and `bounding_box` are external `usvg` types never read by the
embedded code and are omitted. -/
structure AbstractPath where
  seg_start_idx : ℕ
  seg_end_idx : ℕ
  paint_id : ℕ

/-- Source `path.rs::Paint` (u8 channels as naturals). -/
inductive Paint where
  | SolidColor (rgba : ℕ × ℕ × ℕ × ℕ)

/-- The `is_segment` block of the per-entry loop (source lines 44-61): the
`is_left` band test adds one, the shortcut test adds the marker and raises
`has_shortcut`.  Segment indexing out of bounds (a Rust panic) is modelled
by `none`. -/
def segContribution (abs_segments : List AbstractLineSegment) (node_bbox : Rect)
    (x y : ℕ) (entry : CellEntry) (count : ℤ) (hs : Bool) : Option (ℤ × Bool) :=
  if entry.entry_type &&& ABSTRACT ≠ 0 then
    match abs_segments.get? entry.seg_idx with
    | none => none
    | some seg =>
      let c1 := if seg.is_left (x : ℚ) (y : ℚ) ∧ seg.bboxT ≤ (y : ℚ) ∧ (y : ℚ) < seg.bboxB
        then count + 1 else count
      some (if entry.data ≠ 0 ∧ seg.hit_shortcut node_bbox (x : ℚ) (y : ℚ) then
          (c1 + entry.data, true)
        else (c1, hs))
  else some (count, hs)

/-- The `last_entry_in_path` test (source lines 70-72): the next entry has a
different `path_idx`, or the slice ends. -/
def lastInPath (e : CellEntry) : List CellEntry → Bool
  | [] => true
  | next :: _ => decide (next.path_idx ≠ e.path_idx)

/-- The per-pixel walk over a leaf's entry slice (source lines 31-82):
`count` accumulates within one `path_idx` run, and at each path boundary an
odd count paints the pixel with the path's RGBA and resets the count;
`has_shortcut` and `winc` feed the debug overlay.  Path or paint indexing
out of bounds (a Rust panic) is modelled by `none`. -/
def pixelWalk (abs_segments : List AbstractLineSegment) (abs_paths : List AbstractPath)
    (paints : List Paint) (node_bbox : Rect) (x y : ℕ) :
    List CellEntry → ℤ → ℕ × ℕ × ℕ × ℕ → Bool → ℤ →
    Option ((ℕ × ℕ × ℕ × ℕ) × Bool × ℤ)
  | [], _, out, hs, winc => some (out, hs, winc)
  | entry :: rest, count, out, hs, winc =>
    Option.bind (segContribution abs_segments node_bbox x y entry count hs) fun ch =>
      let count1 := if entry.entry_type &&& WINDING_INCREMENT ≠ 0 then ch.1 + entry.data
        else ch.1
      let winc1 := if entry.entry_type &&& WINDING_INCREMENT ≠ 0 then winc + entry.data
        else winc
      if lastInPath entry rest then
        if count1 % 2 ≠ 0 then
          match abs_paths.get? entry.path_idx with
          | none => none
          | some path =>
            match paints.get? path.paint_id with
            | none => none
            | some (Paint.SolidColor rgba) =>
              pixelWalk abs_segments abs_paths paints node_bbox x y rest 0 rgba ch.2 winc1
        else pixelWalk abs_segments abs_paths paints node_bbox x y rest 0 out ch.2 winc1
      else pixelWalk abs_segments abs_paths paints node_bbox x y rest count1 out ch.2 winc1

/-- The debug-overlay winding stripes (source lines 88-99): `winc.abs()`
iterations, stripe `k` covering `x ∈ [right-(curr+6), right-curr]` with
`curr = 8 + 12·k`; blue for positive winding, red for negative.  `u32`
subtraction is modelled by truncated `Nat` subtraction (in the Rust debug
build an underflow would panic). -/
def overlayStripes (winc : ℤ) (rightb x : ℕ) : ℕ → ℕ → ℕ × ℕ × ℕ × ℕ → ℕ × ℕ × ℕ × ℕ
  | 0, _, out => out
  | k + 1, curr, out =>
    let out1 := if winc ≠ 0 ∧ rightb - (curr + 6) ≤ x ∧ x ≤ rightb - curr then
        (if winc < 0 then (255, 0, 0, 255) else (0, 0, 255, 255))
      else out
    overlayStripes winc rightb x k (curr + 12) out1

/-- The debug overlay applied to one pixel (source lines 83-100,
`DRAW_DEBUG_OVERLAY = true`): the green shortcut stripe, then the winding
stripes. -/
def applyOverlay (out : ℕ × ℕ × ℕ × ℕ) (hs : Bool) (winc : ℤ) (rightb x : ℕ) :
    ℕ × ℕ × ℕ × ℕ :=
  let out1 := if hs = true ∧ rightb - 6 ≤ x ∧ x ≤ rightb then (0, 255, 0, 255) else out
  overlayStripes winc rightb x winc.natAbs 8 out1

/-- What `render_quadtree_by_node_array` stores for one pixel `(x, y)` of
one leaf cell (`rightb` is the leaf's clipped integer right edge from line
24): the walk's colour with the debug overlay applied. -/
def render_pixel (abs_segments : List AbstractLineSegment) (abs_paths : List AbstractPath)
    (paints : List Paint) (node_bbox : Rect) (entries : List CellEntry)
    (rightb x y : ℕ) : Option (ℕ × ℕ × ℕ × ℕ) :=
  Option.bind (pixelWalk abs_segments abs_paths paints node_bbox x y entries 0
      (0, 0, 0, 0) false 0)
    fun r => some (applyOverlay r.1 r.2.1 r.2.2 rightb x)

/-! Specification-side definitions for the per-pixel rule, written from the
claim's words, to be compared with the source-derived `render_pixel`. -/

/-- Spec: one entry's contribution to its path's crossing count. -/
def entryDelta (abs_segments : List AbstractLineSegment) (node_bbox : Rect)
    (x y : ℕ) (e : CellEntry) : Option ℤ :=
  if e.entry_type &&& ABSTRACT ≠ 0 then
    match abs_segments.get? e.seg_idx with
    | none => none
    | some seg =>
      some ((if seg.is_left (x : ℚ) (y : ℚ) ∧ seg.bboxT ≤ (y : ℚ) ∧ (y : ℚ) < seg.bboxB
          then 1 else 0) +
        (if e.data ≠ 0 ∧ seg.hit_shortcut node_bbox (x : ℚ) (y : ℚ) then e.data else 0) +
        (if e.entry_type &&& WINDING_INCREMENT ≠ 0 then e.data else 0))
  else some (if e.entry_type &&& WINDING_INCREMENT ≠ 0 then e.data else 0)

/-- Spec: a path run's total crossing count. -/
def runCount (abs_segments : List AbstractLineSegment) (node_bbox : Rect) (x y : ℕ) :
    List CellEntry → Option ℤ
  | [] => some 0
  | e :: rest => do
    let d ← entryDelta abs_segments node_bbox x y e
    let t ← runCount abs_segments node_bbox x y rest
    some (d + t)

/-- Spec: the paint looked up at a run's last entry. -/
def runPaintColor (abs_paths : List AbstractPath) (paints : List Paint) :
    List CellEntry → Option (ℕ × ℕ × ℕ × ℕ)
  | [] => none
  | [e] =>
    match abs_paths.get? e.path_idx with
    | none => none
    | some path =>
      match paints.get? path.paint_id with
      | none => none
      | some (Paint.SolidColor rgba) => some rgba
  | _ :: e :: rest => runPaintColor abs_paths paints (e :: rest)

/-- Spec: fold the path runs left to right; an odd run overwrites the
colour (later paths over earlier ones), starting from `o`. -/
def pixelSpecFold (abs_segments : List AbstractLineSegment) (abs_paths : List AbstractPath)
    (paints : List Paint) (node_bbox : Rect) (x y : ℕ) (o : ℕ × ℕ × ℕ × ℕ)
    (entries : List CellEntry) : Option (ℕ × ℕ × ℕ × ℕ) :=
  (chunkBy (fun e => e.path_idx) entries).foldlM
    (fun out r => do
      let t ← runCount abs_segments node_bbox x y r
      if t % 2 ≠ 0 then runPaintColor abs_paths paints r
      else some out)
    o

/-- Spec: the claimed per-pixel colour, starting from the written default
`[0,0,0,0]`. -/
def pixelColorSpec (abs_segments : List AbstractLineSegment) (abs_paths : List AbstractPath)
    (paints : List Paint) (node_bbox : Rect) (x y : ℕ) (entries : List CellEntry) :
    Option (ℕ × ℕ × ℕ × ℕ) :=
  pixelSpecFold abs_segments abs_paths paints node_bbox x y (0, 0, 0, 0) entries

/-- Helper: the count coming out of the segment block does not depend on the
incoming `has_shortcut` flag. -/
theorem segContribution_fst (segs : List AbstractLineSegment) (bbox : Rect) (x y : ℕ)
    (e : CellEntry) (c : ℤ) (hs hs' : Bool) :
    (segContribution segs bbox x y e c hs).map (·.1) =
      (segContribution segs bbox x y e c hs').map (·.1) := by
  unfold segContribution
  split_ifs with h1
  · cases hget : segs.get? e.seg_idx with
    | none => rfl
    | some seg =>
      simp only [Option.map_some']
      split_ifs <;> rfl
  · rfl

/-- Helper: the segment block's count plus the winding term equals the
claim's per-entry delta added to the running count. -/
theorem count_step (segs : List AbstractLineSegment) (bbox : Rect) (x y : ℕ)
    (e : CellEntry) (c : ℤ) (hs : Bool) :
    ((segContribution segs bbox x y e c hs).map
      (fun ch => if e.entry_type &&& WINDING_INCREMENT ≠ 0 then ch.1 + e.data else ch.1)) =
      (entryDelta segs bbox x y e).map (fun d => c + d) := by
  unfold segContribution entryDelta
  by_cases habs : e.entry_type &&& ABSTRACT ≠ 0
  · rw [if_pos habs, if_pos habs]
    cases hget : segs.get? e.seg_idx with
    | none => rfl
    | some seg =>
      simp only [Option.map_some', Option.some.injEq]
      split_ifs <;> omega
  · rw [if_neg habs, if_neg habs]
    simp only [Option.map_some', Option.some.injEq]
    split_ifs <;> omega

/-- Helper: the walk's colour does not depend on the incoming overlay
accumulators `has_shortcut` and `winc`. -/
theorem pixelWalk_fst_congr (segs : List AbstractLineSegment) (paths : List AbstractPath)
    (paints : List Paint) (bbox : Rect) (x y : ℕ) :
    ∀ (l : List CellEntry) (c : ℤ) (o : ℕ × ℕ × ℕ × ℕ) (hs : Bool) (w : ℤ)
      (hs' : Bool) (w' : ℤ),
    (pixelWalk segs paths paints bbox x y l c o hs w).map (·.1) =
      (pixelWalk segs paths paints bbox x y l c o hs' w').map (·.1) := by
  intro l
  induction l with
  | nil =>
    intro c o hs w hs' w'
    rfl
  | cons e rest ih =>
    intro c o hs w hs' w'
    simp only [pixelWalk]
    have hsc := segContribution_fst segs bbox x y e c hs hs'
    cases h1 : segContribution segs bbox x y e c hs with
    | none =>
      rw [h1] at hsc
      cases h2 : segContribution segs bbox x y e c hs' with
      | none => rfl
      | some ch' =>
        rw [h2] at hsc
        exact absurd hsc (by simp)
    | some ch =>
      rw [h1] at hsc
      cases h2 : segContribution segs bbox x y e c hs' with
      | none =>
        rw [h2] at hsc
        exact absurd hsc (by simp)
      | some ch' =>
        rw [h2] at hsc
        simp only [Option.map_some', Option.some.injEq] at hsc
        simp only [Option.some_bind]
        rw [← hsc]
        by_cases hlast : lastInPath e rest = true
        · rw [if_pos hlast, if_pos hlast]
          by_cases hodd : (if e.entry_type &&& WINDING_INCREMENT ≠ 0 then ch.1 + e.data
              else ch.1) % 2 ≠ 0
          · rw [if_pos hodd, if_pos hodd]
            cases hp : paths.get? e.path_idx with
            | none => rfl
            | some path =>
              dsimp only
              cases hq : paints.get? path.paint_id with
              | none => rfl
              | some pc =>
                cases pc with
                | SolidColor rgba =>
                  dsimp only
                  exact ih 0 rgba ch.2 _ ch'.2 _
          · rw [if_neg hodd, if_neg hodd]
            exact ih 0 o ch.2 _ ch'.2 _
        · rw [if_neg hlast, if_neg hlast]
          exact ih _ o ch.2 _ ch'.2 _

/-- Helper: the walk processes one maximal path run as the claim describes:
total the run's deltas, paint on odd, reset, continue. -/
theorem pixelWalk_run (segs : List AbstractLineSegment) (paths : List AbstractPath)
    (paints : List Paint) (bbox : Rect) (x y : ℕ) :
    ∀ (R : List CellEntry) (p0 : ℕ), R ≠ [] → (∀ b ∈ R, b.path_idx = p0) →
    ∀ (d : List CellEntry), (d = [] ∨ ∃ b d', d = b :: d' ∧ b.path_idx ≠ p0) →
    ∀ (c : ℤ) (o : ℕ × ℕ × ℕ × ℕ) (hs : Bool) (w : ℤ),
    (pixelWalk segs paths paints bbox x y (R ++ d) c o hs w).map (·.1) =
      Option.bind (runCount segs bbox x y R) (fun t =>
        if (c + t) % 2 ≠ 0 then
          Option.bind (runPaintColor paths paints R) (fun rgba =>
            (pixelWalk segs paths paints bbox x y d 0 rgba hs w).map (·.1))
        else (pixelWalk segs paths paints bbox x y d 0 o hs w).map (·.1)) := by
  intro R
  induction R with
  | nil =>
    intro p0 hne
    exact absurd rfl hne
  | cons e R' ih =>
    intro p0 _ hsame d hd c o hs w
    rw [List.cons_append]
    simp only [pixelWalk]
    have hcs := count_step segs bbox x y e c hs
    cases h1 : segContribution segs bbox x y e c hs with
    | none =>
      rw [h1] at hcs
      cases h3 : entryDelta segs bbox x y e with
      | some d0 =>
        rw [h3] at hcs
        exact absurd hcs (by simp)
      | none =>
        simp only [runCount, Option.bind_eq_bind, h3, Option.none_bind]
        rfl
    | some ch =>
      rw [h1] at hcs
      simp only [Option.map_some'] at hcs
      cases h3 : entryDelta segs bbox x y e with
      | none =>
        rw [h3] at hcs
        exact absurd hcs (by simp)
      | some d0 =>
        rw [h3] at hcs
        simp only [Option.map_some', Option.some.injEq] at hcs
        have hrc : runCount segs bbox x y (e :: R') =
            Option.bind (runCount segs bbox x y R') (fun t => some (d0 + t)) := by
          simp only [runCount, Option.bind_eq_bind, h3, Option.some_bind]
        rw [hrc]
        simp only [Option.bind]
        rw [hcs]
        cases R' with
        | nil =>
          have hlast : lastInPath e d = true := by
            rcases hd with hd | ⟨b, d', hd, hb⟩
            · subst hd
              rfl
            · subst hd
              unfold lastInPath
              have he : e.path_idx = p0 := hsame e (by simp)
              rw [decide_eq_true_iff]
              rw [he]
              exact fun hcontra => hb hcontra
          rw [List.nil_append, if_pos hlast]
          simp only [runCount, Option.some_bind]
          rw [Int.add_zero]
          by_cases hodd : (c + d0) % 2 ≠ 0
          · rw [if_pos hodd, if_pos hodd]
            simp only [runPaintColor]
            cases hp : paths.get? e.path_idx with
            | none => rfl
            | some path =>
              dsimp only
              cases hq : paints.get? path.paint_id with
              | none => rfl
              | some pc =>
                cases pc with
                | SolidColor rgba =>
                  dsimp only
                  exact pixelWalk_fst_congr segs paths paints bbox x y d 0 rgba ch.2 _ hs w
          · rw [if_neg hodd, if_neg hodd]
            exact pixelWalk_fst_congr segs paths paints bbox x y d 0 o ch.2 _ hs w
        | cons e2 R'' =>
          have he : e.path_idx = p0 := hsame e (by simp)
          have he2 : e2.path_idx = p0 := hsame e2 (by simp)
          have hlast : ¬(lastInPath e (e2 :: (R'' ++ d)) = true) := by
            unfold lastInPath
            rw [decide_eq_true_iff]
            intro hcontra
            exact hcontra (he2.trans he.symm)
          rw [List.cons_append, if_neg hlast]
          rw [show e2 :: (R'' ++ d) = (e2 :: R'') ++ d from rfl]
          rw [ih p0 (by simp) (fun b hb => hsame b (List.mem_cons_of_mem _ hb)) d hd
            (c + d0) o ch.2 _]
          have hrp : runPaintColor paths paints (e :: e2 :: R'') =
              runPaintColor paths paints (e2 :: R'') := rfl
          rw [hrp]
          cases hrc2 : runCount segs bbox x y (e2 :: R'') with
          | none => rfl
          | some t' =>
            simp only [Option.some_bind]
            rw [show c + (d0 + t') = c + d0 + t' from (Int.add_assoc c d0 t').symm]
            by_cases hodd : (c + d0 + t') % 2 ≠ 0
            · rw [if_pos hodd, if_pos hodd]
              cases hpc : runPaintColor paths paints (e2 :: R'') with
              | none => rfl
              | some rgba =>
                simp only [Option.some_bind]
                exact pixelWalk_fst_congr segs paths paints bbox x y d 0 rgba ch.2 _ hs w
            · rw [if_neg hodd, if_neg hodd]
              exact pixelWalk_fst_congr segs paths paints bbox x y d 0 o ch.2 _ hs w

/-- Helper: the walk's colour equals the claim's run fold (bounded
recursion form). -/
theorem pixelWalk_eq_spec (segs : List AbstractLineSegment) (paths : List AbstractPath)
    (paints : List Paint) (bbox : Rect) (x y : ℕ) :
    ∀ (n : ℕ) (l : List CellEntry), l.length ≤ n →
    ∀ (o : ℕ × ℕ × ℕ × ℕ) (hs : Bool) (w : ℤ),
    (pixelWalk segs paths paints bbox x y l 0 o hs w).map (·.1) =
      pixelSpecFold segs paths paints bbox x y o l := by
  intro n
  induction n with
  | zero =>
    intro l hl o hs w
    rw [Nat.le_zero, List.length_eq_zero] at hl
    subst hl
    rfl
  | succ n ihn =>
    intro l hl o hs w
    cases l with
    | nil => rfl
    | cons a rest =>
      have hsplit : a :: rest =
          (a :: rest.takeWhile (fun b => b.path_idx == a.path_idx)) ++
            rest.dropWhile (fun b => b.path_idx == a.path_idx) := by
        rw [List.cons_append, List.takeWhile_append_dropWhile]
      have hsame : ∀ b ∈ a :: rest.takeWhile (fun b => b.path_idx == a.path_idx),
          b.path_idx = a.path_idx := by
        intro b hb
        rcases List.mem_cons.mp hb with hb | hb
        · rw [hb]
        · have hb' := List.mem_takeWhile_imp hb
          exact eq_of_beq hb'
      have hd : rest.dropWhile (fun b => b.path_idx == a.path_idx) = [] ∨
          ∃ b d', rest.dropWhile (fun b => b.path_idx == a.path_idx) = b :: d' ∧
            b.path_idx ≠ a.path_idx := by
        cases hd' : rest.dropWhile (fun b => b.path_idx == a.path_idx) with
        | nil => exact Or.inl rfl
        | cons b d' =>
          refine Or.inr ⟨b, d', rfl, ?_⟩
          have hfalse := dropWhile_head_not _ rest b (by rw [hd']; rfl)
          intro hcontra
          have hfalse' : (b.path_idx == a.path_idx) = false := hfalse
          rw [hcontra] at hfalse'
          simp at hfalse'
      have hdlen : (rest.dropWhile (fun b => b.path_idx == a.path_idx)).length ≤ n := by
        have h1 := dropWhile_length_le (fun b => b.path_idx == a.path_idx) rest
        rw [List.length_cons] at hl
        omega
      rw [show pixelWalk segs paths paints bbox x y (a :: rest) 0 o hs w =
          pixelWalk segs paths paints bbox x y
            ((a :: rest.takeWhile (fun b => b.path_idx == a.path_idx)) ++
              rest.dropWhile (fun b => b.path_idx == a.path_idx)) 0 o hs w from by
        rw [← hsplit]]
      rw [pixelWalk_run segs paths paints bbox x y _ a.path_idx (by simp) hsame _ hd 0 o hs w]
      unfold pixelSpecFold
      rw [chunkBy_cons]
      rw [List.foldlM_cons]
      simp only [Option.bind_eq_bind]
      cases hrc : runCount segs bbox x y
          (a :: rest.takeWhile (fun b => b.path_idx == a.path_idx)) with
      | none => rfl
      | some t =>
        simp only [Option.some_bind]
        rw [Int.zero_add]
        by_cases hodd : t % 2 ≠ 0
        · rw [if_pos hodd, if_pos hodd]
          cases hpc : runPaintColor paths paints
              (a :: rest.takeWhile (fun b => b.path_idx == a.path_idx)) with
          | none => rfl
          | some rgba =>
            simp only [Option.some_bind]
            exact ihn _ hdlen rgba hs w
        · rw [if_neg hodd, if_neg hodd]
          simp only [Option.some_bind]
          exact ihn _ hdlen o hs w

/-- The pixels the debug overlay touches: the green shortcut stripe near the
right edge, or one of the `|winc|` winding stripes. -/
def overlayActive (hs : Bool) (winc : ℤ) (rightb x : ℕ) : Prop :=
  (hs = true ∧ rightb - 6 ≤ x ∧ x ≤ rightb) ∨
  (winc ≠ 0 ∧ ∃ k, k < winc.natAbs ∧
    rightb - (8 + 12 * k + 6) ≤ x ∧ x ≤ rightb - (8 + 12 * k))

/-- Helper: the winding stripes leave a pixel alone when it is on none of
them. -/
theorem overlayStripes_inactive (winc : ℤ) (rightb x : ℕ) :
    ∀ (m curr : ℕ) (out : ℕ × ℕ × ℕ × ℕ),
    (∀ k, k < m →
      ¬(winc ≠ 0 ∧ rightb - (curr + 12 * k + 6) ≤ x ∧ x ≤ rightb - (curr + 12 * k))) →
    overlayStripes winc rightb x m curr out = out := by
  intro m
  induction m with
  | zero =>
    intro curr out _
    rfl
  | succ m ih =>
    intro curr out hno
    have h0 := hno 0 (by omega)
    simp only [Nat.mul_zero, Nat.add_zero] at h0
    simp only [overlayStripes]
    rw [if_neg h0]
    apply ih
    intro k hk
    have hk1 := hno (k + 1) (by omega)
    rw [show curr + 12 + 12 * k = curr + 12 * (k + 1) from by ring]
    exact hk1

/-- Helper: the overlay leaves a pixel alone when no overlay condition
holds. -/
theorem applyOverlay_inactive (out : ℕ × ℕ × ℕ × ℕ) (hs : Bool) (winc : ℤ)
    (rightb x : ℕ) (h : ¬overlayActive hs winc rightb x) :
    applyOverlay out hs winc rightb x = out := by
  unfold overlayActive at h
  rw [not_or] at h
  obtain ⟨h1, h2⟩ := h
  unfold applyOverlay
  rw [if_neg h1]
  apply overlayStripes_inactive
  intro k hk
  rintro ⟨hw, hk1, hk2⟩
  exact h2 ⟨hw, k, hk, hk1, hk2⟩

/-- A concrete path, paint and winding entry driving the renderer
counterexample. -/
def cexPath : AbstractPath := ⟨0, 0, 0⟩

/-- The concrete red paint of the counterexample's path. -/
def cexPaint : Paint := Paint.SolidColor (255, 0, 0, 255)

/-- A winding-increment entry with data `+1` for path 0. -/
def cexWincEntry : CellEntry := ⟨WINDING_INCREMENT, 1, NONE_U32, 0, TOP_LEFT, 1⟩

/-- C5 counterexample: a leaf holding one `WINDING +1` entry for a path
painted red, pixel `(90, 50)` in a cell with clipped right edge 100: the
walk's count is odd, so the claim says the pixel becomes the path's red —
but `DRAW_DEBUG_OVERLAY = true` draws the `winc = 1` blue stripe over
`x ∈ [86, 92]`, and the pixel is blue. -/
theorem C5_cex_overlay_overwrites :
    render_pixel [] [cexPath] [cexPaint] ⟨0, 0, 100, 100⟩ [cexWincEntry] 100 90 50
      = some (0, 0, 255, 255) ∧
    pixelColorSpec [] [cexPath] [cexPaint] ⟨0, 0, 100, 100⟩ 90 50 [cexWincEntry]
      = some (255, 0, 0, 255) :=
  ⟨rfl, rfl⟩

/-- C5 amended.  The per-entry walk itself is as claimed: its colour equals
the claim's path-run fold (odd count paints the path's RGBA, later paths
overwrite, default `[0,0,0,0]` — note the pixel is always written, so an
all-even pixel becomes transparent black rather than keeping the
background).  But the stored pixel is the walk's colour with the
`DRAW_DEBUG_OVERLAY = true` overlay applied, which matches the claim only
away from the shortcut and winding stripes. -/
theorem C5_render_pixel_amended (segs : List AbstractLineSegment)
    (paths : List AbstractPath) (paints : List Paint) (bbox : Rect)
    (entries : List CellEntry) (rightb x y : ℕ) (out : ℕ × ℕ × ℕ × ℕ) (hs : Bool)
    (winc : ℤ)
    (h : pixelWalk segs paths paints bbox x y entries 0 (0, 0, 0, 0) false 0
      = some (out, hs, winc)) :
    pixelColorSpec segs paths paints bbox x y entries = some out ∧
    render_pixel segs paths paints bbox entries rightb x y
      = some (applyOverlay out hs winc rightb x) ∧
    (¬overlayActive hs winc rightb x →
      render_pixel segs paths paints bbox entries rightb x y = some out) := by
  have hspec := pixelWalk_eq_spec segs paths paints bbox x y entries.length entries
    (Nat.le_refl _) (0, 0, 0, 0) false 0
  rw [h] at hspec
  simp only [Option.map_some'] at hspec
  have hr : render_pixel segs paths paints bbox entries rightb x y
      = some (applyOverlay out hs winc rightb x) := by
    unfold render_pixel
    rw [h]
    rfl
  refine ⟨hspec.symm, hr, ?_⟩
  intro hna
  rw [hr, applyOverlay_inactive out hs winc rightb x hna]

/-- C5 witness: the amended theorem applied at the concrete leaf. -/
theorem C5_render_pixel_amended_witness :
    pixelColorSpec [] [cexPath] [cexPaint] ⟨0, 0, 100, 100⟩ 90 50 [cexWincEntry]
      = some (255, 0, 0, 255) :=
  (C5_render_pixel_amended [] [cexPath] [cexPaint] ⟨0, 0, 100, 100⟩ [cexWincEntry]
    100 90 50 (255, 0, 0, 255) false 1 rfl).1

end PVG
